import Mathlib

/-!
# fox: RLNC coordinator — state engine, budget arithmetic and coder map

A shallow embedding of the parts of `hundeboll/fox` that the specification
talks about, followed by the theorems that settle the specification's claims.

Conventions of the embedding

* `uint8_t` states and events are natural numbers; they are only stored and
  compared, never computed with.
* `std::vector` indexing out of range is undefined behaviour in the source; the
  embedding returns `none` there.
* `size_t` arithmetic is arithmetic modulo `2 ^ 64`.
* `double` values are rationals (`ℚ`).  The helper's `max_budget` and the
  conversion of a percentage flag to an estimate round every operation as
  IEEE 754 binary64 does (`binary64.round`); the other `double` operations are
  exact.  A floating division by zero is `none`.
-/

namespace Fox

/-! ## `src/states.hpp` -/

/-- The `enum { __STATE_INVALID = 0, __STATE_WAIT, __STATE_DONE, __STATE_NUM }`. -/
def __STATE_INVALID : Nat := 0
/-- Initial state, blocks until signalled. -/
def __STATE_WAIT : Nat := 1
/-- Terminal state. -/
def __STATE_DONE : Nat := 2
/-- Number of inherited states. -/
def __STATE_NUM : Nat := 3

/-- The data members of `class states` that `dispatch_event`, `set_state` and
the driver thread read and write: `m_curr_state`, `m_next_state` and
`m_trans_table` (a `std::vector<std::vector<state_type>>`). -/
structure states where
  m_curr_state : Nat
  m_next_state : Nat
  m_trans_table : List (List Nat)
deriving DecidableEq, Repr

namespace states

/-- The constructor `states()`: both states are `__STATE_WAIT`, the transition
table is still empty. -/
def ctor : states :=
  { m_curr_state := __STATE_WAIT, m_next_state := __STATE_WAIT, m_trans_table := [] }

/-- The call `std::vector::resize(n, v)`. -/
def resize {α : Type} (l : List α) (n : Nat) (v : α) : List α :=
  l.take n ++ List.replicate (n - l.length) v

/-- The method `init(coder_num, s_num, e_num)`: resize the transition table to
`s_num` rows, every new row being `e_num` cells of `__STATE_INVALID`. -/
def init (s : states) (s_num e_num : Nat) : states :=
  { s with m_trans_table :=
      resize s.m_trans_table s_num (List.replicate e_num __STATE_INVALID) }

/-- The read `m_trans_table[st][event]`. -/
def trans (t : List (List Nat)) (st event : Nat) : Option Nat :=
  match t[st]? with
  | none => none
  | some row => row[event]?

/-- The method `add_trans(from, event, to)`: `m_trans_table[from][event] = to`. -/
def add_trans (s : states) (from_ event to_ : Nat) : Option states :=
  match s.m_trans_table[from_]? with
  | none => none
  | some row =>
    if event < row.length then
      some { s with m_trans_table := s.m_trans_table.set from_ (row.set event to_) }
    else none

/-- The method `dispatch_event(event)`:
```
if (m_curr_state.load() != m_next_state.load()) return;
m_next_state = m_trans_table[m_curr_state][event];
if (m_next_state == __STATE_INVALID) m_next_state = __STATE_DONE;
```
-/
def dispatch_event (s : states) (event : Nat) : Option states :=
  if s.m_curr_state ≠ s.m_next_state then some s
  else
    match trans s.m_trans_table s.m_curr_state event with
    | none => none
    | some n =>
      if n = __STATE_INVALID then some { s with m_next_state := __STATE_DONE }
      else some { s with m_next_state := n }

/-- The method `set_state(s)`: `m_next_state = s`. -/
def set_state (s : states) (st : Nat) : states :=
  { s with m_next_state := st }

/-- The assignment `m_curr_state = m_next_state.load()` that the driver
`thread_func` executes after the handler of the current state has returned. -/
def thread_load (s : states) : states :=
  { s with m_curr_state := s.m_next_state }

/-- Configurations that the engine of a coder can be in: it starts from the
given configuration, and then events are dispatched and the driver loads the
next state, in any interleaving. -/
inductive Reachable (s0 : states) : states → Prop
  | start : Reachable s0 s0
  | dispatch {s s' : states} (e : Nat) :
      Reachable s0 s → dispatch_event s e = some s' → Reachable s0 s'
  | load {s : states} : Reachable s0 s → Reachable s0 (thread_load s)

end states

/-! ## `src/encoder.hpp`: states, events and the transition table -/

namespace encoder

/-- The `enum m_state` of the encoder. -/
def STATE_INVALID : Nat := __STATE_INVALID
def STATE_WAIT : Nat := __STATE_WAIT
def STATE_DONE : Nat := __STATE_DONE
def STATE_FULL : Nat := 3
def STATE_SEND_BUDGET : Nat := 4
def STATE_WAIT_ACK : Nat := 5
def STATE_NUM : Nat := 6

/-- The `enum m_event` of the encoder. -/
def EVENT_FULL : Nat := 0
def EVENT_START : Nat := 1
def EVENT_BUDGET_SENT : Nat := 2
def EVENT_ACKED : Nat := 3
def EVENT_TIMEOUT : Nat := 4
def EVENT_NUM : Nat := 5

/-- The state engine after the constructor `full_rlnc_encoder_deep()` has run:
`states::init(m_coder, STATE_NUM, EVENT_NUM)` followed by the nine `add_trans`
calls, in source order. -/
def ctor : Option states :=
  (some (states.ctor.init STATE_NUM EVENT_NUM))
    |>.bind (·.add_trans STATE_WAIT EVENT_FULL STATE_FULL)
    |>.bind (·.add_trans STATE_WAIT EVENT_TIMEOUT STATE_DONE)
    |>.bind (·.add_trans STATE_WAIT EVENT_ACKED STATE_DONE)
    |>.bind (·.add_trans STATE_FULL EVENT_START STATE_SEND_BUDGET)
    |>.bind (·.add_trans STATE_FULL EVENT_ACKED STATE_DONE)
    |>.bind (·.add_trans STATE_SEND_BUDGET EVENT_BUDGET_SENT STATE_WAIT_ACK)
    |>.bind (·.add_trans STATE_SEND_BUDGET EVENT_ACKED STATE_DONE)
    |>.bind (·.add_trans STATE_WAIT_ACK EVENT_ACKED STATE_DONE)
    |>.bind (·.add_trans STATE_WAIT_ACK EVENT_TIMEOUT STATE_DONE)

/-- The transition table the encoder's constructor leaves behind. -/
def trans_table : List (List Nat) :=
  match ctor with
  | some s => s.m_trans_table
  | none => []

/-- The transitions of the encoder as the specification lists them:
`(state, event, next state)`. -/
def spec_transitions : List (Nat × Nat × Nat) :=
  [ (STATE_WAIT, EVENT_FULL, STATE_FULL),
    (STATE_WAIT, EVENT_TIMEOUT, STATE_DONE),
    (STATE_WAIT, EVENT_ACKED, STATE_DONE),
    (STATE_FULL, EVENT_START, STATE_SEND_BUDGET),
    (STATE_FULL, EVENT_ACKED, STATE_DONE),
    (STATE_SEND_BUDGET, EVENT_BUDGET_SENT, STATE_WAIT_ACK),
    (STATE_SEND_BUDGET, EVENT_ACKED, STATE_DONE),
    (STATE_WAIT_ACK, EVENT_ACKED, STATE_DONE),
    (STATE_WAIT_ACK, EVENT_TIMEOUT, STATE_DONE) ]

/-- The cell of the specified table: the listed next state, `INVALID` for a
pair that is not listed. -/
def spec_cell (st ev : Nat) : Nat :=
  match spec_transitions.find? (fun t => t.1 == st && t.2.1 == ev) with
  | some t => t.2.2
  | none => STATE_INVALID

end encoder

/-! ## Machine integers -/

/-- The type `uint8_t`. -/
abbrev uint8_t : Type := Fin 256

/-- The modulus of `size_t` arithmetic (64-bit words). -/
def SIZE_MOD : Nat := 2 ^ 64

/-- Addition of two `size_t` values. -/
def uadd (a b : Nat) : Nat := (a + b) % SIZE_MOD

/-- Subtraction of two `size_t` values; wraps around below zero. -/
def usub (a b : Nat) : Nat := (a % SIZE_MOD + (SIZE_MOD - b % SIZE_MOD)) % SIZE_MOD

/-- Multiplication of two `size_t` values. -/
def umul (a b : Nat) : Nat := (a * b) % SIZE_MOD

/-- The GNU conditional `x ? : y` with omitted middle operand. -/
def elvis (x y : Nat) : Nat := if x ≠ 0 then x else y

/-- A `bool` used as an integer, as in `(nom % denom != 0)`. -/
def b2n (b : Bool) : Nat := if b then 1 else 0

/-- Conversion of a `double` to `size_t`: truncation toward zero, undefined
when the truncated value is not representable. -/
def double_to_size_t (x : ℚ) : Option Nat :=
  if -1 < x ∧ x < (SIZE_MOD : ℚ) then some (Int.toNat ⌊x⌋) else none

/-! ## IEEE 754 binary64: the type `double` -/

namespace binary64

/-- The power `2^q` for an integer exponent `q`. -/
def pow2 (q : Int) : ℚ :=
  if 0 ≤ q then ((2 ^ q.toNat : ℕ) : ℚ) else 1 / ((2 ^ (-q).toNat : ℕ) : ℚ)

/-- The integer nearest to `m`, the even one of the two when `m` lies halfway
between them. -/
def round_half_even (m : ℚ) : Int :=
  let n := ⌊m⌋
  let f := m - (n : ℚ)
  if f < 1 / 2 then n else if 1 / 2 < f then n + 1 else if n % 2 = 0 then n else n + 1

/-- The number of halvings that bring `n` below two, with fuel. -/
def ilog2_fuel : Nat → Nat → Nat
  | 0, _ => 0
  | fuel + 1, n => if n < 2 then 0 else ilog2_fuel fuel (n / 2) + 1

/-- The integer `k` with `2^k ≤ n < 2^(k+1)`, for `n ≥ 1`. -/
def ilog2 (n : Nat) : Nat := ilog2_fuel n n

/-- The integer `e` with `2^e ≤ |x| < 2^(e+1)`, for `x ≠ 0`. -/
def exponent (x : ℚ) : Int :=
  let e0 : Int := (ilog2 x.num.natAbs : Int) - (ilog2 x.den : Int)
  if pow2 e0 ≤ |x| then e0 else e0 - 1

/-- The rounding of binary64 with the exponent unbounded above: the nearest
number with 53 significant bits, or the nearest multiple of `2^-1074` in the
subnormal range, ties to even. -/
def round_value (x : ℚ) : ℚ :=
  if x = 0 then 0
  else
    let q := max (exponent x - 52) (-1074)
    (round_half_even (x / pow2 q) : ℚ) * pow2 q

/-- The `double` that an operation with the exact result `x` delivers in the
default rounding mode; `none` when that is an infinity. -/
def round (x : ℚ) : Option ℚ :=
  let y := round_value x
  if |y| < ((2 ^ 1024 : ℕ) : ℚ) then some y else none

end binary64

/-! ## `src/coder.hpp`: budget arithmetic -/

namespace coder

/-- The member `size_t ONE = {255}`. -/
def ONE : Nat := 255

/-- The method `r_test`: `return (ONE - e2) < (e3 - e1*e3/ONE);`. -/
def r_test (e1 e2 e3 : uint8_t) : Bool :=
  decide (usub ONE e2.val < usub e3.val (e1.val * e3.val / ONE))

/-- The method `r_val`:
```
if (r_test(e1, e2, e3)) {
    denom = e3 - e1*e3/ONE ? : ONE;
    return ONE/denom + (ONE % denom != 0);
} else {
    nom = ONE*g - g*e2 - g*e3 + g*e1*e3/ONE;
    denom = ONE + e1*e3*e2/ONE/ONE - e2 - e1*e3/ONE ? : ONE;
    return nom/denom + (nom % denom != 0);
}
```
-/
def r_val (g : Nat) (e1 e2 e3 : uint8_t) : Nat :=
  if r_test e1 e2 e3 then
    let denom := elvis (usub e3.val (e1.val * e3.val / ONE)) ONE
    uadd (ONE / denom) (b2n (ONE % denom != 0))
  else
    let nom := uadd (usub (usub (umul ONE g) (umul g e2.val)) (umul g e3.val))
                 (umul (umul g e1.val) e3.val / ONE)
    let denom := elvis (usub (usub (uadd ONE (e1.val * e3.val * e2.val / ONE / ONE)) e2.val)
                   (e1.val * e3.val / ONE)) ONE
    uadd (nom / denom) (b2n (nom % denom != 0))

/-- The method `source_budget`, with `FLAGS_fixed_overshoot` as `overshoot`:
```
size_t r = r_val(g, e1, e2, e3);
if (e3 >= ONE - 1) return FLAGS_fixed_overshoot*g;
nom = g*ONE + r*ONE - r*e2;
denom = 2*ONE - e3 - e2 ? : ONE;
return FLAGS_fixed_overshoot*nom/denom;
```
-/
def source_budget (overshoot : ℚ) (g : Nat) (e1 e2 e3 : uint8_t) : ℚ :=
  let r := r_val g e1 e2 e3
  if e3.val ≥ usub ONE 1 then overshoot * (g : ℚ)
  else
    let nom : Nat := usub (uadd (umul g ONE) (umul r ONE)) (umul r e2.val)
    let denom : Nat := elvis (usub (usub (umul 2 ONE) e3.val) e2.val) ONE
    overshoot * (nom : ℚ) / (denom : ℚ)

/-- The method `recoder_budget`; the integer division by a zero `denom` is
undefined:
```
size_t nom, denom, r = r_val(g, e1, e2, e3);
nom = g*ONE + r*ONE - r*e2;
denom = 2*ONE - e3 - e2;
return nom/denom + (nom % denom != 0);
```
-/
def recoder_budget (g : Nat) (e1 e2 e3 : uint8_t) : Option Nat :=
  let r := r_val g e1 e2 e3
  let nom := usub (uadd (umul g ONE) (umul r ONE)) (umul r e2.val)
  let denom := usub (usub (umul 2 ONE) e3.val) e2.val
  if denom = 0 then none
  else some (uadd (nom / denom) (b2n (nom % denom != 0)))

end coder

/-! ## `src/helper.hpp`: budget and credit of the helper -/

namespace helper

open coder

/-- The guard `e1 == ONE - 1 || e2 == ONE - 1 || e3 == ONE - 1`. -/
def missing_estimate (e1 e2 e3 : uint8_t) : Bool :=
  e1.val == usub ONE 1 || e2.val == usub ONE 1 || e3.val == usub ONE 1

/-- The method `max_budget()` of the helper, with `this->symbols()` as
`symbols`, the members `e1`, `e2`, `e3`, and `overshoot` the value given for the
flag `fixed_overshoot`, so that `FLAGS_fixed_overshoot` is the `double` nearest
to it:
```
if (e1 == ONE - 1 || e2 == ONE - 1 || e3 == ONE - 1) return this->symbols() / 2;
g = this->symbols();
r = r_val(g, e1, e2, e3);
nom = e3*r - r*ONE + g*ONE;
denom = 2*ONE - e3 - e2;
return FLAGS_fixed_overshoot*nom/denom + (nom % denom != 0);
```
The return expression is evaluated in `double`: `nom`, `denom` and the bit are
converted, and the product, the quotient and the sum are rounded one after the
other. The remainder by a zero `denom` is undefined, and so is the conversion
of the returned `double` to `size_t` when it is infinite or out of range. -/
def max_budget (overshoot : ℚ) (symbols : Nat) (e1 e2 e3 : uint8_t) : Option Nat :=
  if missing_estimate e1 e2 e3 then some (symbols / 2)
  else
    let g := symbols
    let r := r_val g e1 e2 e3
    let nom := uadd (usub (umul e3.val r) (umul r ONE)) (umul g ONE)
    let denom := usub (usub (umul 2 ONE) e3.val) e2.val
    if denom = 0 then none
    else
      match binary64.round overshoot with
      | none => none
      | some ov =>
        match binary64.round (ov * binary64.round_value (nom : ℚ)) with
        | none => none
        | some p =>
          match binary64.round (p / binary64.round_value (denom : ℚ)) with
          | none => none
          | some q =>
            match binary64.round (q + (b2n (nom % denom != 0) : ℚ)) with
            | none => none
            | some s => double_to_size_t s

/-- The method `credit()` of the helper; `none` is the division by zero, whose
result is no finite `double`:
```
if (e1 == ONE - 1 || e2 == ONE - 1 || e3 == ONE - 1) return 1;
return static_cast<double>(ONE)/(ONE - e1);
```
-/
def credit (e1 e2 e3 : uint8_t) : Option ℚ :=
  if missing_estimate e1 e2 e3 then some 1
  else
    let denom := usub ONE e1.val
    if denom = 0 then none else some ((ONE : ℚ) / (denom : ℚ))

end helper

/-! ## The budget formulas in the words of the specification -/

namespace spec

/-- The specified `r(g,e1,e2,e3)`, with `ONE = 255`, integer division inside
and the ceiling of the exact quotient outside; a zero denominator becomes `1`
through `max(·, 1)`. -/
def r (g e1 e2 e3 : ℤ) : ℤ :=
  if (255 - e2) < (e3 - e1 * e3 / 255) then
    ⌈(255 : ℚ) / ((max (e3 - e1 * e3 / 255) 1 : ℤ) : ℚ)⌉
  else
    ⌈((g * 255 - g * e2 - g * e3 + g * e1 * e3 / 255 : ℤ) : ℚ)
      / ((max (255 + e1 * e3 * e2 / (255 * 255) - e2 - e1 * e3 / 255) 1 : ℤ) : ℚ)⌉

/-- The guard of a denominator as the source has it: zero becomes `ONE`. -/
def nonzero_or_ONE (d : ℤ) : ℤ := if d = 0 then 255 else d

/-- The formula `r(g,e1,e2,e3)` with the guard of the source on the
denominators. -/
def r_ONE (g e1 e2 e3 : ℤ) : ℤ :=
  if (255 - e2) < (e3 - e1 * e3 / 255) then
    ⌈(255 : ℚ) / ((nonzero_or_ONE (e3 - e1 * e3 / 255) : ℤ) : ℚ)⌉
  else
    ⌈((g * 255 - g * e2 - g * e3 + g * e1 * e3 / 255 : ℤ) : ℚ)
      / ((nonzero_or_ONE (255 + e1 * e3 * e2 / (255 * 255) - e2 - e1 * e3 / 255) : ℤ) : ℚ)⌉

/-- The specified `helper_max_budget`: `OVERSHOOT · ⌈(e3·r − r·ONE + g·ONE) /
(2·ONE − e3 − e2)⌉`, the ceiling taken first, and the product truncated to the
integer budget. -/
def helper_max_budget (overshoot : ℚ) (g r e2 e3 : ℤ) : ℤ :=
  ⌊overshoot * ((⌈((e3 * r - r * 255 + g * 255 : ℤ) : ℚ) / ((2 * 255 - e3 - e2 : ℤ) : ℚ)⌉ : ℤ) : ℚ)⌋

end spec

/-! ## `src/key.hpp` -/

/-- Six bytes of `uint8_t raw[ETH_ALEN + ETH_ALEN]`: one Ethernet address. -/
structure eth_addr where
  b0 : uint8_t
  b1 : uint8_t
  b2 : uint8_t
  b3 : uint8_t
  b4 : uint8_t
  b5 : uint8_t
deriving DecidableEq, Repr

/-- The `struct key`: source and destination address and the block id. -/
structure key where
  src : eth_addr
  dst : eth_addr
  block : Nat
deriving DecidableEq, Repr

/-! ## `src/coder_map.hpp`, `src/coder_map.cpp` -/

/-- A coder as the map sees it: the member `_key` of `key_api` and the state of
the role (`β`), which the map never looks into. -/
structure coder_obj (β : Type) where
  _key : key
  role : β

/-- The members of `class coder_map`: `m_coders` (`std::map<Key, coder_pointer>`),
`m_blocks` (`std::map<Key, size_t>`) and `m_invalid` (`std::set<Key>`), each as
its lookup function. -/
structure coder_map (β : Type) where
  m_coders : key → Option (coder_obj β)
  m_blocks : key → Option Nat
  m_invalid : key → Bool

namespace coder_map

variable {β : Type}

/-- A freshly constructed map. -/
def empty : coder_map β :=
  { m_coders := fun _ => none, m_blocks := fun _ => none, m_invalid := fun _ => false }

/-- The method `create_coder(key)`: build a coder, `set_key(key)`, `init()` it
(`build k` is the state of the role after `init()`), store it with
`m_coders[key] = c` and return it. -/
def create_coder (build : key → β) (m : coder_map β) (k : key) :
    coder_obj β × coder_map β :=
  let c : coder_obj β := { _key := k, role := build k }
  (c, { m with m_coders := Function.update m.m_coders k (some c) })

/-- The method `search_coder(key)`: the coder found under `key` whose own key
is `key`, else the empty pointer. -/
def search_coder (m : coder_map β) (k : key) : Option (coder_obj β) :=
  match m.m_coders k with
  | some c => if c._key = k then some c else none
  | none => none

/-- The method `get_block(key)`: the entry of `m_blocks` found under `key`
as it was passed (block field included); without one, `m_blocks[key] = 0` and
the result is `0`. -/
def get_block (m : coder_map β) (k : key) : Nat × coder_map β :=
  match m.m_blocks k with
  | some b => (b, m)
  | none => (0, { m with m_blocks := Function.update m.m_blocks k (some 0) })

/-- The method `set_block(key, block)`:
`key.block = 0; m_blocks[key] = block; key.block = block; return key;`. -/
def set_block (m : coder_map β) (k : key) (block : Nat) : key × coder_map β :=
  let k0 : key := { k with block := 0 }
  ({ k with block := block }, { m with m_blocks := Function.update m.m_blocks k0 (some block) })

/-- The method `get_coder(key)`:
```
if (m_invalid.find(key) != m_invalid.end()) return coder_pointer();
c = search_coder(key);
if (c) return c;
return create_coder(key);
```
-/
def get_coder (build : key → β) (m : coder_map β) (k : key) :
    Option (coder_obj β) × coder_map β :=
  if m.m_invalid k then (none, m)
  else
    match search_coder m k with
    | some c => (some c, m)
    | none =>
      let r := create_coder build m k
      (some r.1, r.2)

/-- The method `find_coder(key)`: `return search_coder(key);`. -/
def find_coder (m : coder_map β) (k : key) : Option (coder_obj β) × coder_map β :=
  (search_coder m k, m)

/-- The method `get_latest_coder(key)`, with the virtual `is_valid()` of the
coder as `is_valid`:
```
key.block = get_block(key);
c = search_coder(key);
if (!c || !c->is_valid()) {
    key = set_block(key, ++key.block);
    c = create_coder(key);
}
return c;
```
-/
def get_latest_coder (build : key → β) (is_valid : β → Bool) (m : coder_map β) (k : key) :
    Option (coder_obj β) × coder_map β :=
  let gb := get_block m k
  let k1 : key := { k with block := gb.1 }
  let m1 := gb.2
  match search_coder m1 k1 with
  | some c =>
    if is_valid c.role then (some c, m1)
    else
      let sb := set_block m1 k1 (uadd k1.block 1)
      let r := create_coder build sb.2 sb.1
      (some r.1, r.2)
  | none =>
    let sb := set_block m1 k1 (uadd k1.block 1)
    let r := create_coder build sb.2 sb.1
    (some r.1, r.2)

/-- The method `process_coders()`: every live coder runs its `process()`
(`process c` is the state of the role afterwards and the returned flag); a
coder that returns `true` is erased from `m_coders` and the key it was stored
under is inserted into `m_invalid`. -/
def process_coders (process : coder_obj β → β × Bool) (m : coder_map β) : coder_map β :=
  { m with
    m_coders := fun k =>
      match m.m_coders k with
      | some c => if (process c).2 then none else some { c with role := (process c).1 }
      | none => none
    m_invalid := fun k =>
      match m.m_coders k with
      | some c => if (process c).2 then true else m.m_invalid k
      | none => m.m_invalid k }

/-- One call on the public interface of a coder map. -/
inductive call (β : Type) where
  | get_coder (k : key)
  | find_coder (k : key)
  | get_latest_coder (k : key) (is_valid : β → Bool)
  | process_coders (process : coder_obj β → β × Bool)

/-- The map after one call. -/
def step (build : key → β) (m : coder_map β) : call β → coder_map β
  | .get_coder k => (get_coder build m k).2
  | .find_coder k => (find_coder m k).2
  | .get_latest_coder k is_valid => (get_latest_coder build is_valid m k).2
  | .process_coders process => process_coders process m

/-- The map after a sequence of calls, starting from the empty map. -/
def run (build : key → β) (calls : List (call β)) : coder_map β :=
  calls.foldl (step build) empty

/-- The key is live: a coder is stored under it in `m_coders`. -/
def live (m : coder_map β) (k : key) : Bool := (m.m_coders k).isSome

end coder_map

/-! ## Auxiliary definitions for the statements -/

/-- The encoder's engine with the given current and next state. -/
def encoder.engine (curr next : Nat) : states :=
  { m_curr_state := curr, m_next_state := next, m_trans_table := encoder.trans_table }

/-- The statement of C2 for one configuration and event: after
`dispatch_event` and the driver's load, the current state is the cell
`table[prev][e]`, or that cell is `INVALID` and the current state is `DONE`. -/
def states.lands_on_cell (s : states) (e : Nat) : Prop :=
  ∀ s' cell, s.dispatch_event e = some s' →
    states.trans s.m_trans_table s.m_curr_state e = some cell →
    (s'.thread_load.m_curr_state = cell ∨
      (cell = __STATE_INVALID ∧ s'.thread_load.m_curr_state = __STATE_DONE))

namespace coder

/-- The value of `r_val` computed in the natural numbers, without wrap-around. -/
def r_nat (g e1 e2 e3 : Nat) : Nat :=
  let a := e1 * e3 / 255
  if 255 - e2 < e3 - a then 255 / (e3 - a) + b2n (255 % (e3 - a) != 0)
  else
    let nom := g * 255 + g * e1 * e3 / 255 - g * e2 - g * e3
    let d0 := 255 + e1 * e3 * e2 / 255 / 255 - e2 - a
    let d := if d0 = 0 then 255 else d0
    nom / d + b2n (nom % d != 0)

end coder

/-- A sample source address. -/
def sample_src : eth_addr := ⟨2, 0, 0, 0, 0, 1⟩

/-- A sample destination address. -/
def sample_dst : eth_addr := ⟨2, 0, 0, 0, 0, 2⟩

/-- The sample flow with the given block id. -/
def sample_key (block : Nat) : key := { src := sample_src, dst := sample_dst, block := block }

/-- No retired key is live: the retired set and the live key set are disjoint. -/
def coder_map.retired_not_live {β : Type} (m : coder_map β) : Prop :=
  ∀ k, m.m_invalid k = true → m.m_coders k = none

/-- A `process()` that reports every coder as finished. -/
def retire_all : coder_obj Unit → Unit × Bool := fun _ => ((), true)

namespace helper

/-- The numerator `e3·r − r·ONE + g·ONE` of the helper's budget as an integer. -/
def exact_nom (g r e3 : ℤ) : ℤ := e3 * r - r * 255 + g * 255

/-- The denominator `2·ONE − e3 − e2` as an integer. -/
def exact_denom (e2 e3 : ℤ) : ℤ := 2 * 255 - e3 - e2

/-- The rounding bit `(nom % denom != 0)`. -/
def round_bit (n d : ℤ) : ℕ := if n % d = 0 then 0 else 1

/-- The `double` evaluation of `OVERSHOOT·n/d + bit` converted to `size_t`: the
flag is the `double` nearest to `overshoot`, and the product, the quotient and
the sum are rounded one after the other. -/
def rounded_budget (overshoot : ℚ) (n d : ℤ) : Option Nat :=
  match binary64.round overshoot with
  | none => none
  | some ov =>
    match binary64.round (ov * (n : ℚ)) with
    | none => none
    | some p =>
      match binary64.round (p / (d : ℚ)) with
      | none => none
      | some q =>
        match binary64.round (q + (round_bit n d : ℚ)) with
        | none => none
        | some s => double_to_size_t s

end helper

/-! ## `src/key.hpp`: comparison operators -/

/-- The constant `ETH_ALEN`. -/
def ETH_ALEN : Nat := 6

/-- The six bytes of an address, in memory order. -/
def eth_addr.bytes (a : eth_addr) : List uint8_t := [a.b0, a.b1, a.b2, a.b3, a.b4, a.b5]

/-- The library call `memcmp(a, b, n)`: the bytes are compared as unsigned
values, the result has the sign of the first difference (here it is that
difference) and is zero when the first `n` bytes agree. -/
def memcmp : List uint8_t → List uint8_t → Nat → Int
  | x :: xs, y :: ys, n + 1 => if x ≠ y then (x.val : Int) - (y.val : Int) else memcmp xs ys n
  | _, _, _ => 0

namespace key

/-- The operator `key::operator==`. -/
def eq (l r : key) : Bool :=
  decide (memcmp l.src.bytes r.src.bytes ETH_ALEN = 0) &&
  decide (memcmp l.dst.bytes r.dst.bytes ETH_ALEN = 0) &&
  decide (l.block = r.block)

/-- The operator `key::operator<`:
```
ssize_t s = memcmp(src, r.src, ETH_ALEN);
if (s < 0) return true;
ssize_t d = memcmp(dst, r.dst, ETH_ALEN);
if (s == 0 && d < 0) return true;
if (s == 0 && d == 0 && block < r.block) return true;
return false;
```
-/
def lt (l r : key) : Bool :=
  let s := memcmp l.src.bytes r.src.bytes ETH_ALEN
  if s < 0 then true
  else
    let d := memcmp l.dst.bytes r.dst.bytes ETH_ALEN
    if s = 0 ∧ d < 0 then true
    else if s = 0 ∧ d = 0 ∧ l.block < r.block then true
    else false

end key

namespace spec

/-- The lexicographic order on byte strings, bytes compared as unsigned
numbers. -/
def lex_lt : List uint8_t → List uint8_t → Prop
  | [], [] => False
  | [], _ :: _ => True
  | _ :: _, [] => False
  | x :: xs, y :: ys => x.val < y.val ∨ (x = y ∧ lex_lt xs ys)

/-- The strict lexicographic order on `(src, dst, block)`. -/
def key_lt (a b : key) : Prop :=
  lex_lt a.src.bytes b.src.bytes ∨
    (a.src = b.src ∧ (lex_lt a.dst.bytes b.dst.bytes ∨ (a.dst = b.dst ∧ a.block < b.block)))

end spec

/-- The address read as one big-endian number. -/
def eth_addr.val (a : eth_addr) : Nat :=
  ((((a.b0.val * 256 + a.b1.val) * 256 + a.b2.val) * 256 + a.b3.val) * 256 + a.b4.val) * 256
    + a.b5.val

/-- The latest block recorded for `(src, dst)`: the entry of `m_blocks` under
the key with block 0, where `set_block` stores it; 0 without an entry. -/
def coder_map.latest_block {β : Type} (m : coder_map β) (src dst : eth_addr) : Nat :=
  (m.m_blocks { src := src, dst := dst, block := 0 }).getD 0

/-- An `is_valid()` that holds for every coder. -/
def all_valid : Unit → Bool := fun _ => true

/-- An `is_valid()` that fails for every coder, as for encoders that are full. -/
def none_valid : Unit → Bool := fun _ => false

/-- The map in which the sample flow has reached block 2: two calls of
`get_latest_coder` with block-0 keys, the first coder being full at the second
call. -/
def sample_map_block2 : coder_map Unit :=
  coder_map.run (fun _ => ())
    [.get_latest_coder (sample_key 0) all_valid, .get_latest_coder (sample_key 0) none_valid]

/-! ## Frames, constants and memory (`src/io.hpp`, `src/fox.hpp`) -/

/-- The `enum batadv_rlnc_io`. -/
def PLAIN_PACKET : Nat := 0
def ENC_PACKET : Nat := 1
def RED_PACKET : Nat := 2
def DEC_PACKET : Nat := 3
def REC_PACKET : Nat := 4
def HLP_PACKET : Nat := 5
def REQ_PACKET : Nat := 6
def ACK_PACKET : Nat := 7

/-- The netlink commands `BATADV_HLP_C_BLOCK` and `BATADV_HLP_C_UNBLOCK`. -/
def BATADV_HLP_C_BLOCK : Nat := 6
def BATADV_HLP_C_UNBLOCK : Nat := 7

/-- The constant `LEN_SIZE`, `sizeof(uint16_t)`. -/
def LEN_SIZE : Nat := 2

/-- The constant `RLNC_MAX_PAYLOAD`. -/
def RLNC_MAX_PAYLOAD : Nat := 1550 - 18 - 14

/-- A message handed to `m_io->send_msg`: a coded frame of the encoder with its
type, a decoded frame with the index of its symbol and its payload, an
acknowledgement, a request with rank and sequence number, a help frame of the
helper, or a block/unblock command. -/
inductive frame where
  | coded (type : Nat)
  | dec (i : Nat) (payload : List uint8_t)
  | ack
  | req (rank seq : Nat)
  | hlp
  | ctrl (cmd : Nat)
deriving DecidableEq, Repr

/-- Bytes in memory, by address. -/
abbrev memory : Type := Nat → uint8_t

/-- The call `memcpy(m + off, bytes, bytes.length)`. -/
def mem_write (m : memory) (off : Nat) (bytes : List uint8_t) : memory :=
  fun a => if off ≤ a ∧ a < off + bytes.length then bytes.getD (a - off) 0 else m a

/-- The `n` bytes at `m + off`. -/
def mem_read (m : memory) (off n : Nat) : List uint8_t :=
  (List.range n).map (fun j => m (off + j))

/-- The two bytes of a `uint16_t` in memory (little-endian host). -/
def store_u16 (v : Nat) : List uint8_t := [Fin.ofNat (v % 256), Fin.ofNat (v / 256 % 256)]

/-- The read `*reinterpret_cast<uint16_t *>(m + off)`. -/
def load_u16 (m : memory) (off : Nat) : Nat := (m off).val + 256 * (m (off + 1)).val

/-- Conversion of a signed integer (an `int32` flag, an `ssize_t`) to `size_t`. -/
def int_to_size_t (x : Int) : Nat := (x % (SIZE_MOD : Int)).toNat

/-- The loop `for (; budget > 0; budget--) send_ack_packet();`, with the number
of iterations left as fuel. -/
def send_acks : Nat → ℚ → List frame → List frame
  | 0, _, out => out
  | n + 1, budget, out => if budget > 0 then send_acks n (budget - 1) (out ++ [frame.ack]) else out

/-! ## `src/decoder.hpp`, `src/decoder.cpp` -/

/-- What the RLNC decoder of the coding library reports after one `decode()`:
the new rank, completeness, whether the last symbol was systematic and its
index, and the block of symbols after decoding. -/
structure kodo_decode where
  rank : Nat
  is_complete : Bool
  is_partial_complete : Bool
  last_symbol_is_systematic : Bool
  last_symbol_index : Nat
  symbol_data : memory

/-- The decoder: configuration (`symbols()`, `symbol_size()`, `payload_size()`,
`m_e3`), what the RLNC decoder reports (`rank()`, `is_complete()`,
`is_partial_complete()`, the block behind `symbol(i)`), the members
`m_decoded_symbols`, `m_enc_pkt_count`, `m_red_pkt_count`, `m_req_seq`, the
state engine, and the messages sent so far. -/
structure decoder where
  symbols : Nat
  symbol_size : Nat
  payload_size : Nat
  m_e3 : uint8_t
  rlnc_rank : Nat
  rlnc_complete : Bool
  rlnc_partial : Bool
  rlnc_symbols : memory
  m_decoded_symbols : List Bool
  m_enc_pkt_count : Nat
  m_red_pkt_count : Nat
  m_req_seq : Nat
  st : states
  sent : List frame

namespace decoder

/-- The `enum m_state` of the decoder. -/
def STATE_INVALID : Nat := __STATE_INVALID
def STATE_WAIT : Nat := __STATE_WAIT
def STATE_DONE : Nat := __STATE_DONE
def STATE_WRITE_DEC : Nat := 3
def STATE_ACKED : Nat := 4
def STATE_NUM : Nat := 5

/-- The `enum m_event` of the decoder. -/
def EVENT_COMPLETE : Nat := 0
def EVENT_ACKED : Nat := 1
def EVENT_TIMEOUT : Nat := 2
def EVENT_DONE : Nat := 3
def EVENT_NUM : Nat := 4

/-- The state engine after the constructor `full_rlnc_decoder_deep()`. -/
def ctor : Option states :=
  (some (states.ctor.init STATE_NUM EVENT_NUM))
    |>.bind (·.add_trans STATE_WAIT EVENT_TIMEOUT STATE_DONE)
    |>.bind (·.add_trans STATE_WAIT EVENT_COMPLETE STATE_WRITE_DEC)
    |>.bind (·.add_trans STATE_WRITE_DEC EVENT_ACKED STATE_ACKED)
    |>.bind (·.add_trans STATE_ACKED EVENT_TIMEOUT STATE_DONE)
    |>.bind (·.add_trans STATE_DONE EVENT_COMPLETE STATE_DONE)

/-- The transition table the decoder's constructor leaves behind. -/
def trans_table : List (List Nat) :=
  match ctor with
  | some s => s.m_trans_table
  | none => []

/-- The method `init()`: `set_state(STATE_WAIT)`, the sent bits resized to
`symbols()` and cleared, the counters reset, `m_req_seq = 1`. -/
def init (d : decoder) : decoder :=
  { d with
    st := d.st.set_state STATE_WAIT
    m_decoded_symbols := List.replicate d.symbols false
    m_enc_pkt_count := 0
    m_red_pkt_count := 0
    m_req_seq := 1 }

/-- The method `send_decoded_packet(i)`:
```
if (m_decoded_symbols[i]) return;
buf = this->symbol(i);
len = *reinterpret_cast<uint16_t *>(buf);
LOG_IF(FATAL, len > RLNC_MAX_PAYLOAD) << ...;
... nla_put(msg, BATADV_HLP_A_FRAME, len, buf + LEN_SIZE); m_io->send_msg(msg);
m_decoded_symbols[i] = true;
```
The result is `none` for an index outside `m_decoded_symbols` and for the fatal
log. -/
def send_decoded_packet (d : decoder) (i : Nat) : Option decoder :=
  match d.m_decoded_symbols[i]? with
  | none => none
  | some true => some d
  | some false =>
    let buf := i * d.symbol_size
    let len := load_u16 d.rlnc_symbols buf
    if len > RLNC_MAX_PAYLOAD then none
    else
      some { d with
        sent := d.sent ++ [frame.dec i (mem_read d.rlnc_symbols (buf + LEN_SIZE) len)]
        m_decoded_symbols := d.m_decoded_symbols.set i true }

/-- The loop `for (i = ..; i < rank; i++) send_decoded_packet(i);` over the
indices that are left. -/
def send_decoded_range (d : decoder) : List Nat → Option decoder
  | [] => some d
  | i :: is =>
    match send_decoded_packet d i with
    | none => none
    | some d1 => send_decoded_range d1 is

/-- The method `send_partial_decoded_packets(rank)`. -/
def send_partial_decoded_packets (d : decoder) (rank : Nat) : Option decoder :=
  send_decoded_range d (List.range rank)

/-- The method `send_decoded_packets()`, with `FLAGS_fixed_overshoot` as
`overshoot`:
```
double ack_budget = source_budget(1, 254, 254, m_e3);
for (; ack_budget > 0; ack_budget--) send_ack_packet();
send_partial_decoded_packets(this->symbols());
dispatch_event(EVENT_ACKED);
```
-/
def send_decoded_packets (overshoot : ℚ) (d : decoder) : Option decoder :=
  let ack_budget := coder.source_budget overshoot 1 254 254 d.m_e3
  let d1 := { d with sent := send_acks (Int.toNat ⌈ack_budget⌉) ack_budget d.sent }
  match send_partial_decoded_packets d1 d1.symbols with
  | none => none
  | some d2 =>
    match d2.st.dispatch_event EVENT_ACKED with
    | none => none
    | some st => some { d2 with st := st }

/-- The method `add_enc_packet(data, len)`, with `FLAGS_ack_interval` as
`ack_interval` and the report of the RLNC decoder about `decode(data)` as `k`:
```
if (this->is_complete()) {
    if (++m_red_pkt_count % FLAGS_ack_interval == 0) send_ack_packet();
    return;
}
CHECK_EQ(len, size) << ...;
rank = this->rank();
this->decode(data);
m_enc_pkt_count++;
if (this->rank() == rank) return;
systematic = this->last_symbol_is_systematic();
symbol_index = this->last_symbol_index();
if (this->is_complete()) { dispatch_event(EVENT_COMPLETE); return; }
if (this->is_partial_complete()) send_partial_decoded_packets(this->rank());
if (systematic) send_decoded_packet(symbol_index);
```
The result is `none` for a failed check, a division by a zero interval and a
failure of a called method. -/
def add_enc_packet (ack_interval : Int) (d : decoder) (k : kodo_decode) (len : Nat) :
    Option decoder :=
  if d.rlnc_complete then
    let interval := int_to_size_t ack_interval
    let red := uadd d.m_red_pkt_count 1
    if interval = 0 then none
    else if red % interval = 0 then
      some { d with m_red_pkt_count := red, sent := d.sent ++ [frame.ack] }
    else some { d with m_red_pkt_count := red }
  else if len ≠ d.payload_size then none
  else
    let rank := d.rlnc_rank
    let d1 := { d with
      rlnc_rank := k.rank
      rlnc_complete := k.is_complete
      rlnc_partial := k.is_partial_complete
      rlnc_symbols := k.symbol_data
      m_enc_pkt_count := uadd d.m_enc_pkt_count 1 }
    if d1.rlnc_rank = rank then some d1
    else if d1.rlnc_complete then
      match d1.st.dispatch_event EVENT_COMPLETE with
      | none => none
      | some st => some { d1 with st := st }
    else
      match (if d1.rlnc_partial then send_partial_decoded_packets d1 d1.rlnc_rank else some d1) with
      | none => none
      | some d2 =>
        if k.last_symbol_is_systematic then send_decoded_packet d2 k.last_symbol_index
        else some d2

/-- One call of the methods that send decoded packets. -/
inductive send_call where
  | send_decoded_packet (i : Nat)
  | send_partial_decoded_packets (rank : Nat)
  | send_decoded_packets

/-- The decoder after one such call. -/
def send_step (overshoot : ℚ) (d : decoder) : send_call → Option decoder
  | .send_decoded_packet i => send_decoded_packet d i
  | .send_partial_decoded_packets rank => send_partial_decoded_packets d rank
  | .send_decoded_packets => send_decoded_packets overshoot d

/-- The decoder after a sequence of such calls. -/
def send_run (overshoot : ℚ) (d : decoder) : List send_call → Option decoder
  | [] => some d
  | c :: cs =>
    match send_step overshoot d c with
    | none => none
    | some d1 => send_run overshoot d1 cs

end decoder

/-- The number of decoded frames for symbol `i` among the messages. -/
def dec_count (i : Nat) : List frame → Nat
  | [] => 0
  | frame.dec j _ :: fs => (if j = i then 1 else 0) + dec_count i fs
  | _ :: fs => dec_count i fs

/-- The number of acknowledgements among the messages. -/
def ack_count : List frame → Nat
  | [] => 0
  | frame.ack :: fs => 1 + ack_count fs
  | _ :: fs => ack_count fs

/-- The decoder after a sequence of received coded packets, each with the report
of the RLNC decoder and its length. -/
def decoder.add_enc_packets (ack_interval : Int) (d : decoder) :
    List (kodo_decode × Nat) → Option decoder
  | [] => some d
  | p :: ps =>
    match decoder.add_enc_packet ack_interval d p.1 p.2 with
    | none => none
    | some d1 => decoder.add_enc_packets ack_interval d1 ps

/-- A decoder of two symbols of eight bytes right after its constructor, with
an all-zero symbol block. -/
def sample_decoder : decoder :=
  { symbols := 2
    symbol_size := 8
    payload_size := 12
    m_e3 := 25
    rlnc_rank := 0
    rlnc_complete := false
    rlnc_partial := false
    rlnc_symbols := fun _ => 0
    m_decoded_symbols := []
    m_enc_pkt_count := 0
    m_red_pkt_count := 0
    m_req_seq := 0
    st := { m_curr_state := __STATE_INVALID, m_next_state := __STATE_INVALID,
            m_trans_table := decoder.trans_table }
    sent := [] }

/-- A report of the RLNC decoder that changes nothing. -/
def sample_report : kodo_decode :=
  { rank := 2
    is_complete := true
    is_partial_complete := true
    last_symbol_is_systematic := false
    last_symbol_index := 0
    symbol_data := fun _ => 0 }

/-- The decoded frames sent since `base` are one per index at most, and the sent
bit of every index with a frame is set. -/
def decoder.once_since (base : List frame) (d : decoder) : Prop :=
  ∃ new, d.sent = base ++ new ∧ (∀ i, dec_count i new ≤ 1) ∧
    ∀ i, dec_count i new = 1 → d.m_decoded_symbols[i]? = some true


/-- A decoder whose RLNC decoder is complete, with four redundant packets
counted. -/
def sample_complete_decoder : decoder :=
  { sample_decoder with rlnc_complete := true, m_red_pkt_count := 4 }

/-! ## `src/encoder.hpp`, `src/encoder.cpp` -/

/-- The method `recoder_credit` of `src/coder.hpp`; the floating division by a
zero `denom` is `none`:
```
size_t denom = ONE - e3*e1/ONE;
return static_cast<double>(ONE)/denom;
```
-/
def coder.recoder_credit (e1 _e2 e3 : Nat) : Option ℚ :=
  let denom := usub coder.ONE (umul e3 e1 / coder.ONE)
  if denom = 0 then none else some ((coder.ONE : ℚ) / (denom : ℚ))

/-- The encoder: configuration (`symbols()`, `symbol_size()`, the estimates
`m_e1`, `m_e2`, `m_e3`), the members `m_symbol_storage` (the bytes behind the
pointer, by offset), `m_plain_pkt_count`, `m_enc_pkt_count`, `m_last_req_seq`,
`m_budget`, `m_max_budget`, `m_type`, the state engine, the messages sent so
far and the numbers of calls of `semaphore_wait()` and `semaphore_notify()`. -/
structure encoder where
  symbols : Nat
  symbol_size : Nat
  m_e1 : uint8_t
  m_e2 : uint8_t
  m_e3 : uint8_t
  m_symbol_storage : memory
  m_plain_pkt_count : Nat
  m_enc_pkt_count : Nat
  m_last_req_seq : Nat
  m_budget : ℚ
  m_max_budget : ℚ
  m_type : Nat
  st : states
  sent : List frame
  sem_waits : Nat
  sem_notifies : Nat

namespace encoder

/-- The method `curr_state()`. -/
def curr_state (e : encoder) : Nat := e.st.m_curr_state

/-- The method `is_full()`: `return m_plain_pkt_count >= this->symbols();`. -/
def is_full (e : encoder) : Bool := decide (e.m_plain_pkt_count ≥ e.symbols)

/-- The method `is_valid()`: `return !is_full();`. -/
def is_valid (e : encoder) : Bool := !e.is_full

/-- The call `dispatch_event(event)` on the engine of the encoder. -/
def dispatch_event (e : encoder) (event : Nat) : Option encoder :=
  match e.st.dispatch_event event with
  | none => none
  | some st => some { e with st := st }

/-- The method `block_packets(block_cmd)`: one command message. -/
def block_packets (e : encoder) (block_cmd : Nat) : encoder :=
  { e with sent := e.sent ++ [frame.ctrl block_cmd] }

/-- The method `enc_notify()`:
`block_packets(BATADV_HLP_C_UNBLOCK); semaphore_notify();`. -/
def enc_notify (e : encoder) : encoder :=
  { e.block_packets BATADV_HLP_C_UNBLOCK with sem_notifies := e.sem_notifies + 1 }

/-- The method `enc_wait()`, taken at the moment the semaphore lets the caller
through: `block_packets(BATADV_HLP_C_BLOCK); semaphore_wait();
dispatch_event(EVENT_START);`. -/
def enc_wait (e : encoder) : Option encoder :=
  dispatch_event { e.block_packets BATADV_HLP_C_BLOCK with sem_waits := e.sem_waits + 1 }
    EVENT_START

/-- The method `send_encoded_packet(type)`: one coded message of the given
type, `m_enc_pkt_count++; m_budget--;`. -/
def send_encoded_packet (e : encoder) (type : Nat) : encoder :=
  { e with
    sent := e.sent ++ [frame.coded type]
    m_enc_pkt_count := uadd e.m_enc_pkt_count 1
    m_budget := e.m_budget - 1 }

/-- The loop of `send_encoded_credit()` with the number of iterations left as
fuel. -/
def send_encoded_credit_loop : Nat → encoder → encoder
  | 0, e => e
  | n + 1, e =>
    if e.m_budget ≥ 1 ∧ (e.m_enc_pkt_count : ℚ) < e.m_max_budget then
      send_encoded_credit_loop n (e.send_encoded_packet e.m_type)
    else e

/-- The method `send_encoded_credit()`:
```
while (m_budget >= 1 && m_enc_pkt_count < m_max_budget)
    send_encoded_packet(m_type);
```
Every iteration takes one from `m_budget`, so its integer part bounds the
number of iterations. -/
def send_encoded_credit (e : encoder) : encoder :=
  send_encoded_credit_loop (Int.toNat ⌊e.m_budget⌋) e

/-- The loop of `send_encoded_budget()` with the number of iterations left as
fuel; `none` when the fuel does not suffice. -/
def send_encoded_budget_loop : Nat → encoder → Option encoder
  | 0, e => if (e.m_enc_pkt_count : ℚ) < e.m_max_budget then none else some e
  | n + 1, e =>
    if (e.m_enc_pkt_count : ℚ) < e.m_max_budget then
      send_encoded_budget_loop n (e.send_encoded_packet e.m_type)
    else some e

/-- The method `send_encoded_budget()`:
```
while (m_enc_pkt_count < m_max_budget)
    send_encoded_packet(m_type);
dispatch_event(EVENT_BUDGET_SENT);
```
The distance from the counter to the budget bounds the number of iterations
unless the counter wraps around before it reaches the budget (`none`). -/
def send_encoded_budget (e : encoder) : Option encoder :=
  match send_encoded_budget_loop (Int.toNat ⌈e.m_max_budget - (e.m_enc_pkt_count : ℚ)⌉) e with
  | none => none
  | some e1 => e1.dispatch_event EVENT_BUDGET_SENT

/-- The method `init()`, with `FLAGS_fixed_overshoot` as `overshoot`:
`set_state(STATE_WAIT)`, the counters and `m_last_req_seq` reset,
`m_type = ENC_PACKET` and
`m_max_budget = source_budget(this->symbols(), m_e1, m_e2, m_e3)`. The member
`m_budget` is not assigned. -/
def init (overshoot : ℚ) (e : encoder) : encoder :=
  { e with
    st := e.st.set_state STATE_WAIT
    m_plain_pkt_count := 0
    m_enc_pkt_count := 0
    m_last_req_seq := 0
    m_type := ENC_PACKET
    m_max_budget := coder.source_budget overshoot e.symbols e.m_e1 e.m_e2 e.m_e3 }

/-- The method `add_plain_packet(data, len)`, with the packet as the list
`data` of its `len` bytes, `FLAGS_encoder_threshold` as `threshold`, and what
`this->rank()` and `semaphore_count()` return as `rank` and `semaphore_count`:
```
CHECK_LE(len, size - LEN_SIZE) << ...;
if (curr_state() != STATE_WAIT) return;
buf = get_symbol_buffer(m_plain_pkt_count);
*reinterpret_cast<uint16_t *>(buf) = len;
memcpy(buf + LEN_SIZE, data, len);
this->set_symbol(m_plain_pkt_count++, symbol);
if (is_full()) {
    dispatch_event(EVENT_FULL);
} else if (this->rank() > FLAGS_encoder_threshold*this->symbols() &&
           semaphore_count() > 0) {
    m_budget += recoder_credit(m_e1, m_e2, m_e3);
    send_encoded_credit();
}
```
The result is `none` for a length that is no `uint16_t`, for the failed check,
for a symbol index outside the `symbols()` slots of `m_symbol_storage` (the
write would leave the allocated block), and for a failure of a called
method. -/
def add_plain_packet (threshold : ℚ) (e : encoder) (data : List uint8_t) (rank : Nat)
    (semaphore_count : Int) : Option encoder :=
  let len := data.length
  let size := e.symbol_size
  if len ≥ 65536 then none
  else if len > usub size LEN_SIZE then none
  else if e.curr_state ≠ STATE_WAIT then some e
  else if e.m_plain_pkt_count ≥ e.symbols then none
  else
    let buf := e.m_plain_pkt_count * e.symbol_size
    let e1 := { e with
      m_symbol_storage :=
        mem_write (mem_write e.m_symbol_storage buf (store_u16 len)) (buf + LEN_SIZE) data
      m_plain_pkt_count := uadd e.m_plain_pkt_count 1 }
    if e1.is_full then e1.dispatch_event EVENT_FULL
    else if (rank : ℚ) > threshold * (e1.symbols : ℚ) ∧ semaphore_count > 0 then
      match coder.recoder_credit e1.m_e1.val e1.m_e2.val e1.m_e3.val with
      | none => none
      | some credit => some (send_encoded_credit { e1 with m_budget := e1.m_budget + credit })
    else some e1

/-- The method `add_ack_packet()`:
```
if (curr_state() == STATE_DONE) return;
if (m_plain_pkt_count == this->symbols()) enc_notify();
dispatch_event(EVENT_ACKED);
```
-/
def add_ack_packet (e : encoder) : Option encoder :=
  if e.curr_state = STATE_DONE then some e
  else
    dispatch_event (if e.m_plain_pkt_count = e.symbols then e.enc_notify else e) EVENT_ACKED

/-- The method `add_req_packet(rank, seq)`, with `FLAGS_fixed_overshoot` as
`overshoot` and what `this->rank()` returns (a `uint32_t`) as `local_rank`:
```
double credits = source_budget(this->rank() - rank, 254, 254, m_e3);
if (m_last_req_seq == seq || rank == this->rank()) return;
m_budget = credits;
if (m_enc_pkt_count >= m_max_budget) m_max_budget += credits;
m_type = RED_PACKET;
send_encoded_credit();
m_last_req_seq = seq;
```
-/
def add_req_packet (overshoot : ℚ) (e : encoder) (local_rank rank seq : Nat) : encoder :=
  let credits :=
    coder.source_budget overshoot ((local_rank + (2 ^ 32 - rank % 2 ^ 32)) % 2 ^ 32) 254 254 e.m_e3
  if e.m_last_req_seq = seq ∨ rank = local_rank then e
  else
    let e1 := { e with
      m_budget := credits
      m_max_budget :=
        if (e.m_enc_pkt_count : ℚ) ≥ e.m_max_budget then e.m_max_budget + credits
        else e.m_max_budget
      m_type := RED_PACKET }
    { send_encoded_credit e1 with m_last_req_seq := seq }

/-- The method `process()`, with the results of `is_timed_out(FLAGS_encoder_timeout*5)`
and `is_timed_out()` as `timed_out_blocked` and `timed_out`:
```
if (curr_state() == STATE_FULL) {
    if (is_timed_out(FLAGS_encoder_timeout*5)) { enc_notify(); return true; }
    return false;
}
if (curr_state() == STATE_DONE) return true;
if (is_timed_out()) {
    dispatch_event(EVENT_TIMEOUT);
    if (m_plain_pkt_count == this->symbols()) enc_notify();
}
return false;
```
-/
def process (e : encoder) (timed_out_blocked timed_out : Bool) : Option (encoder × Bool) :=
  if e.curr_state = STATE_FULL then
    if timed_out_blocked then some (e.enc_notify, true) else some (e, false)
  else if e.curr_state = STATE_DONE then some (e, true)
  else if timed_out then
    match e.dispatch_event EVENT_TIMEOUT with
    | none => none
    | some e1 => some (if e1.m_plain_pkt_count = e1.symbols then e1.enc_notify else e1, false)
  else some (e, false)

/-- The call `m_state_table[m_curr_state]()` of the driver `thread_func`:
`enc_wait` in `STATE_FULL`, `send_encoded_budget` in `STATE_SEND_BUDGET`,
`wait` (no change of the encoder) in `STATE_WAIT`, `STATE_DONE` and
`STATE_WAIT_ACK`, the fatal `invalid` otherwise. -/
def handler (e : encoder) : Option encoder :=
  if e.curr_state = STATE_FULL then e.enc_wait
  else if e.curr_state = STATE_SEND_BUDGET then e.send_encoded_budget
  else if e.curr_state = STATE_WAIT ∨ e.curr_state = STATE_DONE ∨ e.curr_state = STATE_WAIT_ACK
  then some e
  else none

/-- The assignment `m_curr_state = m_next_state.load()` of the driver. -/
def load (e : encoder) : encoder := { e with st := e.st.thread_load }

/-- One step on an encoder after `init()`: a call of a public method, or a step
of its driver thread (the handler of the current state, or the load of the
next state). -/
inductive call where
  | add_plain_packet (data : List uint8_t) (rank : Nat) (semaphore_count : Int)
  | add_ack_packet
  | add_req_packet (local_rank rank seq : Nat)
  | process (timed_out_blocked timed_out : Bool)
  | handler
  | load

/-- The encoder after one step. -/
def step (overshoot threshold : ℚ) (e : encoder) : call → Option encoder
  | .add_plain_packet data rank semaphore_count =>
    e.add_plain_packet threshold data rank semaphore_count
  | .add_ack_packet => e.add_ack_packet
  | .add_req_packet local_rank rank seq => some (e.add_req_packet overshoot local_rank rank seq)
  | .process timed_out_blocked timed_out =>
    match e.process timed_out_blocked timed_out with
    | none => none
    | some r => some r.1
  | .handler => e.handler
  | .load => some e.load

/-- The encoder after a sequence of steps. -/
def run (overshoot threshold : ℚ) (e : encoder) : List call → Option encoder
  | [] => some e
  | c :: cs =>
    match step overshoot threshold e c with
    | none => none
    | some e1 => run overshoot threshold e1 cs

/-- No step of the sequence changes `m_max_budget`. -/
def max_budget_kept (overshoot threshold : ℚ) (e : encoder) : List call → Bool
  | [] => true
  | c :: cs =>
    match step overshoot threshold e c with
    | none => true
    | some e1 =>
      decide (e1.m_max_budget = e.m_max_budget) && max_budget_kept overshoot threshold e1 cs

end encoder

/-- An encoder right after its constructor, for two symbols of eight bytes and
the estimates `(25, 25, 254)`, with zeroes in the members that the constructor
does not assign. -/
def sample_encoder : encoder :=
  { symbols := 2
    symbol_size := 8
    m_e1 := 25
    m_e2 := 25
    m_e3 := 254
    m_symbol_storage := fun _ => 0
    m_plain_pkt_count := 0
    m_enc_pkt_count := 0
    m_last_req_seq := 0
    m_budget := 0
    m_max_budget := 0
    m_type := 0
    st := encoder.engine encoder.STATE_WAIT encoder.STATE_WAIT
    sent := []
    sem_waits := 0
    sem_notifies := 0 }

/-- The bound on the coded packets: `m_enc_pkt_count < m_max_budget + 1`. -/
def encoder.within_budget (e : encoder) : Prop :=
  (e.m_enc_pkt_count : ℚ) < e.m_max_budget + 1

/-- What every method but `add_plain_packet` leaves alone: the configuration,
the symbol storage and `m_plain_pkt_count`. -/
def encoder.keeps_symbols (e e1 : encoder) : Prop :=
  e1.symbols = e.symbols ∧ e1.symbol_size = e.symbol_size ∧
  e1.m_plain_pkt_count = e.m_plain_pkt_count ∧ e1.m_symbol_storage = e.m_symbol_storage

/-- The symbol slot `i` of a block of slots of `size` bytes holds the packet
`data`: its first two bytes are the length of `data` and the bytes after them
are `data`. -/
def slot_holds (m : memory) (size i : Nat) (data : List uint8_t) : Prop :=
  load_u16 m (i * size) = data.length ∧
  mem_read m (i * size + LEN_SIZE) data.length = data

/-- The encoder after a sequence of plain packets, each with what `this->rank()`
and `semaphore_count()` return during the call. -/
def encoder.add_plain_packets (threshold : ℚ) (e : encoder) :
    List (List uint8_t × Nat × Int) → Option encoder
  | [] => some e
  | p :: ps =>
    match e.add_plain_packet threshold p.1 p.2.1 p.2.2 with
    | none => none
    | some e1 => encoder.add_plain_packets threshold e1 ps

/-! ## `src/helper.hpp`, `src/helper.cpp` -/

/-- Conversion of a `size_t` to `ssize_t`. -/
def size_to_ssize (n : Nat) : Int :=
  if n % SIZE_MOD < SIZE_MOD / 2 then ((n % SIZE_MOD : Nat) : Int)
  else ((n % SIZE_MOD : Nat) : Int) - (SIZE_MOD : Int)

/-- The helper: configuration (`symbols()`, `payload_size()`), the estimates
`e1`, `e2`, `e3`, what `this->rank()` returns, the members `m_hlp_pkt_count`,
`m_enc_pkt_count` (`size_t`), `m_max_budget`, `m_threshold` (`ssize_t`),
`m_budget`, `m_credit` (`double`), the state engine, and the messages sent so
far. -/
structure helper where
  symbols : Nat
  payload_size : Nat
  e1 : uint8_t
  e2 : uint8_t
  e3 : uint8_t
  rlnc_rank : Nat
  m_hlp_pkt_count : Nat
  m_enc_pkt_count : Nat
  m_max_budget : Int
  m_threshold : Int
  m_budget : ℚ
  m_credit : ℚ
  st : states
  sent : List frame

namespace helper

/-- The `enum m_state` of the helper. -/
def STATE_INVALID : Nat := __STATE_INVALID
def STATE_WAIT : Nat := __STATE_WAIT
def STATE_DONE : Nat := __STATE_DONE
def STATE_NUM : Nat := 3

/-- The `enum m_event` of the helper. -/
def EVENT_ACKED : Nat := 0
def EVENT_BUDGET_SENT : Nat := 1
def EVENT_TIMEOUT : Nat := 2
def EVENT_NUM : Nat := 3

/-- The state engine after the constructor `full_rlnc_helper_deep()`. -/
def ctor : Option states :=
  (some (states.ctor.init STATE_NUM EVENT_NUM))
    |>.bind (·.add_trans STATE_WAIT EVENT_TIMEOUT STATE_DONE)
    |>.bind (·.add_trans STATE_WAIT EVENT_ACKED STATE_DONE)
    |>.bind (·.add_trans STATE_WAIT EVENT_BUDGET_SENT STATE_DONE)
    |>.bind (·.add_trans STATE_DONE EVENT_ACKED STATE_DONE)
    |>.bind (·.add_trans STATE_DONE EVENT_BUDGET_SENT STATE_DONE)

/-- The transition table the helper's constructor leaves behind. -/
def trans_table : List (List Nat) :=
  match ctor with
  | some s => s.m_trans_table
  | none => []

/-- The method `get_threshold()`, with `FLAGS_helper_threshold` as
`helper_threshold`; the returned `double` is converted to `size_t`:
```
if (e1 == ONE - 1 || e2 == ONE - 1 || e3 == ONE - 1) return this->symbols() / 2;
g = this->symbols();
r = r_val(g, e1, e2, e3);
return (r - r*e1/ONE)*FLAGS_helper_threshold;
```
-/
def get_threshold (helper_threshold : ℚ) (symbols : Nat) (e1 e2 e3 : uint8_t) : Option Nat :=
  if missing_estimate e1 e2 e3 then some (symbols / 2)
  else
    let g := symbols
    let r := coder.r_val g e1 e2 e3
    double_to_size_t (((usub r (umul r e1.val / coder.ONE) : Nat) : ℚ) * helper_threshold)

/-- The method `init()`, with the value given for the flag `fixed_overshoot`
as `overshoot`, `FLAGS_helper_threshold` as `helper_threshold`, and the values
of `FLAGS_e1*2.55`, `FLAGS_e2*2.55`, `FLAGS_e3*2.55` as `uint8_t` as `f1`, `f2`,
`f3`: `set_state(STATE_WAIT)`, the counters and `m_budget` reset, the
estimates assigned, and
`m_max_budget = max_budget(); m_threshold = get_threshold(); m_credit = credit();`. -/
def init (overshoot helper_threshold : ℚ) (f1 f2 f3 : uint8_t) (h : helper) : Option helper :=
  match max_budget overshoot h.symbols f1 f2 f3, get_threshold helper_threshold h.symbols f1 f2 f3,
    credit f1 f2 f3 with
  | some b, some t, some c =>
    some { h with
      st := h.st.set_state STATE_WAIT
      m_hlp_pkt_count := 0
      m_enc_pkt_count := 0
      m_budget := 0
      e1 := f1
      e2 := f2
      e3 := f3
      m_max_budget := size_to_ssize b
      m_threshold := size_to_ssize t
      m_credit := c }
  | _, _, _ => none

/-- The method `send_hlp_packet()`: one help message, `m_hlp_pkt_count++`. -/
def send_hlp_packet (h : helper) : helper :=
  { h with sent := h.sent ++ [frame.hlp], m_hlp_pkt_count := uadd h.m_hlp_pkt_count 1 }

/-- The loop of `send_hlp_credits()` with the number of iterations left as fuel;
`m_hlp_pkt_count <= m_max_budget` compares a `size_t` with an `ssize_t`, that is
as `size_t`. -/
def send_hlp_credits_loop : Nat → helper → helper
  | 0, h => h
  | n + 1, h =>
    if h.m_budget ≥ 1 ∧ h.m_hlp_pkt_count ≤ int_to_size_t h.m_max_budget then
      send_hlp_credits_loop n { h.send_hlp_packet with m_budget := h.m_budget - 1 }
    else h

/-- The method `send_hlp_credits()`:
```
m_budget += m_credit;
if (m_budget <= 0) return;
for (; m_budget >= 1 && m_hlp_pkt_count <= m_max_budget; m_budget--)
    send_hlp_packet();
```
Every iteration takes one from `m_budget`, so its integer part bounds the
number of iterations. -/
def send_hlp_credits (h : helper) : helper :=
  let h1 := { h with m_budget := h.m_budget + h.m_credit }
  if h1.m_budget ≤ 0 then h1
  else send_hlp_credits_loop (Int.toNat ⌊h1.m_budget⌋) h1

/-- The method `add_enc_packet(data, len)`, with the rank of the RLNC decoder
after `decode(data)` as `new_rank`:
```
if (curr_state() == STATE_DONE) return;
CHECK_EQ(len, this->payload_size()) << ...;
rank = this->rank();
this->decode(data);
m_enc_pkt_count++;
if (rank == this->rank()) return;
if (this->rank() >= m_threshold) send_hlp_credits();
if (m_hlp_pkt_count >= m_max_budget) dispatch_event(EVENT_BUDGET_SENT);
```
-/
def add_enc_packet (h : helper) (len new_rank : Nat) : Option helper :=
  if h.st.m_curr_state = STATE_DONE then some h
  else if len ≠ h.payload_size then none
  else
    let rank := h.rlnc_rank
    let h1 := { h with rlnc_rank := new_rank, m_enc_pkt_count := uadd h.m_enc_pkt_count 1 }
    if rank = h1.rlnc_rank then some h1
    else
      let h2 := if (h1.rlnc_rank : Int) ≥ h1.m_threshold then h1.send_hlp_credits else h1
      if h2.m_hlp_pkt_count ≥ int_to_size_t h2.m_max_budget then
        match h2.st.dispatch_event EVENT_BUDGET_SENT with
        | none => none
        | some st => some { h2 with st := st }
      else some h2

/-- The helper after a sequence of received coded packets, each with its length
and the rank after it. -/
def add_enc_packets (h : helper) : List (Nat × Nat) → Option helper
  | [] => some h
  | p :: ps =>
    match h.add_enc_packet p.1 p.2 with
    | none => none
    | some h1 => add_enc_packets h1 ps

end helper

/-- A helper right after its constructor, for `symbols` symbols, with zeroes in
the members that the constructor does not assign. -/
def sample_helper (symbols : Nat) : helper :=
  { symbols := symbols
    payload_size := 12
    e1 := 0
    e2 := 0
    e3 := 0
    rlnc_rank := 0
    m_hlp_pkt_count := 0
    m_enc_pkt_count := 0
    m_max_budget := 0
    m_threshold := 0
    m_budget := 0
    m_credit := 0
    st := { m_curr_state := __STATE_WAIT, m_next_state := __STATE_WAIT,
            m_trans_table := helper.trans_table }
    sent := [] }

/-- The number of help messages among the messages. -/
def hlp_count : List frame → Nat
  | [] => 0
  | frame.hlp :: fs => 1 + hlp_count fs
  | _ :: fs => hlp_count fs

/-! ## `src/fox.cpp`: the encoder map behind `handle_packet` -/

namespace encoder_map

/-- The coder that `create_coder` of the encoder map builds: the encoder as its
constructor leaves it (`fresh`) after `init()`. -/
def build (overshoot : ℚ) (fresh : encoder) : key → encoder :=
  fun _ => fresh.init overshoot

/-- The effect of a method call through the `coder_pointer` `c`: the coder
stored under the key of `c` is now in the state `e`. -/
def store (m : coder_map encoder) (c : coder_obj encoder) (e : encoder) : coder_map encoder :=
  { m with m_coders := Function.update m.m_coders c._key (some { c with role := e }) }

/-- The case `PLAIN_PACKET` of `handle_packet`:
```
e = enc_map->get_latest_coder(k);
if (!e) break;
e->add_plain_packet(data, len);
```
-/
def handle_plain (overshoot threshold : ℚ) (fresh : encoder) (m : coder_map encoder) (k : key)
    (data : List uint8_t) (rank : Nat) (semaphore_count : Int) : Option (coder_map encoder) :=
  let r := coder_map.get_latest_coder (build overshoot fresh) encoder.is_valid m k
  match r.1 with
  | none => some r.2
  | some c =>
    match c.role.add_plain_packet threshold data rank semaphore_count with
    | none => none
    | some e1 => some (store r.2 c e1)

/-- The case `ACK_PACKET` of `handle_packet`, as far as the encoder map goes:
`e = enc_map->find_coder(k); if (e) { e->add_ack_packet(); break; }`. -/
def handle_ack (m : coder_map encoder) (k : key) : Option (coder_map encoder) :=
  match (coder_map.find_coder m k).1 with
  | none => some m
  | some c =>
    match c.role.add_ack_packet with
    | none => none
    | some e1 => some (store m c e1)

/-- The case `REQ_PACKET` of `handle_packet`, as far as the encoder map goes:
`e = enc_map->find_coder(k); if (e) { e->add_req_packet(rank, seq); break; }`. -/
def handle_req (overshoot : ℚ) (m : coder_map encoder) (k : key) (local_rank rank seq : Nat) :
    coder_map encoder :=
  match (coder_map.find_coder m k).1 with
  | none => m
  | some c => store m c (c.role.add_req_packet overshoot local_rank rank seq)

/-- The call `enc_map->process_coders()` of the house keeping thread, with the
results of the two time-out tests of every coder as functions of its key. A
`process()` that fails leaves its coder as it is. -/
def house_keeping (timed_out_blocked timed_out : key → Bool) (m : coder_map encoder) :
    coder_map encoder :=
  coder_map.process_coders
    (fun c =>
      match c.role.process (timed_out_blocked c._key) (timed_out c._key) with
      | some r => r
      | none => (c.role, false)) m

/-- A step of the driver thread of the coder stored under `k`: the handler of
its current state. -/
def drive_handler (m : coder_map encoder) (k : key) : Option (coder_map encoder) :=
  match m.m_coders k with
  | none => some m
  | some c =>
    match c.role.handler with
    | none => none
    | some e1 => some (store m c e1)

/-- A step of the driver thread of the coder stored under `k`: the load of the
next state. -/
def drive_load (m : coder_map encoder) (k : key) : coder_map encoder :=
  match m.m_coders k with
  | none => m
  | some c => store m c c.role.load

/-- What happens to the encoder map: a frame arrives and `handle_packet` runs,
the house keeping thread sweeps, or the driver thread of a coder takes a
step. -/
inductive event where
  | plain (k : key) (data : List uint8_t) (rank : Nat) (semaphore_count : Int)
  | ack (k : key)
  | req (k : key) (local_rank rank seq : Nat)
  | house_keeping (timed_out_blocked timed_out : key → Bool)
  | handler (k : key)
  | load (k : key)

/-- The encoder map after one event. -/
def step (overshoot threshold : ℚ) (fresh : encoder) (m : coder_map encoder) :
    event → Option (coder_map encoder)
  | .plain k data rank semaphore_count =>
    handle_plain overshoot threshold fresh m k data rank semaphore_count
  | .ack k => handle_ack m k
  | .req k local_rank rank seq => some (handle_req overshoot m k local_rank rank seq)
  | .house_keeping timed_out_blocked timed_out =>
    some (house_keeping timed_out_blocked timed_out m)
  | .handler k => drive_handler m k
  | .load k => some (drive_load m k)

/-- The encoder map after a sequence of events. -/
def run_from (overshoot threshold : ℚ) (fresh : encoder) (m : coder_map encoder) :
    List event → Option (coder_map encoder)
  | [] => some m
  | ev :: evs =>
    match step overshoot threshold fresh m ev with
    | none => none
    | some m1 => run_from overshoot threshold fresh m1 evs

/-- The encoder map after a sequence of events, starting from the empty map. -/
def run (overshoot threshold : ℚ) (fresh : encoder) (evs : List event) :
    Option (coder_map encoder) :=
  run_from overshoot threshold fresh coder_map.empty evs

/-- Every live encoder has the symbols of `fresh` and at most that many plain
packets. -/
def bounded (fresh : encoder) (m : coder_map encoder) : Prop :=
  ∀ k c, m.m_coders k = some c →
    c.role.symbols = fresh.symbols ∧ c.role.m_plain_pkt_count ≤ fresh.symbols

end encoder_map

/-! ## `src/semaphore.hpp` -/

/-- The least and the greatest `ssize_t`. -/
def SSIZE_MIN : Int := -(2 ^ 63)
def SSIZE_MAX : Int := 2 ^ 63 - 1

/-- The members of `class semaphore`: the queue `m_queue` of the condition
variables of the blocked callers (each named by a number), `m_count` and
`m_wakeups`. -/
structure semaphore where
  m_queue : List Nat
  m_count : Int
  m_wakeups : Int
deriving DecidableEq, Repr

namespace semaphore

/-- The constructor `semaphore()`. -/
def ctor : semaphore := { m_queue := [], m_count := 0, m_wakeups := 0 }

/-- The constructor `semaphore(size_t c)`: `m_count(c), m_wakeups(0)`. -/
def ctor_count (c : Nat) : semaphore :=
  { m_queue := [], m_count := size_to_ssize c, m_wakeups := 0 }

/-- The predicate of `cond_var->wait(lock, [this]() { return m_wakeups > 0; })`:
a wake-up is pending. -/
def wakeup_pending (s : semaphore) : Bool := decide (s.m_wakeups > 0)

/-- The method `wait()` up to the point where the caller either returns or
blocks on its new condition variable `cond_var`; the flag tells whether it
blocks. `cond_var->wait(lock, pred)` blocks only while the predicate is false:
a caller that finds a wake-up pending takes it and returns at once. A
decrement below the least `ssize_t` is undefined.
```
m_count--;
if (m_count < 0) {
    std::condition_variable *cond_var(new std::condition_variable);
    m_queue.push_back(cond_var);
    cond_var->wait(lock, [this]() { return m_wakeups > 0; });
    m_wakeups--;
}
```
-/
def wait (s : semaphore) (cond_var : Nat) : Option (semaphore × Bool) :=
  if s.m_count ≤ SSIZE_MIN then none
  else
    let count := s.m_count - 1
    if count < 0 then
      let s1 := { s with m_count := count, m_queue := s.m_queue ++ [cond_var] }
      if s1.wakeup_pending then some ({ s1 with m_wakeups := s1.m_wakeups - 1 }, false)
      else some (s1, true)
    else some ({ s with m_count := count }, false)

/-- The end of `wait()` for a blocked caller that wakes up: it goes on when
`m_wakeups > 0` holds, with `m_wakeups--`, and keeps waiting otherwise. -/
def resume (s : semaphore) : semaphore :=
  if s.wakeup_pending then { s with m_wakeups := s.m_wakeups - 1 } else s

/-- The method `notify()`; the result names the condition variable that is
notified, if any. An increment above the greatest `ssize_t` and `front()` on an
empty queue are undefined.
```
m_count++;
if (m_count <= 0) {
    m_wakeups++;
    std::condition_variable *cond_var(m_queue.front());
    m_queue.pop_front();
    cond_var->notify_one();
    delete cond_var;
}
```
-/
def notify (s : semaphore) : Option (semaphore × Option Nat) :=
  if s.m_count ≥ SSIZE_MAX then none
  else
    let count := s.m_count + 1
    if count ≤ 0 then
      if s.m_wakeups ≥ SSIZE_MAX then none
      else
        match s.m_queue with
        | [] => none
        | cond_var :: rest =>
          some ({ m_count := count, m_wakeups := s.m_wakeups + 1, m_queue := rest },
            some cond_var)
    else some ({ s with m_count := count }, none)

/-- One step on the semaphore, atomic under its mutex. -/
inductive op where
  | wait (cond_var : Nat)
  | notify
  | resume

/-- The semaphore after one step. -/
def step (s : semaphore) : op → Option semaphore
  | .wait cond_var => (s.wait cond_var).map (·.1)
  | .notify => s.notify.map (·.1)
  | .resume => some s.resume

/-- The semaphore after a sequence of steps. -/
def run (s : semaphore) : List op → Option semaphore
  | [] => some s
  | o :: os =>
    match step s o with
    | none => none
    | some s1 => run s1 os

end semaphore

/-! ## The parts of `r_val` -/

namespace coder

/-- The value of `e3 - e1*e3/ONE`, the denominator of `r_val` before its guard
in the branch where `r_test` holds. -/
def r_val_test_denom (e1 e3 : uint8_t) : Nat := usub e3.val (e1.val * e3.val / ONE)

/-- The value of `ONE*g - g*e2 - g*e3`, the first three terms of `nom` in
`r_val`. -/
def r_val_nom_head (g : Nat) (e2 e3 : uint8_t) : Nat :=
  usub (usub (umul ONE g) (umul g e2.val)) (umul g e3.val)

/-- The value of `nom = ONE*g - g*e2 - g*e3 + g*e1*e3/ONE` in `r_val`. -/
def r_val_nom (g : Nat) (e1 e2 e3 : uint8_t) : Nat :=
  uadd (r_val_nom_head g e2 e3) (umul (umul g e1.val) e3.val / ONE)

/-- The value of `ONE + e1*e3*e2/ONE/ONE - e2 - e1*e3/ONE`, the denominator of
`r_val` before its guard in the other branch. -/
def r_val_denom (e1 e2 e3 : uint8_t) : Nat :=
  usub (usub (uadd ONE (e1.val * e3.val * e2.val / ONE / ONE)) e2.val) (e1.val * e3.val / ONE)

end coder

namespace spec

/-- The integer `e3 − ⌊e1·e3/255⌋`. -/
def r_test_denom (e1 e3 : ℤ) : ℤ := e3 - e1 * e3 / 255

/-- The integer `255g − g·e2 − g·e3 + ⌊g·e1·e3/255⌋`. -/
def r_nom (g e1 e2 e3 : ℤ) : ℤ := 255 * g - g * e2 - g * e3 + g * e1 * e3 / 255

/-- The integer `255 + ⌊⌊e1·e3·e2/255⌋/255⌋ − e2 − ⌊e1·e3/255⌋`. -/
def r_denom (e1 e2 e3 : ℤ) : ℤ := 255 + e1 * e3 * e2 / 255 / 255 - e2 - e1 * e3 / 255

end spec

/-! ## `src/timeout.hpp` -/

/-- The method `check_timeout(ts, t)` with the time since `ts` in seconds as
`idle`: `return (diff.count() > t);`. -/
def check_timeout (idle t : ℚ) : Bool := decide (idle > t)

/-! ## `src/recoder.hpp`, `src/recoder.cpp` -/

/-- Conversion of a `double` to `ssize_t`: truncation toward zero, undefined
when the truncated value is not representable. -/
def double_to_ssize (x : ℚ) : Option Int :=
  if (SSIZE_MIN : ℚ) - 1 < x ∧ x < (SSIZE_MAX : ℚ) + 1 then
    some (if x ≥ 0 then ⌊x⌋ else ⌈x⌉)
  else none

/-- The recoder: configuration (`symbols()`, `payload_size()`), the estimates
`m_e1`, `m_e2`, `m_e3` of the base class `coder`, its own members `e1`, `e2`,
`e3`, what `this->rank()` and `this->is_complete()` return, the members
`m_rec_pkt_count` (`size_t`), `m_budget`, `m_max_budget` (`ssize_t`), the state
engine, and the messages sent so far. -/
structure recoder where
  symbols : Nat
  payload_size : Nat
  m_e1 : uint8_t
  m_e2 : uint8_t
  m_e3 : uint8_t
  e1 : uint8_t
  e2 : uint8_t
  e3 : uint8_t
  rlnc_rank : Nat
  rlnc_complete : Bool
  m_rec_pkt_count : Nat
  m_budget : Int
  m_max_budget : Int
  st : states
  sent : List frame

namespace recoder

/-- The `enum m_state` of the recoder. -/
def STATE_INVALID : Nat := __STATE_INVALID
def STATE_WAIT : Nat := __STATE_WAIT
def STATE_DONE : Nat := __STATE_DONE
def STATE_SEND_CREDIT : Nat := 3
def STATE_SEND_BUDGET : Nat := 4
def STATE_WAIT_ACK : Nat := 5
def STATE_NUM : Nat := 6

/-- The `enum m_event` of the recoder. -/
def EVENT_TIMEOUT : Nat := 0
def EVENT_RX : Nat := 1
def EVENT_COMPLETE : Nat := 2
def EVENT_ACKED : Nat := 3
def EVENT_MAXED : Nat := 4
def EVENT_CREDIT_SENT : Nat := 5
def EVENT_BUDGET_SENT : Nat := 6
def EVENT_NUM : Nat := 7

/-- The state engine after the constructor `full_rlnc_recoder_deep()`. -/
def ctor : Option states :=
  (some (states.ctor.init STATE_NUM EVENT_NUM))
    |>.bind (·.add_trans STATE_WAIT EVENT_RX STATE_SEND_CREDIT)
    |>.bind (·.add_trans STATE_WAIT EVENT_COMPLETE STATE_SEND_BUDGET)
    |>.bind (·.add_trans STATE_WAIT EVENT_TIMEOUT STATE_DONE)
    |>.bind (·.add_trans STATE_WAIT EVENT_ACKED STATE_DONE)
    |>.bind (·.add_trans STATE_SEND_CREDIT EVENT_CREDIT_SENT STATE_WAIT)
    |>.bind (·.add_trans STATE_SEND_CREDIT EVENT_ACKED STATE_DONE)
    |>.bind (·.add_trans STATE_SEND_CREDIT EVENT_MAXED STATE_WAIT_ACK)
    |>.bind (·.add_trans STATE_SEND_CREDIT EVENT_RX STATE_SEND_CREDIT)
    |>.bind (·.add_trans STATE_SEND_CREDIT EVENT_COMPLETE STATE_SEND_BUDGET)
    |>.bind (·.add_trans STATE_SEND_BUDGET EVENT_ACKED STATE_DONE)
    |>.bind (·.add_trans STATE_SEND_BUDGET EVENT_BUDGET_SENT STATE_WAIT_ACK)
    |>.bind (·.add_trans STATE_WAIT_ACK EVENT_ACKED STATE_DONE)
    |>.bind (·.add_trans STATE_WAIT_ACK EVENT_TIMEOUT STATE_DONE)
    |>.bind (·.add_trans STATE_WAIT_ACK EVENT_RX STATE_WAIT_ACK)
    |>.bind (·.add_trans STATE_WAIT_ACK EVENT_COMPLETE STATE_WAIT_ACK)
    |>.bind (·.add_trans STATE_DONE EVENT_ACKED STATE_DONE)
    |>.bind (·.add_trans STATE_DONE EVENT_RX STATE_DONE)

/-- The transition table the recoder's constructor leaves behind. -/
def trans_table : List (List Nat) :=
  match ctor with
  | some s => s.m_trans_table
  | none => []

/-- The call `dispatch_event(event)` on the engine of the recoder. -/
def dispatch_event (r : recoder) (event : Nat) : Option recoder :=
  match r.st.dispatch_event event with
  | none => none
  | some st => some { r with st := st }

/-- The method `update_budget()`; the result is the recoder afterwards and the
returned value. The sum is a `double` that is converted back to the `ssize_t`
member:
```
if (e1 == ONE || e2 == ONE || e3 == ONE) return m_budget + 2;
m_budget += recoder_credit(m_e1, m_e2, m_e3);
return m_budget;
```
-/
def update_budget (r : recoder) : Option (recoder × Int) :=
  if r.e1.val = coder.ONE ∨ r.e2.val = coder.ONE ∨ r.e3.val = coder.ONE then
    some (r, r.m_budget + 2)
  else
    match coder.recoder_credit r.m_e1.val r.m_e2.val r.m_e3.val with
    | none => none
    | some credit =>
      match double_to_ssize ((r.m_budget : ℚ) + credit) with
      | none => none
      | some b => some ({ r with m_budget := b }, b)

/-- The method `send_rec_packet()`: one recoded message, `m_rec_pkt_count++`. -/
def send_rec_packet (r : recoder) : recoder :=
  { r with sent := r.sent ++ [frame.coded REC_PACKET],
           m_rec_pkt_count := uadd r.m_rec_pkt_count 1 }

/-- The loop of `send_rec_credits()` with the number of iterations left as
fuel; `m_rec_pkt_count <= m_max_budget` compares as `size_t`. -/
def send_rec_credits_loop : Nat → recoder → recoder
  | 0, r => r
  | n + 1, r =>
    if r.m_budget > 0 ∧ r.m_rec_pkt_count ≤ int_to_size_t r.m_max_budget then
      send_rec_credits_loop n { r.send_rec_packet with m_budget := r.m_budget - 1 }
    else r

/-- The method `send_rec_credits()`, the handler of `STATE_SEND_CREDIT`:
```
update_budget();
if (m_budget <= 0) { dispatch_event(EVENT_CREDIT_SENT); return; }
for (; m_budget > 0 && m_rec_pkt_count <= m_max_budget; m_budget--)
    send_rec_packet();
if (m_rec_pkt_count >= m_max_budget) dispatch_event(EVENT_MAXED);
else dispatch_event(EVENT_CREDIT_SENT);
```
-/
def send_rec_credits (r : recoder) : Option recoder :=
  match r.update_budget with
  | none => none
  | some (r1, _) =>
    if r1.m_budget ≤ 0 then r1.dispatch_event EVENT_CREDIT_SENT
    else
      let r2 := send_rec_credits_loop r1.m_budget.toNat r1
      if r2.m_rec_pkt_count ≥ int_to_size_t r2.m_max_budget then r2.dispatch_event EVENT_MAXED
      else r2.dispatch_event EVENT_CREDIT_SENT

/-- The recoder after `k` executions of the handler `send_rec_credits`. -/
def send_rec_credits_times : Nat → recoder → Option recoder
  | 0, r => some r
  | k + 1, r =>
    match r.send_rec_credits with
    | none => none
    | some r1 => send_rec_credits_times k r1

/-- The method `add_ack_packet()` of the recoder: `dispatch_event(EVENT_ACKED);`. -/
def add_ack_packet (r : recoder) : Option recoder := r.dispatch_event EVENT_ACKED

/-- The method `process()` of the recoder, with the result of `is_timed_out()`
as `timed_out`:
```
if (curr_state() == STATE_DONE) return true;
if (is_timed_out()) { dispatch_event(EVENT_TIMEOUT); return false; }
return false;
```
-/
def process (r : recoder) (timed_out : Bool) : Option (recoder × Bool) :=
  if r.st.m_curr_state = STATE_DONE then some (r, true)
  else if timed_out then
    match r.dispatch_event EVENT_TIMEOUT with
    | none => none
    | some r1 => some (r1, false)
  else some (r, false)

end recoder

/-! ## More of the decoder and the helper -/

/-- The loop `for (; req_budget >= 0; req_budget--) send_request(m_req_seq);`
with the number of iterations left as fuel; the request carries the rank and
the sequence number as `uint16_t`. -/
def send_requests : Nat → ℚ → Nat → Nat → List frame → List frame
  | 0, _, _, _, out => out
  | n + 1, budget, rank, seq, out =>
    if budget ≥ 0 then
      send_requests n (budget - 1) rank seq (out ++ [frame.req (rank % 65536) (seq % 65536)])
    else out

/-- The number of requests among the messages. -/
def req_count : List frame → Nat
  | [] => 0
  | frame.req _ _ :: fs => 1 + req_count fs
  | _ :: fs => req_count fs

/-- The call `dispatch_event(event)` on the engine of the decoder. -/
def decoder.dispatch_event (d : decoder) (event : Nat) : Option decoder :=
  match d.st.dispatch_event event with
  | none => none
  | some st => some { d with st := st }

/-- The method `process()` of the decoder, with `FLAGS_fixed_overshoot` as
`overshoot` and the results of `is_timed_out()` and `packet_timed_out()` as
`timed_out` and `packet_timed_out`:
```
if (curr_state() == STATE_DONE) return true;
if (is_timed_out() && !this->is_complete() && !this->is_partial_complete()) {
    dispatch_event(EVENT_TIMEOUT);
    return false;
}
if (is_timed_out()) { dispatch_event(EVENT_TIMEOUT); return false; }
if (curr_state() == STATE_WAIT && packet_timed_out()) {
    if (this->is_partial_complete()) return false;
    double req_budget = source_budget(1, 254, 254, m_e3);
    for (; req_budget >= 0; req_budget--) send_request(m_req_seq);
    m_req_seq++;
    update_packet_timestamp();
    return false;
}
return false;
```
-/
def decoder.process (overshoot : ℚ) (d : decoder) (timed_out packet_timed_out : Bool) :
    Option (decoder × Bool) :=
  if d.st.m_curr_state = decoder.STATE_DONE then some (d, true)
  else if timed_out && !d.rlnc_complete && !d.rlnc_partial then
    match d.dispatch_event decoder.EVENT_TIMEOUT with
    | none => none
    | some d1 => some (d1, false)
  else if timed_out then
    match d.dispatch_event decoder.EVENT_TIMEOUT with
    | none => none
    | some d1 => some (d1, false)
  else if d.st.m_curr_state = decoder.STATE_WAIT ∧ packet_timed_out = true then
    if d.rlnc_partial then some (d, false)
    else
      let req_budget := coder.source_budget overshoot 1 254 254 d.m_e3
      some ({ d with
        sent := send_requests (Int.toNat ⌊req_budget⌋ + 1) req_budget d.rlnc_rank d.m_req_seq
          d.sent
        m_req_seq := uadd d.m_req_seq 1 }, false)
  else some (d, false)

/-- The call `dispatch_event(event)` on the engine of the helper. -/
def helper.dispatch_event (h : helper) (event : Nat) : Option helper :=
  match h.st.dispatch_event event with
  | none => none
  | some st => some { h with st := st }

/-- The method `add_ack_packet()` of the helper: `dispatch_event(EVENT_ACKED);`. -/
def helper.add_ack_packet (h : helper) : Option helper :=
  helper.dispatch_event h helper.EVENT_ACKED

/-- The method `process()` of the helper, with the result of `is_timed_out()`
as `timed_out`:
```
if (curr_state() == STATE_DONE) return true;
if (is_timed_out()) { dispatch_event(EVENT_TIMEOUT); }
return false;
```
-/
def helper.process (h : helper) (timed_out : Bool) : Option (helper × Bool) :=
  if h.st.m_curr_state = helper.STATE_DONE then some (h, true)
  else if timed_out then
    match helper.dispatch_event h helper.EVENT_TIMEOUT with
    | none => none
    | some h1 => some (h1, false)
  else some (h, false)

/-- A recoder right after its constructor, with a coder base that holds the
estimates `(25, 25, 76)` (the default flags), own estimates of zero and zeroes
in the members that the constructor does not assign. -/
def sample_recoder : recoder :=
  { symbols := 64
    payload_size := 12
    m_e1 := 25
    m_e2 := 25
    m_e3 := 76
    e1 := 0
    e2 := 0
    e3 := 0
    rlnc_rank := 0
    rlnc_complete := false
    m_rec_pkt_count := 0
    m_budget := 0
    m_max_budget := 68
    st := { m_curr_state := recoder.STATE_SEND_CREDIT, m_next_state := recoder.STATE_SEND_CREDIT,
            m_trans_table := recoder.trans_table }
    sent := [] }

/-! ## `src/fox.cpp`: the four maps and the case `ACK_PACKET` -/

/-- The effect of a method call through the `coder_pointer` `c` of any role:
the coder stored under the key of `c` is now in the state `x`. -/
def coder_map.store {β : Type} (m : coder_map β) (c : coder_obj β) (x : β) : coder_map β :=
  { m with m_coders := Function.update m.m_coders c._key (some { c with role := x }) }

/-- The globals `enc_map`, `dec_map`, `rec_map` and `hlp_map`. -/
structure role_maps where
  enc_map : coder_map encoder
  dec_map : coder_map decoder
  rec_map : coder_map recoder
  hlp_map : coder_map helper

/-- The case `ACK_PACKET` of `handle_packet`:
```
e = enc_map->find_coder(k);
if (e) { e->add_ack_packet(); break; }
r = rec_map->find_coder(k);
if (r) { r->add_ack_packet(); break; }
h = hlp_map->find_coder(k);
if (h) { h->add_ack_packet(); break; }
break;
```
-/
def handle_ack_packet (ms : role_maps) (k : key) : Option role_maps :=
  match (coder_map.find_coder ms.enc_map k).1 with
  | some e =>
    match e.role.add_ack_packet with
    | none => none
    | some e1 => some { ms with enc_map := coder_map.store ms.enc_map e e1 }
  | none =>
    match (coder_map.find_coder ms.rec_map k).1 with
    | some r =>
      match r.role.add_ack_packet with
      | none => none
      | some r1 => some { ms with rec_map := coder_map.store ms.rec_map r r1 }
    | none =>
      match (coder_map.find_coder ms.hlp_map k).1 with
      | some h =>
        match h.role.add_ack_packet with
        | none => none
        | some h1 => some { ms with hlp_map := coder_map.store ms.hlp_map h h1 }
      | none => some ms

/-- The two maps have the same live keys, each live coder with the same key as
before, the same block map and the same retired set. -/
def coder_map.same_keys {β : Type} (m m1 : coder_map β) : Prop :=
  (∀ k, (m1.m_coders k).map (·._key) = (m.m_coders k).map (·._key)) ∧
  m1.m_blocks = m.m_blocks ∧ m1.m_invalid = m.m_invalid

/-- Four maps with one live coder of each of the roles encoder, recoder and
helper under the key of block 1 of the sample flow, and no decoder. -/
def sample_maps : role_maps :=
  { enc_map :=
      { m_coders := Function.update (fun _ => none) (sample_key 1)
          (some { _key := sample_key 1, role := sample_encoder })
        m_blocks := fun _ => none
        m_invalid := fun _ => false }
    dec_map := coder_map.empty
    rec_map :=
      { m_coders := Function.update (fun _ => none) (sample_key 1)
          (some { _key := sample_key 1, role := sample_recoder })
        m_blocks := fun _ => none
        m_invalid := fun _ => false }
    hlp_map :=
      { m_coders := Function.update (fun _ => none) (sample_key 1)
          (some { _key := sample_key 1, role := sample_helper 64 })
        m_blocks := fun _ => none
        m_invalid := fun _ => false } }

/-- A decoder after `init()` with the default sizes (64 symbols of 1454 bytes,
which pass the check `symbols + symbol_size ≤ RLNC_MAX_PAYLOAD` of `main`),
whose last slot starts with the length 1500 and is zero elsewhere. -/
def sample_decoder_long : decoder :=
  decoder.init
    { sample_decoder with
      symbols := 64
      symbol_size := 1454
      rlnc_symbols := fun a => if a = 63 * 1454 then 220 else if a = 63 * 1454 + 1 then 5 else 0 }

/-- The index and the payload length of a decoded frame. -/
def dec_frame_size : frame → Option (Nat × Nat)
  | frame.dec i payload => some (i, payload.length)
  | _ => none

/-! ## Block rollover -/

/-- The events of a sequence of plain frames that all carry the key `k`, each
with its bytes and with what `this->rank()` and `semaphore_count()` return
while it is added. -/
def encoder_map.plain_events (k : key) (frames : List (List uint8_t × Nat × Int)) :
    List encoder_map.event :=
  frames.map (fun p => encoder_map.event.plain k p.1 p.2.1 p.2.2)

/-- An encoder that takes plain packets as a new encoder of the map does: it is
in `STATE_WAIT` with the table of the constructor, and it has the sizes and the
estimates of `fresh`. -/
def encoder.like (fresh e : encoder) : Prop :=
  e.st.m_curr_state = encoder.STATE_WAIT ∧ e.st.m_trans_table = encoder.trans_table ∧
  e.symbols = fresh.symbols ∧ e.symbol_size = fresh.symbol_size ∧
  e.m_e1 = fresh.m_e1 ∧ e.m_e2 = fresh.m_e2 ∧ e.m_e3 = fresh.m_e3

/-- The state of the encoder map after the plain frames `fs` of the flow
`(src, dst)`: either nothing has arrived and the flow has neither a latest
block nor a coder, or the latest block `B` holds a coder like a new one with
`cnt` plain packets, `fs.length = (B - 1) * symbols + cnt`; and frame `i` is in
slot `i % symbols` of the coder of block `1 + i / symbols`, which has taken
`symbols` plain packets or, in the latest block, the rest of `fs`. -/
def encoder_map.rolled (fresh : encoder) (src dst : eth_addr) (m : coder_map encoder)
    (fs : List (List uint8_t × Nat × Int)) : Prop :=
  ((fs = [] ∧ m.m_blocks ⟨src, dst, 0⟩ = none ∧ m.m_coders ⟨src, dst, 0⟩ = none) ∨
    ∃ B cnt c, 1 ≤ B ∧ 1 ≤ cnt ∧ cnt ≤ fresh.symbols ∧
      fs.length = (B - 1) * fresh.symbols + cnt ∧
      m.m_blocks ⟨src, dst, 0⟩ = some B ∧ m.m_coders ⟨src, dst, B⟩ = some c ∧
      c._key = ⟨src, dst, B⟩ ∧ c.role.m_plain_pkt_count = cnt ∧ encoder.like fresh c.role) ∧
  ∀ i (hi : i < fs.length), ∃ c,
    m.m_coders ⟨src, dst, 1 + i / fresh.symbols⟩ = some c ∧
    c._key = ⟨src, dst, 1 + i / fresh.symbols⟩ ∧
    (fs.get ⟨i, hi⟩).1.length + LEN_SIZE ≤ fresh.symbol_size ∧
    slot_holds c.role.m_symbol_storage fresh.symbol_size (i % fresh.symbols) (fs.get ⟨i, hi⟩).1 ∧
    i % fresh.symbols < c.role.m_plain_pkt_count ∧
    c.role.m_plain_pkt_count ≤ fresh.symbols ∧
    c.role.m_plain_pkt_count = min fresh.symbols (fs.length - i / fresh.symbols * fresh.symbols)

/-! # Theorems -/

/-! ## Rounding to `double` -/

namespace binary64

theorem pow2_eq_zpow (q : Int) : pow2 q = (2 : ℚ) ^ q := by
  unfold pow2
  by_cases h : 0 ≤ q
  · rw [if_pos h]
    obtain ⟨n, rfl⟩ := Int.eq_ofNat_of_zero_le h
    simp
  · rw [if_neg h]
    obtain ⟨n, hn⟩ := Int.eq_ofNat_of_zero_le (show 0 ≤ -q by omega)
    have hq : q = -(n : ℤ) := by omega
    rw [hn, hq]
    simp

theorem pow2_pos (q : Int) : 0 < pow2 q := by
  rw [pow2_eq_zpow]
  positivity

theorem pow2_mono (a b : Int) (h : a ≤ b) : pow2 a ≤ pow2 b := by
  rw [pow2_eq_zpow, pow2_eq_zpow]
  exact zpow_le_zpow_right₀ (by norm_num) h

theorem pow2_natCast (n : Nat) : pow2 (n : Int) = ((2 ^ n : ℕ) : ℚ) := by
  unfold pow2
  rw [if_pos (Int.natCast_nonneg n)]
  simp

theorem lt_of_pow2_lt (a b : Int) (h : pow2 a < pow2 b) : a < b := by
  by_contra hc
  exact absurd (pow2_mono b a (by omega)) (not_le.mpr h)

theorem round_half_even_error (m : ℚ) : |(round_half_even m : ℚ) - m| ≤ 1 / 2 := by
  have h1 := Int.floor_le m
  have h2 := Int.lt_floor_add_one m
  unfold round_half_even
  simp only
  rw [abs_le]
  split_ifs with ha hb hc
  · constructor <;> linarith
  · push_cast
    constructor <;> linarith
  · constructor <;> linarith
  · push_cast
    constructor <;> linarith

theorem round_half_even_nonneg (m : ℚ) (h : 0 ≤ m) : 0 ≤ round_half_even m := by
  have h1 : 0 ≤ ⌊m⌋ := Int.floor_nonneg.mpr h
  unfold round_half_even
  simp only
  split_ifs <;> omega

theorem round_half_even_intCast (k : Int) : round_half_even (k : ℚ) = k := by
  unfold round_half_even
  simp

theorem ilog2_fuel_spec (fuel : Nat) : ∀ n, 1 ≤ n → n ≤ fuel →
    2 ^ ilog2_fuel fuel n ≤ n ∧ n < 2 ^ (ilog2_fuel fuel n + 1) := by
  induction fuel with
  | zero =>
    intro n h1 h2
    omega
  | succ fuel ih =>
    intro n h1 h2
    unfold ilog2_fuel
    by_cases h : n < 2
    · rw [if_pos h]
      have : n = 1 := by omega
      subst this
      norm_num
    · rw [if_neg h]
      obtain ⟨i1, i2⟩ := ih (n / 2) (by omega) (by omega)
      rw [pow_succ] at i2 ⊢
      rw [pow_succ]
      constructor
      · omega
      · omega

theorem ilog2_spec (n : Nat) (h : 1 ≤ n) : 2 ^ ilog2 n ≤ n ∧ n < 2 ^ (ilog2 n + 1) :=
  ilog2_fuel_spec n n h (le_refl n)

theorem exponent_le_abs (x : ℚ) (hx : x ≠ 0) : pow2 (exponent x) ≤ |x| := by
  unfold exponent
  simp only
  split_ifs with h
  · exact h
  · have ha : 1 ≤ x.num.natAbs := by
      have : x.num ≠ 0 := Rat.num_ne_zero.mpr hx
      omega
    have hb : 1 ≤ x.den := x.den_pos
    obtain ⟨a1, _⟩ := ilog2_spec _ ha
    obtain ⟨_, b2⟩ := ilog2_spec _ hb
    have habs : |x| = (x.num.natAbs : ℚ) / (x.den : ℚ) := by
      rw [Nat.cast_natAbs, Int.cast_abs]
      have hd : |(x.den : ℚ)| = (x.den : ℚ) := abs_of_nonneg (Nat.cast_nonneg _)
      rw [← hd, ← abs_div, Rat.num_div_den]
    rw [habs, pow2_eq_zpow]
    have hden : (0 : ℚ) < (x.den : ℚ) := by exact_mod_cast hb
    rw [le_div_iff₀ hden]
    have e1 : ((ilog2 x.num.natAbs : ℤ) - (ilog2 x.den : ℤ) - 1)
        = (ilog2 x.num.natAbs : ℤ) - ((ilog2 x.den + 1 : ℕ) : ℤ) := by
      push_cast
      ring
    rw [e1, zpow_sub₀ (by norm_num), zpow_natCast, zpow_natCast]
    have hp : (0 : ℚ) < (2 : ℚ) ^ (ilog2 x.den + 1) := by positivity
    rw [div_mul_eq_mul_div, div_le_iff₀ hp]
    have a1q : ((2 : ℚ) ^ ilog2 x.num.natAbs) ≤ (x.num.natAbs : ℚ) := by exact_mod_cast a1
    have b2q : (x.den : ℚ) ≤ (2 : ℚ) ^ (ilog2 x.den + 1) := by exact_mod_cast (le_of_lt b2)
    have hn0 : (0 : ℚ) ≤ (x.num.natAbs : ℚ) := Nat.cast_nonneg _
    have hp0 : (0 : ℚ) ≤ (2 : ℚ) ^ ilog2 x.num.natAbs := by positivity
    calc (2 : ℚ) ^ ilog2 x.num.natAbs * (x.den : ℚ)
        ≤ (x.num.natAbs : ℚ) * (x.den : ℚ) := mul_le_mul_of_nonneg_right a1q (le_of_lt hden)
      _ ≤ (x.num.natAbs : ℚ) * (2 : ℚ) ^ (ilog2 x.den + 1) := mul_le_mul_of_nonneg_left b2q hn0

theorem exponent_lt (x : ℚ) (hx : x ≠ 0) (b : Int) (h : |x| < pow2 b) : exponent x < b :=
  lt_of_pow2_lt _ _ (lt_of_le_of_lt (exponent_le_abs x hx) h)

theorem round_value_error (x : ℚ) :
    |round_value x - x| ≤ pow2 (max (exponent x - 52) (-1074)) / 2 := by
  unfold round_value
  by_cases hx : x = 0
  · rw [if_pos hx, hx]
    simp only [sub_self, abs_zero]
    exact le_of_lt (div_pos (pow2_pos _) (by norm_num))
  · rw [if_neg hx]
    simp only
    have hp := pow2_pos (max (exponent x - 52) (-1074))
    generalize pow2 (max (exponent x - 52) (-1074)) = u at hp ⊢
    have h := round_half_even_error (x / u)
    have hxu : x = x / u * u := by field_simp
    have : (round_half_even (x / u) : ℚ) * u - x = ((round_half_even (x / u) : ℚ) - x / u) * u := by
      rw [sub_mul, ← hxu]
    rw [this, abs_mul, abs_of_pos hp]
    calc |(round_half_even (x / u) : ℚ) - x / u| * u ≤ 1 / 2 * u :=
          mul_le_mul_of_nonneg_right h (le_of_lt hp)
      _ = u / 2 := by ring

theorem round_value_near (x : ℚ) (h : |x| < 2 ^ 51) : |round_value x - x| ≤ 1 / 8 := by
  by_cases hx : x = 0
  · unfold round_value
    rw [if_pos hx, hx]
    norm_num
  · have he : exponent x < 51 := by
      apply exponent_lt x hx
      have : pow2 51 = (2 : ℚ) ^ 51 := by
        rw [pow2_eq_zpow]
        norm_cast
      rw [this]
      exact h
    have hq : max (exponent x - 52) (-1074) ≤ -2 := by omega
    have hp : pow2 (max (exponent x - 52) (-1074)) ≤ 1 / 4 := by
      have h1 := pow2_mono _ _ hq
      have h2 : pow2 (-2) = 1 / 4 := by
        rw [pow2_eq_zpow]
        norm_num
      rw [h2] at h1
      exact h1
    have := round_value_error x
    linarith

theorem round_value_nonneg (x : ℚ) (h : 0 ≤ x) : 0 ≤ round_value x := by
  unfold round_value
  split_ifs with hx
  · exact le_refl _
  · simp only
    have hp := pow2_pos (max (exponent x - 52) (-1074))
    have : 0 ≤ round_half_even (x / pow2 (max (exponent x - 52) (-1074))) :=
      round_half_even_nonneg _ (div_nonneg h (le_of_lt hp))
    have hq : (0 : ℚ) ≤ (round_half_even (x / pow2 (max (exponent x - 52) (-1074))) : ℚ) := by
      exact_mod_cast this
    exact mul_nonneg hq (le_of_lt hp)

theorem round_of_lt (x : ℚ) (h : |x| < 2 ^ 51) : round x = some (round_value x) := by
  have h1 := round_value_near x h
  unfold round
  simp only
  rw [if_pos]
  have h2 : |round_value x| ≤ |round_value x - x| + |x| := by
    have := abs_add (round_value x - x) x
    rw [sub_add_cancel] at this
    exact this
  have h3 : ((2 ^ 1024 : ℕ) : ℚ) = (2 : ℚ) ^ 1024 := by
    simp only [Nat.cast_pow, Nat.cast_ofNat]
  rw [h3]
  have h4 : (2 : ℚ) ^ 51 + 1 / 8 < (2 : ℚ) ^ 1024 := by
    have : (2 : ℚ) ^ 52 ≤ (2 : ℚ) ^ 1024 := pow_le_pow_right₀ (by norm_num) (by norm_num)
    have h52 : (2 : ℚ) ^ 52 = 2 * 2 ^ 51 := by ring
    have h51 : (1 : ℚ) ≤ 2 ^ 51 := one_le_pow₀ (by norm_num)
    linarith
  linarith

theorem round_value_natCast (n : Nat) (h : n < 2 ^ 53) : round_value (n : ℚ) = (n : ℚ) := by
  by_cases hn : (n : ℚ) = 0
  · unfold round_value
    rw [if_pos hn, hn]
  · have he : exponent (n : ℚ) < 53 := by
      apply exponent_lt _ hn
      have : pow2 53 = (2 : ℚ) ^ 53 := by
        rw [pow2_eq_zpow]
        norm_cast
      rw [this, abs_of_nonneg (Nat.cast_nonneg n)]
      exact_mod_cast h
    unfold round_value
    rw [if_neg hn]
    simp only
    have hq : max (exponent (n : ℚ) - 52) (-1074) ≤ 0 := by omega
    generalize max (exponent (n : ℚ) - 52) (-1074) = q at hq
    obtain ⟨k, hk⟩ := Int.eq_ofNat_of_zero_le (show 0 ≤ -q by omega)
    have hq2 : q = -(k : ℤ) := by omega
    have hp : pow2 q = 1 / (2 : ℚ) ^ k := by
      rw [pow2_eq_zpow, hq2, zpow_neg, zpow_natCast]
      simp
    rw [hp]
    have hpk : (0 : ℚ) < (2 : ℚ) ^ k := by positivity
    have hi : (n : ℚ) / (1 / (2 : ℚ) ^ k) = (((n * 2 ^ k : ℕ) : ℤ) : ℚ) := by
      push_cast
      field_simp
    rw [hi, round_half_even_intCast]
    push_cast
    field_simp

end binary64

/-! ## State engine -/

/-- With no transition pending, `dispatch_event` stores the cell of the table,
or `DONE` in place of `INVALID`. -/
theorem states.dispatch_event_of_idle (s : states) (e cell : Nat)
    (h : s.m_curr_state = s.m_next_state)
    (hc : states.trans s.m_trans_table s.m_curr_state e = some cell) :
    s.dispatch_event e = some
      { s with m_next_state := if cell = __STATE_INVALID then __STATE_DONE else cell } := by
  unfold states.dispatch_event
  rw [if_neg (not_not.mpr h)]
  simp only [hc]
  by_cases hcell : cell = __STATE_INVALID <;> simp [hcell]

/-- C1, the claim as stated fails: with a transition to `INVALID` pending
(current `WAIT`, next `INVALID`), `dispatch_event` returns early and next is
still `INVALID` afterwards. -/
theorem dispatch_event_keeps_pending_invalid :
    ∃ s', (encoder.engine __STATE_WAIT __STATE_INVALID).dispatch_event encoder.EVENT_TIMEOUT
        = some s' ∧ s'.m_next_state = __STATE_INVALID :=
  ⟨encoder.engine __STATE_WAIT __STATE_INVALID, by decide, rfl⟩

/-- C1 (amended): if current ≠ next, `dispatch_event` changes nothing; otherwise
it sets next to the cell `table[current][e]`, or to `DONE` when that cell is
`INVALID`, and leaves current alone.  Hence next is not `INVALID` after a
`dispatch_event` that was not ignored, and after an ignored one only if it
already was before. -/
theorem dispatch_event_spec (s : states) (e : Nat) :
    (s.m_curr_state ≠ s.m_next_state → s.dispatch_event e = some s) ∧
    (s.m_curr_state = s.m_next_state → ∀ cell,
      states.trans s.m_trans_table s.m_curr_state e = some cell →
      s.dispatch_event e = some
        { s with m_next_state := if cell = __STATE_INVALID then __STATE_DONE else cell }) ∧
    (∀ s', s.dispatch_event e = some s' →
      (s.m_curr_state = s.m_next_state ∨ s.m_next_state ≠ __STATE_INVALID) →
      s'.m_next_state ≠ __STATE_INVALID) := by
  refine ⟨?_, ?_, ?_⟩
  · intro h
    simp [states.dispatch_event, h]
  · intro h cell hc
    exact states.dispatch_event_of_idle s e cell h hc
  · intro s' hs' hor
    unfold states.dispatch_event at hs'
    split at hs'
    · rename_i hne
      cases hs'
      rcases hor with h | h
      · exact absurd h hne
      · exact h
    · split at hs'
      · cases hs'
      · rename_i n _
        split at hs'
        · cases hs'
          show __STATE_DONE ≠ __STATE_INVALID
          decide
        · rename_i hn
          cases hs'
          exact hn

/-- Witness of C1 on the encoder's table: an ignored event with `FULL` pending,
the valid event `FULL` in `WAIT`, and the invalid event `START` in `WAIT`. -/
theorem dispatch_event_spec_witness :
    (encoder.engine 1 3).dispatch_event encoder.EVENT_ACKED = some (encoder.engine 1 3) ∧
    (encoder.engine 1 1).dispatch_event encoder.EVENT_FULL = some (encoder.engine 1 3) ∧
    (encoder.engine 1 1).dispatch_event encoder.EVENT_START = some (encoder.engine 1 2) ∧
    (encoder.engine 1 2).m_next_state ≠ __STATE_INVALID :=
  ⟨(dispatch_event_spec (encoder.engine 1 3) encoder.EVENT_ACKED).1 (by decide),
   (dispatch_event_spec (encoder.engine 1 1) encoder.EVENT_FULL).2.1 rfl 3 (by decide),
   (dispatch_event_spec (encoder.engine 1 1) encoder.EVENT_START).2.1 rfl 0 (by decide),
   (dispatch_event_spec (encoder.engine 1 1) encoder.EVENT_START).2.2 (encoder.engine 1 2)
     (by decide) (Or.inl rfl)⟩

/-- C2, the claim as stated fails: the encoder in `WAIT` with `FULL` pending is
reachable (dispatch `FULL` from the initial configuration); there
`dispatch_event(ACKED)` is ignored and the driver loads `FULL`, although
`table[WAIT][ACKED]` is `DONE`. -/
theorem lands_on_cell_fails_when_pending :
    ¬ ∀ s, states.Reachable (encoder.engine __STATE_WAIT __STATE_WAIT) s →
        ∀ e, s.lands_on_cell e := by
  intro h
  have hr : states.Reachable (encoder.engine __STATE_WAIT __STATE_WAIT)
      (encoder.engine __STATE_WAIT encoder.STATE_FULL) :=
    states.Reachable.dispatch encoder.EVENT_FULL states.Reachable.start (by decide)
  have h1 := h _ hr encoder.EVENT_ACKED (encoder.engine __STATE_WAIT encoder.STATE_FULL)
    encoder.STATE_DONE (by decide) (by decide)
  revert h1
  decide

/-- C2 (amended): when no transition is pending at the call (current = next)
and the cell `table[prev][e]` exists, `dispatch_event(e)` succeeds and, once
the driver has loaded the next state, the coder is in `table[prev][e]`, or that
cell is `INVALID` and the coder is in `DONE`. -/
theorem dispatch_then_load (s : states) (e cell : Nat)
    (hidle : s.m_curr_state = s.m_next_state)
    (hcell : states.trans s.m_trans_table s.m_curr_state e = some cell) :
    ∃ s', s.dispatch_event e = some s' ∧
      ((cell ≠ __STATE_INVALID ∧ s'.thread_load.m_curr_state = cell) ∨
       (cell = __STATE_INVALID ∧ s'.thread_load.m_curr_state = __STATE_DONE)) := by
  refine ⟨_, states.dispatch_event_of_idle s e cell hidle hcell, ?_⟩
  by_cases hc : cell = __STATE_INVALID
  · exact Or.inr ⟨hc, by simp [states.thread_load, hc]⟩
  · exact Or.inl ⟨hc, by simp [states.thread_load, hc]⟩

/-- Witness of C2: the encoder idle in `WAIT` receives `FULL`. -/
theorem dispatch_then_load_witness :
    ∃ s', (encoder.engine 1 1).dispatch_event encoder.EVENT_FULL = some s' ∧
      ((encoder.STATE_FULL ≠ __STATE_INVALID ∧ s'.thread_load.m_curr_state = encoder.STATE_FULL) ∨
       (encoder.STATE_FULL = __STATE_INVALID ∧ s'.thread_load.m_curr_state = __STATE_DONE)) :=
  dispatch_then_load (encoder.engine 1 1) encoder.EVENT_FULL encoder.STATE_FULL rfl (by decide)

/-- C3: the constructor of the encoder succeeds and leaves a table of
`STATE_NUM` rows of `EVENT_NUM` cells in which the nine listed transitions
hold their target and every other cell is `INVALID`. -/
theorem encoder_trans_table_spec :
    encoder.ctor.isSome = true ∧
    encoder.trans_table.length = encoder.STATE_NUM ∧
    (∀ row ∈ encoder.trans_table, row.length = encoder.EVENT_NUM) ∧
    (∀ (st : Fin encoder.STATE_NUM) (ev : Fin encoder.EVENT_NUM),
      states.trans encoder.trans_table st.val ev.val = some (encoder.spec_cell st.val ev.val)) ∧
    (∀ (st : Fin encoder.STATE_NUM) (ev : Fin encoder.EVENT_NUM) (cell : Fin encoder.STATE_NUM),
      (states.trans encoder.trans_table st.val ev.val = some cell.val ∧
        cell.val ≠ encoder.STATE_INVALID) ↔
      (st.val, ev.val, cell.val) ∈ encoder.spec_transitions) := by
  refine ⟨by decide, by decide, by decide, by decide, by decide⟩

/-! ## Budget arithmetic -/

namespace coder

theorem b2n_le_one (b : Bool) : b2n b ≤ 1 := by
  unfold b2n; split <;> omega

theorem div_255_le (e1 e3 : Nat) (h1 : e1 ≤ 255) : e1 * e3 / 255 ≤ e3 := by
  apply Nat.div_le_of_le_mul
  exact Nat.mul_le_mul_right e3 h1

theorem denom_nonneg (e1 e2 e3 : Nat) (h1 : e1 ≤ 255) (h2 : e2 ≤ 255) (h3 : e3 ≤ 255) :
    e2 + e1 * e3 / 255 ≤ 255 + e1 * e3 * e2 / 255 / 255 := by
  have ha : e1 * e3 / 255 ≤ 255 := le_trans (div_255_le e1 e3 h1) h3
  have hmul : e1 * e3 / 255 * 255 ≤ e1 * e3 := Nat.div_mul_le_self _ _
  -- (a * e2) / 255 ≤ (P * e2 / 255) / 255
  have h4 : e1 * e3 / 255 * e2 ≤ e1 * e3 * e2 / 255 := by
    rw [Nat.le_div_iff_mul_le (by norm_num)]
    calc e1 * e3 / 255 * e2 * 255 = e1 * e3 / 255 * 255 * e2 := by ring
      _ ≤ e1 * e3 * e2 := Nat.mul_le_mul_right e2 hmul
  have h5 : e1 * e3 / 255 * e2 / 255 ≤ e1 * e3 * e2 / 255 / 255 := Nat.div_le_div_right h4
  -- a + e2 - 255 ≤ a * e2 / 255
  have h6 : e2 + e1 * e3 / 255 ≤ 255 + e1 * e3 / 255 * e2 / 255 := by
    generalize e1 * e3 / 255 = a at ha ⊢
    by_cases hle : e2 + a ≤ 255
    · omega
    · have : e2 + a - 255 ≤ a * e2 / 255 := by
        rw [Nat.le_div_iff_mul_le (by norm_num)]
        obtain ⟨x, rfl⟩ : ∃ x, a = 255 - x := ⟨255 - a, by omega⟩
        obtain ⟨y, rfl⟩ : ∃ y, e2 = 255 - y := ⟨255 - e2, by omega⟩
        have hx : x ≤ 255 := by omega
        have hy : y ≤ 255 := by omega
        zify [hx, hy]
        have : (255 - y + (255 - x) - 255 : ℕ) = 255 - (x + y) := by omega
        rw [this]
        have hxy : x + y ≤ 255 := by omega
        push_cast [Nat.cast_sub hxy, Nat.cast_sub hx, Nat.cast_sub hy]
        nlinarith [mul_nonneg (Nat.cast_nonneg x : (0:ℤ) ≤ x) (Nat.cast_nonneg y : (0:ℤ) ≤ y)]
      omega
  omega


theorem mul_div_le_div (g a P : Nat) (h : a * 255 ≤ P) : g * a ≤ g * P / 255 := by
  rw [Nat.le_div_iff_mul_le (by norm_num)]
  calc g * a * 255 = g * (a * 255) := by ring
    _ ≤ g * P := Nat.mul_le_mul_left g h

theorem usub_eq (a b : Nat) (hb : b ≤ a) (ha : a < 2 ^ 64) : usub a b = a - b := by
  unfold usub SIZE_MOD
  omega

theorem uadd_eq (a b : Nat) (h : a + b < 2 ^ 64) : uadd a b = a + b := by
  unfold uadd SIZE_MOD
  omega

theorem umul_eq (a b : Nat) (h : a * b < 2 ^ 64) : umul a b = a * b := by
  unfold umul SIZE_MOD
  exact Nat.mod_eq_of_lt h

/-- Two subtractions that may wrap below zero followed by an addition that
brings the value back into range. -/
theorem usub_usub_uadd (G x2 x3 q : Nat) (h2 : x2 ≤ G) (h3 : x2 + x3 ≤ G + q)
    (hG : G + q < 2 ^ 64) (hx3 : x3 < 2 ^ 64) :
    uadd (usub (usub G x2) x3) q = G + q - x2 - x3 := by
  unfold uadd usub SIZE_MOD
  omega

theorem r_test_eq (e1 e2 e3 : uint8_t) :
    r_test e1 e2 e3 = decide (255 - e2.val < e3.val - e1.val * e3.val / 255) := by
  have ha : e1.val * e3.val / 255 ≤ e3.val := div_255_le _ _ (by omega)
  unfold r_test ONE
  rw [usub_eq _ _ (by omega) (by norm_num), usub_eq _ _ ha (by omega)]

theorem r_val_eq_r_nat (g : Nat) (e1 e2 e3 : uint8_t) (hg : g * 65025 < 2 ^ 64) :
    r_val g e1 e2 e3 = r_nat g e1.val e2.val e3.val := by
  have h1 := e1.isLt
  have h2 := e2.isLt
  have h3 := e3.isLt
  have ha : e1.val * e3.val / 255 ≤ e3.val := div_255_le _ _ (by omega)
  have hd := denom_nonneg e1.val e2.val e3.val (by omega) (by omega) (by omega)
  have hP : e1.val * e3.val ≤ 65025 := by nlinarith
  have hge2 : g * e2.val ≤ g * 255 := Nat.mul_le_mul_left g (by omega)
  have hge3 : g * e3.val ≤ g * 255 := Nat.mul_le_mul_left g (by omega)
  have hge1 : g * e1.val ≤ g * 255 := Nat.mul_le_mul_left g (by omega)
  have hge13 : g * e1.val * e3.val ≤ g * 65025 := by
    rw [Nat.mul_assoc]; exact Nat.mul_le_mul_left g hP
  have hq : g * (e1.val * e3.val / 255) ≤ g * (e1.val * e3.val) / 255 :=
    mul_div_le_div g _ _ (Nat.div_mul_le_self _ _)
  rw [← Nat.mul_assoc] at hq
  have hq2 : g * e1.val * e3.val / 255 ≤ g * 255 := by
    apply Nat.div_le_of_le_mul
    omega
  unfold r_val r_nat
  rw [r_test_eq]
  by_cases ht : 255 - e2.val < e3.val - e1.val * e3.val / 255
  · simp only [ht, decide_True, if_true]
    have hden : elvis (usub e3.val (e1.val * e3.val / ONE)) ONE
        = e3.val - e1.val * e3.val / 255 := by
      unfold ONE
      rw [usub_eq _ _ ha (by omega)]
      unfold elvis
      rw [if_pos (by omega)]
    rw [hden]
    unfold ONE
    have hb := b2n_le_one (255 % (e3.val - e1.val * e3.val / 255) != 0)
    have hdiv : 255 / (e3.val - e1.val * e3.val / 255) ≤ 255 := Nat.div_le_self _ _
    rw [uadd_eq _ _ (by omega)]
  · simp only [ht, decide_False, if_false, Bool.false_eq_true]
    have hga : g * e2.val + g * e3.val ≤ g * 255 + g * (e1.val * e3.val / 255) := by
      have : e2.val + e3.val ≤ 255 + e1.val * e3.val / 255 := by omega
      calc g * e2.val + g * e3.val = g * (e2.val + e3.val) := by ring
        _ ≤ g * (255 + e1.val * e3.val / 255) := Nat.mul_le_mul_left g this
        _ = g * 255 + g * (e1.val * e3.val / 255) := by ring
    have hnom : uadd (usub (usub (umul ONE g) (umul g e2.val)) (umul g e3.val))
        (umul (umul g e1.val) e3.val / ONE)
        = g * 255 + g * e1.val * e3.val / 255 - g * e2.val - g * e3.val := by
      unfold ONE
      rw [umul_eq 255 g (by omega), umul_eq g e2.val (by omega), umul_eq g e3.val (by omega),
        umul_eq g e1.val (by omega), umul_eq (g * e1.val) e3.val (by omega)]
      rw [Nat.mul_comm 255 g]
      exact usub_usub_uadd _ _ _ _ hge2 (by omega) (by omega) (by omega)
    have hA : e1.val * e3.val * e2.val / 255 / 255 ≤ 255 := by
      have : e1.val * e3.val * e2.val ≤ 65025 * 255 := Nat.mul_le_mul hP (by omega)
      omega
    have hden0 : usub (usub (uadd ONE (e1.val * e3.val * e2.val / ONE / ONE)) e2.val)
        (e1.val * e3.val / ONE)
        = 255 + e1.val * e3.val * e2.val / 255 / 255 - e2.val - e1.val * e3.val / 255 := by
      unfold ONE
      rw [uadd_eq 255 _ (by omega),
        usub_eq (255 + e1.val * e3.val * e2.val / 255 / 255) e2.val (by omega) (by omega),
        usub_eq _ _ (by omega) (by omega)]
    rw [hnom, hden0]
    unfold ONE elvis
    simp only [ne_eq, ite_not]
    generalize hn : g * 255 + g * e1.val * e3.val / 255 - g * e2.val - g * e3.val = nom
    have hnb : nom < 2 ^ 63 := by omega
    generalize (if 255 + e1.val * e3.val * e2.val / 255 / 255 - e2.val - e1.val * e3.val / 255 = 0
      then 255 else 255 + e1.val * e3.val * e2.val / 255 / 255 - e2.val - e1.val * e3.val / 255) = d
    have hb := b2n_le_one (nom % d != 0)
    have hdiv : nom / d ≤ nom := Nat.div_le_self _ _
    rw [uadd_eq _ _ (by omega)]


/-- The idiom `n/d + (n % d != 0)` is the ceiling of the exact quotient. -/
theorem ceil_div_eq (n d : Nat) (hd : 0 < d) :
    ⌈(n : ℚ) / (d : ℚ)⌉ = ((n / d + b2n (n % d != 0) : ℕ) : ℤ) := by
  have hdq : (0 : ℚ) < (d : ℚ) := by exact_mod_cast hd
  have hdm : d * (n / d) + n % d = n := Nat.div_add_mod n d
  have hlt : n % d < d := Nat.mod_lt n hd
  have hb : b2n (n % d != 0) = if n % d = 0 then 0 else 1 := by
    unfold b2n
    by_cases h : n % d = 0 <;> simp [h]
  rw [hb]
  generalize n / d = q at hdm ⊢
  generalize n % d = r at hdm hlt ⊢
  have hn : (n : ℚ) = (d : ℚ) * (q : ℚ) + (r : ℚ) := by exact_mod_cast hdm.symm
  have hr : (r : ℚ) < (d : ℚ) := by exact_mod_cast hlt
  rw [Int.ceil_eq_iff, hn]
  by_cases h : r = 0
  · subst h
    simp only [if_true, Nat.add_zero, Nat.cast_zero, add_zero, Int.cast_natCast]
    constructor
    · rw [lt_div_iff₀ hdq]; nlinarith
    · rw [div_le_iff₀ hdq]; nlinarith
  · have hr1 : (1 : ℚ) ≤ (r : ℚ) := by exact_mod_cast Nat.one_le_iff_ne_zero.mpr h
    simp only [h, if_false, Nat.cast_add, Nat.cast_one, Int.cast_add, Int.cast_natCast,
      Int.cast_one, add_sub_cancel_right]
    constructor
    · rw [lt_div_iff₀ hdq]; nlinarith
    · rw [div_le_iff₀ hdq]; nlinarith

theorem r_nat_eq_spec (g e1 e2 e3 : Nat) (h1 : e1 ≤ 255) (h2 : e2 ≤ 255) (h3 : e3 ≤ 255) :
    ((r_nat g e1 e2 e3 : ℕ) : ℤ) = spec.r_ONE g e1 e2 e3 := by
  have ha : e1 * e3 / 255 ≤ e3 := div_255_le _ _ h1
  have hd := denom_nonneg e1 e2 e3 h1 h2 h3
  have hq : g * (e1 * e3 / 255) ≤ g * (e1 * e3) / 255 :=
    mul_div_le_div g _ _ (Nat.div_mul_le_self _ _)
  rw [← Nat.mul_assoc] at hq
  have hcast_a : ((e1 : ℤ) * e3 / 255) = ((e1 * e3 / 255 : ℕ) : ℤ) := by push_cast; rfl
  have hcast_A : ((e1 : ℤ) * e3 * e2 / (255 * 255)) = ((e1 * e3 * e2 / 255 / 255 : ℕ) : ℤ) := by
    rw [Nat.div_div_eq_div_mul]; push_cast; rfl
  have hcast_q : ((g : ℤ) * e1 * e3 / 255) = ((g * e1 * e3 / 255 : ℕ) : ℤ) := by push_cast; rfl
  unfold r_nat spec.r_ONE
  rw [hcast_a, hcast_A, hcast_q]
  by_cases ht : 255 - e2 < e3 - e1 * e3 / 255
  · have ht' : (255 : ℤ) - e2 < e3 - ((e1 * e3 / 255 : ℕ) : ℤ) := by omega
    simp only [ht, ht', if_true]
    have hdz : (e3 : ℤ) - ((e1 * e3 / 255 : ℕ) : ℤ) = ((e3 - e1 * e3 / 255 : ℕ) : ℤ) := by omega
    have hne : ((e3 - e1 * e3 / 255 : ℕ) : ℤ) ≠ 0 := by omega
    rw [hdz]
    unfold spec.nonzero_or_ONE
    rw [if_neg hne, Int.cast_natCast]
    have := ceil_div_eq 255 (e3 - e1 * e3 / 255) (by omega)
    rw [← this]
    norm_num
  · have ht' : ¬ ((255 : ℤ) - e2 < e3 - ((e1 * e3 / 255 : ℕ) : ℤ)) := by omega
    simp only [ht, ht', if_false]
    have hga : g * e2 + g * e3 ≤ g * 255 + g * (e1 * e3 / 255) := by
      have : e2 + e3 ≤ 255 + e1 * e3 / 255 := by omega
      calc g * e2 + g * e3 = g * (e2 + e3) := by ring
        _ ≤ g * (255 + e1 * e3 / 255) := Nat.mul_le_mul_left g this
        _ = g * 255 + g * (e1 * e3 / 255) := by ring
    have hnz : (g : ℤ) * 255 - g * e2 - g * e3 + ((g * e1 * e3 / 255 : ℕ) : ℤ)
        = ((g * 255 + g * e1 * e3 / 255 - g * e2 - g * e3 : ℕ) : ℤ) := by
      have h' : g * e2 + g * e3 ≤ g * 255 + g * e1 * e3 / 255 := by omega
      rw [Nat.sub_sub, Nat.cast_sub h']
      push_cast
      ring
    have hdz : (255 : ℤ) + ((e1 * e3 * e2 / 255 / 255 : ℕ) : ℤ) - e2 - ((e1 * e3 / 255 : ℕ) : ℤ)
        = ((255 + e1 * e3 * e2 / 255 / 255 - e2 - e1 * e3 / 255 : ℕ) : ℤ) := by omega
    rw [hnz, hdz]
    have hdd : spec.nonzero_or_ONE ((255 + e1 * e3 * e2 / 255 / 255 - e2 - e1 * e3 / 255 : ℕ) : ℤ)
        = ((if 255 + e1 * e3 * e2 / 255 / 255 - e2 - e1 * e3 / 255 = 0 then 255
            else 255 + e1 * e3 * e2 / 255 / 255 - e2 - e1 * e3 / 255 : ℕ) : ℤ) := by
      unfold spec.nonzero_or_ONE
      split_ifs <;> first | rfl | omega
    rw [hdd, Int.cast_natCast, Int.cast_natCast]
    rw [ceil_div_eq _ _ (by split_ifs <;> omega)]


theorem r_nat_le (g e1 e2 e3 : Nat) (h1 : e1 ≤ 255) : r_nat g e1 e2 e3 ≤ 255 * g + 256 := by
  unfold r_nat
  simp only
  split
  · have hb := b2n_le_one (255 % (e3 - e1 * e3 / 255) != 0)
    have hdiv : 255 / (e3 - e1 * e3 / 255) ≤ 255 := Nat.div_le_self _ _
    omega
  · have hq : g * e1 * e3 / 255 ≤ g * e3 := by
      apply Nat.div_le_of_le_mul
      calc g * e1 * e3 = e1 * (g * e3) := by ring
        _ ≤ 255 * (g * e3) := Nat.mul_le_mul_right _ h1
    have hnom : g * 255 + g * e1 * e3 / 255 - g * e2 - g * e3 ≤ g * 255 := by omega
    generalize g * 255 + g * e1 * e3 / 255 - g * e2 - g * e3 = nom at *
    generalize (if 255 + e1 * e3 * e2 / 255 / 255 - e2 - e1 * e3 / 255 = 0 then 255
      else 255 + e1 * e3 * e2 / 255 / 255 - e2 - e1 * e3 / 255) = d
    have hb := b2n_le_one (nom % d != 0)
    have hdiv : nom / d ≤ nom := Nat.div_le_self _ _
    omega

theorem r_val_le (g : Nat) (e1 e2 e3 : uint8_t) (hg : g * 65025 < 2 ^ 64) :
    r_val g e1 e2 e3 ≤ 255 * g + 256 := by
  rw [r_val_eq_r_nat g e1 e2 e3 hg]
  exact r_nat_le g _ _ _ (by have := e1.isLt; omega)

/-- The numerator `g*ONE + r*ONE - r*e2` of the source and recoder budgets does
not wrap. -/
theorem budget_nom_eq (g r e2 : Nat) (hg : g < 2 ^ 32) (hr : r ≤ 255 * g + 256) (h2 : e2 ≤ 255) :
    umul r e2 ≤ uadd (umul g ONE) (umul r ONE) ∧
    usub (uadd (umul g ONE) (umul r ONE)) (umul r e2) = g * 255 + r * 255 - r * e2 ∧
    r * e2 ≤ g * 255 + r * 255 := by
  have hre : r * e2 ≤ r * 255 := Nat.mul_le_mul_left r h2
  unfold ONE
  rw [umul_eq g 255 (by omega), umul_eq r 255 (by omega), umul_eq r e2 (by omega),
    uadd_eq _ _ (by omega), usub_eq _ _ (by omega) (by omega)]
  omega

/-- The denominator `2*ONE - e3 - e2` does not wrap. -/
theorem budget_denom_eq (e2 e3 : Nat) (h2 : e2 ≤ 255) (h3 : e3 ≤ 255) :
    usub (usub (umul 2 ONE) e3) e2 = 510 - e3 - e2 := by
  unfold ONE
  rw [umul_eq 2 255 (by norm_num), usub_eq (2 * 255) e3 (by omega) (by norm_num),
    usub_eq _ _ (by omega) (by omega)]

end coder

/-- C4, the claim as stated fails: on a zero denominator the source divides by
`ONE = 255`, not by `1`.  For generation size 64 and the estimates 242, 242, 252
(the flags 95, 95 and 99 percent) the numerator is 9 and the denominator is 0:
`r_val` is `⌈9/255⌉ = 1`, the specified `r` is `⌈9/1⌉ = 9`. -/
theorem r_val_differs_from_spec :
    coder.r_val 64 242 242 252 = 1 ∧ spec.r 64 242 242 252 = 9 := by
  refine ⟨by decide, ?_⟩
  unfold spec.r
  norm_num [Int.ceil_eq_iff]

/-- C4 (amended): for every generation size `g` (with `g·ONE·ONE` inside the
64-bit word) and all `e1`, `e2`, `e3` in `[0,255]`, `r_val(g,e1,e2,e3)` equals the
specified `r` with `ONE = 255`, floor division inside and the ceiling of the
exact quotient outside, where a zero denominator is replaced by `ONE`. -/
theorem r_val_eq_spec_r_ONE (g : Nat) (e1 e2 e3 : uint8_t) (hg : g * 65025 < 2 ^ 64) :
    ((coder.r_val g e1 e2 e3 : ℕ) : ℤ) = spec.r_ONE g e1.val e2.val e3.val := by
  rw [coder.r_val_eq_r_nat g e1 e2 e3 hg]
  exact coder.r_nat_eq_spec g _ _ _ (by have := e1.isLt; omega) (by have := e2.isLt; omega)
    (by have := e3.isLt; omega)

/-- Witness of C4: generation size 64 with the default flags (10, 10 and 30
percent, that is 25, 25 and 76). -/
theorem r_val_eq_spec_r_ONE_witness :
    64 * 65025 < 2 ^ 64 ∧
    ((coder.r_val 64 25 25 76 : ℕ) : ℤ)
      = spec.r_ONE (64 : ℕ) (25 : uint8_t).val (25 : uint8_t).val (76 : uint8_t).val :=
  ⟨by norm_num, r_val_eq_spec_r_ONE 64 25 25 76 (by norm_num)⟩


/-- C5: for every generation size `g` (a 32-bit quantity) and all `e1`, `e2`,
`e3` in `[0,255]`, `source_budget` is exactly `OVERSHOOT·g` when `e3 ≥ ONE−1`;
otherwise the denominator `2·ONE − e3 − e2` is at least 2 and the result is
`OVERSHOOT·(g·ONE + r·ONE − r·e2) / max(2·ONE − e3 − e2, 1)` over the rationals,
with `r = r_val(g,e1,e2,e3)`. -/
theorem source_budget_spec (ov : ℚ) (g : Nat) (e1 e2 e3 : uint8_t) (hg : g < 2 ^ 32) :
    (254 ≤ e3.val → coder.source_budget ov g e1 e2 e3 = ov * (g : ℚ)) ∧
    (e3.val < 254 →
      (2 : ℤ) ≤ 2 * 255 - (e3.val : ℤ) - (e2.val : ℤ) ∧
      coder.source_budget ov g e1 e2 e3 =
        ov * ((g : ℚ) * 255 + (coder.r_val g e1 e2 e3 : ℚ) * 255
              - (coder.r_val g e1 e2 e3 : ℚ) * (e2.val : ℚ))
          / max (2 * 255 - (e3.val : ℚ) - (e2.val : ℚ)) 1) := by
  have h2 := e2.isLt
  have h3 := e3.isLt
  have h254 : usub coder.ONE 1 = 254 := by decide
  constructor
  · intro h
    unfold coder.source_budget
    simp only [h254]
    rw [if_pos h]
  · intro h
    refine ⟨by omega, ?_⟩
    have hr := coder.r_val_le g e1 e2 e3 (by omega)
    obtain ⟨-, hnom, hle⟩ := coder.budget_nom_eq g (coder.r_val g e1 e2 e3) e2.val hg hr (by omega)
    have hden := coder.budget_denom_eq e2.val e3.val (by omega) (by omega)
    unfold coder.source_budget
    simp only [h254]
    rw [if_neg (by omega), hnom, hden]
    have hel : elvis (510 - e3.val - e2.val) coder.ONE = 510 - e3.val - e2.val := by
      unfold elvis
      rw [if_pos (by omega)]
    rw [hel]
    have hmax : max (2 * 255 - (e3.val : ℚ) - (e2.val : ℚ)) 1
        = ((510 - e3.val - e2.val : ℕ) : ℚ) := by
      have h1 : ((510 - e3.val - e2.val : ℕ) : ℚ) = 2 * 255 - (e3.val : ℚ) - (e2.val : ℚ) := by
        rw [Nat.sub_sub, Nat.cast_sub (by omega)]
        push_cast
        ring
      rw [← h1]
      apply max_eq_left
      have : (2 : ℕ) ≤ 510 - e3.val - e2.val := by omega
      exact_mod_cast le_trans (by norm_num : 1 ≤ 2) this
    rw [hmax, Nat.cast_sub hle]
    push_cast
    rfl

/-- Witness of C5: generation size 64, once with the estimate `e3 = 254` that
takes the fallback and once with the default estimates. -/
theorem source_budget_spec_witness :
    coder.source_budget (106 / 100) 64 25 25 254 = (106 / 100) * ((64 : ℕ) : ℚ) ∧
    ((2 : ℤ) ≤ 2 * 255 - ((76 : uint8_t).val : ℤ) - ((25 : uint8_t).val : ℤ) ∧
      coder.source_budget (106 / 100) 64 25 25 76 =
        (106 / 100) * (((64 : ℕ) : ℚ) * 255 + (coder.r_val 64 25 25 76 : ℚ) * 255
              - (coder.r_val 64 25 25 76 : ℚ) * ((25 : uint8_t).val : ℚ))
          / max (2 * 255 - ((76 : uint8_t).val : ℚ) - ((25 : uint8_t).val : ℚ)) 1) :=
  ⟨(source_budget_spec (106 / 100) 64 25 25 254 (by norm_num)).1 (by decide),
   (source_budget_spec (106 / 100) 64 25 25 76 (by norm_num)).2 (by decide)⟩

/-- C6: for every generation size `g` (a 32-bit quantity) and all `e1`, `e2`,
`e3` in `[0,255]` with `2·ONE − e3 − e2 > 0`, the subtraction in
`nom = g·ONE + r·ONE − r·e2` does not wrap below zero and `recoder_budget`
returns the exact ceiling of `nom / (2·ONE − e3 − e2)`. -/
theorem recoder_budget_spec (g : Nat) (e1 e2 e3 : uint8_t) (hg : g < 2 ^ 32)
    (hden : (0 : ℤ) < 2 * 255 - (e3.val : ℤ) - (e2.val : ℤ)) :
    umul (coder.r_val g e1 e2 e3) e2.val
      ≤ uadd (umul g coder.ONE) (umul (coder.r_val g e1 e2 e3) coder.ONE) ∧
    ∃ n, coder.recoder_budget g e1 e2 e3 = some n ∧
      (n : ℤ) = ⌈(((g : ℤ) * 255 + (coder.r_val g e1 e2 e3 : ℤ) * 255
                    - (coder.r_val g e1 e2 e3 : ℤ) * (e2.val : ℤ) : ℤ) : ℚ)
                  / ((2 * 255 - (e3.val : ℤ) - (e2.val : ℤ) : ℤ) : ℚ)⌉ := by
  have h2 := e2.isLt
  have h3 := e3.isLt
  have hr := coder.r_val_le g e1 e2 e3 (by omega)
  obtain ⟨hwrap, hnom, hle⟩ :=
    coder.budget_nom_eq g (coder.r_val g e1 e2 e3) e2.val hg hr (by omega)
  have hd := coder.budget_denom_eq e2.val e3.val (by omega) (by omega)
  refine ⟨hwrap, ?_⟩
  unfold coder.recoder_budget
  simp only [hnom, hd]
  rw [if_neg (by omega)]
  generalize hN : g * 255 + coder.r_val g e1 e2 e3 * 255 - coder.r_val g e1 e2 e3 * e2.val = nom
  have hNb : nom < 2 ^ 63 := by
    have : coder.r_val g e1 e2 e3 * 255 ≤ (255 * g + 256) * 255 := Nat.mul_le_mul_right _ hr
    omega
  have hb := coder.b2n_le_one (nom % (510 - e3.val - e2.val) != 0)
  have hdiv : nom / (510 - e3.val - e2.val) ≤ nom := Nat.div_le_self _ _
  refine ⟨_, rfl, ?_⟩
  rw [coder.uadd_eq _ _ (by omega)]
  have hNz : ((g : ℤ) * 255 + (coder.r_val g e1 e2 e3 : ℤ) * 255
      - (coder.r_val g e1 e2 e3 : ℤ) * (e2.val : ℤ)) = (nom : ℤ) := by
    rw [← hN, Nat.cast_sub hle]
    push_cast
    rfl
  have hDz : (2 * 255 - (e3.val : ℤ) - (e2.val : ℤ)) = ((510 - e3.val - e2.val : ℕ) : ℤ) := by
    omega
  rw [hNz, hDz, Int.cast_natCast, Int.cast_natCast]
  exact (coder.ceil_div_eq nom _ (by omega)).symm

/-- Witness of C6: generation size 64 with the default estimates. -/
theorem recoder_budget_spec_witness :
    umul (coder.r_val 64 25 25 76) (25 : uint8_t).val
      ≤ uadd (umul 64 coder.ONE) (umul (coder.r_val 64 25 25 76) coder.ONE) ∧
    ∃ n, coder.recoder_budget 64 25 25 76 = some n ∧
      (n : ℤ) = ⌈((((64 : ℕ) : ℤ) * 255 + (coder.r_val 64 25 25 76 : ℤ) * 255
                    - (coder.r_val 64 25 25 76 : ℤ) * ((25 : uint8_t).val : ℤ) : ℤ) : ℚ)
                  / ((2 * 255 - ((76 : uint8_t).val : ℤ) - ((25 : uint8_t).val : ℤ) : ℤ) : ℚ)⌉ :=
  recoder_budget_spec 64 25 25 76 (by norm_num) (by decide)

/-! ## Helper -/

/-- The numerator `e3*r - r*ONE + g*ONE` of the helper's budget: the
subtraction wraps below zero and the addition brings the value back, as long as
`r·(ONE − e3) ≤ g·ONE`. -/
theorem helper.nom_eq (g r e3 : Nat) (hg : g < 2 ^ 32) (hr : r ≤ 255 * g + 256) (h3 : e3 ≤ 255)
    (hw : r * 255 ≤ e3 * r + g * 255) :
    uadd (usub (umul e3 r) (umul r coder.ONE)) (umul g coder.ONE) = e3 * r + g * 255 - r * 255 := by
  have h1 : e3 * r ≤ 255 * r := Nat.mul_le_mul_right r h3
  unfold coder.ONE
  rw [coder.umul_eq e3 r (by omega), coder.umul_eq r 255 (by omega), coder.umul_eq g 255 (by omega)]
  unfold uadd usub SIZE_MOD
  omega

/-- C7, the claim as stated fails: generation size 64, estimates 0, 0 and 51
(the flags 0, 0 and 20 percent), overshoot 1.06.  The source multiplies the
numerator by the overshoot, divides, and adds the rounding bit afterwards,
which gives 14; the ceiling first and the overshoot on the ceiled value gives
13. -/
theorem helper_max_budget_differs_from_spec :
    helper.max_budget (106 / 100) 64 0 0 51 = some 14 ∧
    spec.helper_max_budget (106 / 100) 64 (coder.r_val 64 0 0 51) 0 51 = 13 := by
  have hr : coder.r_val 64 0 0 51 = 52 := by decide
  constructor
  · decide!
  · rw [hr]
    unfold spec.helper_max_budget
    have hc : ⌈(((51 * ((52 : ℕ) : ℤ) - ((52 : ℕ) : ℤ) * 255 + 64 * 255 : ℤ) : ℚ)
        / ((2 * 255 - 51 - 0 : ℤ) : ℚ))⌉ = 13 := by
      rw [Int.ceil_eq_iff]
      norm_num
    rw [hc, Int.floor_eq_iff]
    norm_num

/-- The rounding of the `double` operations shows in the budget: with the
overshoot 1.15 the exact value of `OVERSHOOT·N/D + bit` is 35 for generation
size 64 and the estimates 0, 0, 119, and the helper's `max_budget` is 34; for
the estimates 0, 12, 15 it is 5. -/
theorem helper.max_budget_rounding :
    helper.max_budget (115 / 100) 64 0 0 119 = some 34 ∧
    (115 / 100 : ℚ) * (helper.exact_nom 64 (coder.r_val 64 0 0 119) 119 : ℚ)
        / (helper.exact_denom 0 119 : ℚ)
      + (helper.round_bit (helper.exact_nom 64 (coder.r_val 64 0 0 119) 119)
          (helper.exact_denom 0 119) : ℚ) = 35 ∧
    helper.max_budget (115 / 100) 64 0 12 15 = some 5 := by
  decide!

theorem helper.floor_near (s y : ℚ) (h : |s - y| < 1) : |⌊s⌋ - ⌊y⌋| ≤ 1 := by
  rw [abs_lt] at h
  have s1 := Int.floor_le s
  have s2 := Int.lt_floor_add_one s
  have y1 := Int.floor_le y
  have y2 := Int.lt_floor_add_one y
  have a : (⌊s⌋ : ℚ) < (⌊y⌋ : ℚ) + 2 := by linarith
  have b : (⌊y⌋ : ℚ) < (⌊s⌋ : ℚ) + 2 := by linarith
  have a2 : ⌊s⌋ < ⌊y⌋ + 2 := by exact_mod_cast a
  have b2 : ⌊y⌋ < ⌊s⌋ + 2 := by exact_mod_cast b
  rw [abs_le]
  constructor <;> omega

/-- The rounded evaluation for a numerator below `2^40`, a denominator from 1
on and an overshoot between 0 and 1024: every rounding is finite, the
conversion is defined, and the budget is at most one away from
`⌊OVERSHOOT·N/D⌋ + bit`. -/
theorem helper.rounded_budget_near (ov : ℚ) (n d c : Nat) (hn : n ≤ 2 ^ 40) (hd : 1 ≤ d)
    (hc : c ≤ 1) (hov0 : 0 ≤ ov) (hov : ov ≤ 1024) :
    ∃ b : Nat,
      (match binary64.round ov with
        | none => none
        | some v =>
          match binary64.round (v * (n : ℚ)) with
          | none => none
          | some p =>
            match binary64.round (p / (d : ℚ)) with
            | none => none
            | some q =>
              match binary64.round (q + (c : ℚ)) with
              | none => none
              | some s => double_to_size_t s) = some b ∧
      |(b : ℤ) - (⌊binary64.round_value ov * (n : ℚ) / (d : ℚ)⌋ + (c : ℤ))| ≤ 1 := by
  have hnq : (n : ℚ) ≤ 2 ^ 40 := by exact_mod_cast hn
  have hn0 : (0 : ℚ) ≤ (n : ℚ) := Nat.cast_nonneg n
  have hdq : (1 : ℚ) ≤ (d : ℚ) := by exact_mod_cast hd
  have hcq : (c : ℚ) ≤ 1 := by exact_mod_cast hc
  have hc0 : (0 : ℚ) ≤ (c : ℚ) := Nat.cast_nonneg c
  -- the flag
  have hovabs : |ov| < 2 ^ 51 := by
    rw [abs_of_nonneg hov0]
    linarith
  have hv := binary64.round_value_near ov hovabs
  have hv0 := binary64.round_value_nonneg ov hov0
  rw [binary64.round_of_lt ov hovabs]
  simp only
  generalize binary64.round_value ov = v at hv hv0 ⊢
  rw [abs_le] at hv
  have hvle : v ≤ 1025 := by linarith
  -- the product
  have hP0 : 0 ≤ v * (n : ℚ) := mul_nonneg hv0 hn0
  have hPle : v * (n : ℚ) ≤ 1025 * 2 ^ 40 := by
    calc v * (n : ℚ) ≤ 1025 * (n : ℚ) := mul_le_mul_of_nonneg_right hvle hn0
      _ ≤ 1025 * 2 ^ 40 := by linarith
  have hPabs : |v * (n : ℚ)| < 2 ^ 51 := by
    rw [abs_of_nonneg hP0]
    linarith
  have hp := binary64.round_value_near _ hPabs
  have hp0 := binary64.round_value_nonneg _ hP0
  rw [binary64.round_of_lt _ hPabs]
  simp only
  generalize binary64.round_value (v * (n : ℚ)) = p at hp hp0 ⊢
  rw [abs_le] at hp
  -- the quotient
  have hdpos : (0 : ℚ) < (d : ℚ) := by linarith
  have hQ0 : 0 ≤ p / (d : ℚ) := div_nonneg hp0 (le_of_lt hdpos)
  have hQle : p / (d : ℚ) ≤ p := div_le_self hp0 hdq
  have hQabs : |p / (d : ℚ)| < 2 ^ 51 := by
    rw [abs_of_nonneg hQ0]
    linarith
  have hq := binary64.round_value_near _ hQabs
  have hq0 := binary64.round_value_nonneg _ hQ0
  rw [binary64.round_of_lt _ hQabs]
  simp only
  generalize binary64.round_value (p / (d : ℚ)) = q at hq hq0 ⊢
  rw [abs_le] at hq
  -- the sum
  have hS0 : 0 ≤ q + (c : ℚ) := add_nonneg hq0 hc0
  have hSabs : |q + (c : ℚ)| < 2 ^ 51 := by
    rw [abs_of_nonneg hS0]
    linarith
  have hs := binary64.round_value_near _ hSabs
  have hs0 := binary64.round_value_nonneg _ hS0
  rw [binary64.round_of_lt _ hSabs]
  simp only
  generalize binary64.round_value (q + (c : ℚ)) = s at hs hs0 ⊢
  rw [abs_le] at hs
  -- the conversion
  have hsz : (SIZE_MOD : ℚ) = 2 ^ 64 := by
    unfold SIZE_MOD
    norm_num
  have h64 : (2 : ℚ) ^ 64 = 8192 * 2 ^ 51 := by norm_num
  unfold double_to_size_t
  rw [if_pos ⟨by linarith, by rw [hsz, h64]; linarith⟩]
  refine ⟨_, rfl, ?_⟩
  rw [Int.toNat_of_nonneg (Int.floor_nonneg.mpr hs0), ← Int.floor_add_nat]
  apply helper.floor_near
  have hpd : |(p - v * (n : ℚ)) / (d : ℚ)| ≤ 1 / 8 := by
    rw [abs_div, abs_of_pos hdpos, div_le_iff₀ hdpos]
    have : |p - v * (n : ℚ)| ≤ 1 / 8 := abs_le.mpr hp
    calc |p - v * (n : ℚ)| ≤ 1 / 8 := this
      _ ≤ 1 / 8 * (d : ℚ) := by linarith
  rw [abs_le] at hpd
  have hsplit : s - (v * (n : ℚ) / (d : ℚ) + (c : ℚ))
      = (s - (q + (c : ℚ))) + (q - p / (d : ℚ)) + (p - v * (n : ℚ)) / (d : ℚ) := by
    field_simp
    ring
  rw [hsplit, abs_lt]
  constructor <;> linarith

/-- C7 (amended): for every generation size `g` (a 32-bit quantity) and all
`e1`, `e2`, `e3` other than the missing-estimate value `ONE − 1`, with
`D = 2·ONE − e3 − e2` not zero and the numerator `N = e3·r − r·ONE + g·ONE` not
negative, the helper's `max_budget` is, for every `OVERSHOOT`, the `double`
evaluation of `OVERSHOOT·N/D + bit` converted to the integer budget by
truncation, where `bit` is 1 when `D` does not divide `N` and 0 otherwise: the
overshoot multiplies the numerator, the product is divided by `D`, the bit is
added afterwards, and each of the three results is rounded to a `double`; the
ceiling of the quotient is not taken before the multiplication.  For
`0 ≤ OVERSHOOT ≤ 1024` the budget exists and is at most one away from
`⌊OVERSHOOT·N/D⌋ + bit`, with `OVERSHOOT` the `double` nearest to the flag. -/
theorem helper_max_budget_spec (ov : ℚ) (g : Nat) (e1 e2 e3 : uint8_t) (hg : g < 2 ^ 32)
    (h1 : e1.val ≠ 254) (h2 : e2.val ≠ 254) (h3 : e3.val ≠ 254) (hd : e2.val + e3.val < 510)
    (hw : 0 ≤ helper.exact_nom g (coder.r_val g e1 e2 e3) e3.val) :
    helper.max_budget ov g e1 e2 e3 =
      helper.rounded_budget ov (helper.exact_nom g (coder.r_val g e1 e2 e3) e3.val)
        (helper.exact_denom e2.val e3.val) ∧
    (0 ≤ ov → ov ≤ 1024 →
      ∃ b : Nat, helper.max_budget ov g e1 e2 e3 = some b ∧
        |(b : ℤ) - (⌊binary64.round_value ov
              * (helper.exact_nom g (coder.r_val g e1 e2 e3) e3.val : ℚ)
              / (helper.exact_denom e2.val e3.val : ℚ)⌋
            + (helper.round_bit (helper.exact_nom g (coder.r_val g e1 e2 e3) e3.val)
                (helper.exact_denom e2.val e3.val) : ℤ))| ≤ 1) := by
  have hr := coder.r_val_le g e1 e2 e3 (by omega)
  set r := coder.r_val g e1 e2 e3 with hrdef
  have he2 := e2.isLt
  have he3 := e3.isLt
  have hw' : r * 255 ≤ e3.val * r + g * 255 := by
    unfold helper.exact_nom at hw
    have : ((r * 255 : ℕ) : ℤ) ≤ ((e3.val * r + g * 255 : ℕ) : ℤ) := by
      push_cast
      linarith
    exact_mod_cast this
  have hnom := helper.nom_eq g r e3.val hg hr (by omega) hw'
  have hden := coder.budget_denom_eq e2.val e3.val (by omega) (by omega)
  have hmiss : helper.missing_estimate e1 e2 e3 = false := by
    have h254 : usub coder.ONE 1 = 254 := by decide
    unfold helper.missing_estimate
    rw [h254]
    simp only [Bool.or_eq_false_iff, beq_eq_false_iff_ne, ne_eq]
    exact ⟨⟨h1, h2⟩, h3⟩
  have hN : helper.exact_nom g r e3.val = ((e3.val * r + g * 255 - r * 255 : ℕ) : ℤ) := by
    unfold helper.exact_nom
    rw [Nat.cast_sub hw']
    push_cast
    ring
  have hD : helper.exact_denom e2.val e3.val = ((510 - e3.val - e2.val : ℕ) : ℤ) := by
    unfold helper.exact_denom
    omega
  have hDpos : 0 < 510 - e3.val - e2.val := by omega
  have hn : e3.val * r + g * 255 - r * 255 ≤ g * 255 := by
    have : e3.val * r ≤ 255 * r := Nat.mul_le_mul_right r (by omega)
    omega
  have hbit : b2n ((e3.val * r + g * 255 - r * 255) % (510 - e3.val - e2.val) != 0)
      = helper.round_bit (helper.exact_nom g r e3.val) (helper.exact_denom e2.val e3.val) := by
    rw [hN, hD]
    unfold b2n helper.round_bit
    rw [← Int.natCast_mod]
    by_cases h0 : (e3.val * r + g * 255 - r * 255) % (510 - e3.val - e2.val) = 0
    · have : (((e3.val * r + g * 255 - r * 255) % (510 - e3.val - e2.val) : ℕ) : ℤ) = 0 := by
        exact_mod_cast h0
      rw [if_pos this]
      simp [h0]
    · have : ¬ (((e3.val * r + g * 255 - r * 255) % (510 - e3.val - e2.val) : ℕ) : ℤ) = 0 := by
        exact_mod_cast h0
      rw [if_neg this]
      simp [h0]
  have hcn : binary64.round_value ((e3.val * r + g * 255 - r * 255 : ℕ) : ℚ)
      = ((e3.val * r + g * 255 - r * 255 : ℕ) : ℚ) :=
    binary64.round_value_natCast _ (by omega)
  have hcd : binary64.round_value ((510 - e3.val - e2.val : ℕ) : ℚ)
      = ((510 - e3.val - e2.val : ℕ) : ℚ) :=
    binary64.round_value_natCast _ (by omega)
  have hgen : helper.max_budget ov g e1 e2 e3 =
      helper.rounded_budget ov (helper.exact_nom g r e3.val)
        (helper.exact_denom e2.val e3.val) := by
    unfold helper.max_budget helper.rounded_budget
    rw [hmiss]
    simp only [Bool.false_eq_true, if_false]
    rw [← hrdef, hnom, hden, if_neg (by omega), hcn, hcd, hbit, hN, hD, Int.cast_natCast,
      Int.cast_natCast]
  refine ⟨hgen, ?_⟩
  intro hov0 hov
  have hc : helper.round_bit (helper.exact_nom g r e3.val) (helper.exact_denom e2.val e3.val)
      ≤ 1 := by
    unfold helper.round_bit
    split <;> omega
  rw [hgen]
  unfold helper.rounded_budget
  rw [hN, hD] at hc ⊢
  simp only [Int.cast_natCast]
  exact helper.rounded_budget_near ov _ _ _ (by omega) hDpos hc hov0 hov

/-- Witness of C7: generation size 64, estimates 0, 0 and 51, overshoot 1.06. -/
theorem helper_max_budget_spec_witness :
    helper.max_budget (106 / 100) 64 0 0 51 =
      helper.rounded_budget (106 / 100)
        (helper.exact_nom (64 : ℕ) (coder.r_val 64 0 0 51) (51 : uint8_t).val)
        (helper.exact_denom (0 : uint8_t).val (51 : uint8_t).val) ∧
    ∃ b : Nat, helper.max_budget (106 / 100) 64 0 0 51 = some b ∧
      |(b : ℤ) - (⌊binary64.round_value (106 / 100)
            * (helper.exact_nom (64 : ℕ) (coder.r_val 64 0 0 51) (51 : uint8_t).val : ℚ)
            / (helper.exact_denom (0 : uint8_t).val (51 : uint8_t).val : ℚ)⌋
          + (helper.round_bit
              (helper.exact_nom (64 : ℕ) (coder.r_val 64 0 0 51) (51 : uint8_t).val)
              (helper.exact_denom (0 : uint8_t).val (51 : uint8_t).val) : ℤ))| ≤ 1 :=
  ⟨(helper_max_budget_spec (106 / 100) 64 0 0 51 (by norm_num) (by decide) (by decide)
      (by decide) (by decide) (by decide)).1,
    (helper_max_budget_spec (106 / 100) 64 0 0 51 (by norm_num) (by decide) (by decide)
      (by decide) (by decide) (by decide)).2 (by norm_num) (by norm_num)⟩

/-- C9: `get_coder(k)` behaves in exactly one of three ways.  If `k` is retired
it returns nothing and changes nothing.  Else, if a live coder with key `k` is
stored under `k`, it returns that coder and changes nothing.  Else it creates a
coder whose key is `k`, stores it under `k` in the live map, returns it, and
leaves the other live entries, the block map and the retired set as they were. -/
theorem get_coder_spec {β : Type} (build : key → β) (m : coder_map β) (k : key) :
    (m.m_invalid k = true → coder_map.get_coder build m k = (none, m)) ∧
    (m.m_invalid k = false → ∀ c, m.m_coders k = some c → c._key = k →
      coder_map.get_coder build m k = (some c, m)) ∧
    (m.m_invalid k = false → (∀ c, m.m_coders k = some c → c._key ≠ k) →
      ∃ c m', coder_map.get_coder build m k = (some c, m') ∧
        c._key = k ∧ m'.m_coders k = some c ∧
        (∀ k', k' ≠ k → m'.m_coders k' = m.m_coders k') ∧
        m'.m_blocks = m.m_blocks ∧ m'.m_invalid = m.m_invalid) := by
  refine ⟨?_, ?_, ?_⟩
  · intro h
    simp [coder_map.get_coder, h]
  · intro h c hc hk
    simp [coder_map.get_coder, coder_map.search_coder, h, hc, hk]
  · intro h hnone
    have hs : coder_map.search_coder m k = none := by
      unfold coder_map.search_coder
      cases hc : m.m_coders k with
      | none => rfl
      | some c => simp [hnone c hc]
    refine ⟨{ _key := k, role := build k },
      { m with m_coders := Function.update m.m_coders k (some { _key := k, role := build k }) },
      ?_, rfl, ?_, ?_, rfl, rfl⟩
    · simp [coder_map.get_coder, coder_map.create_coder, h, hs]
    · simp
    · intro k' hk'
      simp [Function.update, hk']

/-- Witness of C9 on maps over role state `Unit`: a retired key, a live key and
a fresh key. -/
theorem get_coder_spec_witness :
    coder_map.get_coder (fun _ => ())
        (coder_map.run (fun _ => ())
          [.get_coder (sample_key 1), .process_coders retire_all]) (sample_key 1)
      = (none, coder_map.run (fun _ => ())
          [.get_coder (sample_key 1), .process_coders retire_all]) ∧
    coder_map.get_coder (fun _ => ())
        (coder_map.run (fun _ => ()) [.get_coder (sample_key 1)]) (sample_key 1)
      = (some { _key := sample_key 1, role := () },
          coder_map.run (fun _ => ()) [.get_coder (sample_key 1)]) ∧
    (∃ c m', coder_map.get_coder (fun _ => ()) coder_map.empty (sample_key 1) = (some c, m') ∧
        c._key = sample_key 1 ∧ m'.m_coders (sample_key 1) = some c ∧
        (∀ k', k' ≠ sample_key 1 → m'.m_coders k' = (coder_map.empty : coder_map Unit).m_coders k') ∧
        m'.m_blocks = (coder_map.empty : coder_map Unit).m_blocks ∧
        m'.m_invalid = (coder_map.empty : coder_map Unit).m_invalid) :=
  ⟨(get_coder_spec (fun _ => ()) _ (sample_key 1)).1 (by decide),
   (get_coder_spec (fun _ => ()) _ (sample_key 1)).2.1 (by decide) _ (by rfl) (by rfl),
   (get_coder_spec (fun _ => ()) coder_map.empty (sample_key 1)).2.2 (by rfl)
     (by intro c hc; cases hc)⟩

/-- C10, the source at two failing inputs.  First: `get_coder` creates the
coder of block 1, `process_coders` retires it, and `get_latest_coder` for the
same flow creates a coder under the retired key again.  Second, without
`get_coder`: two `get_latest_coder` calls with a key that carries block 5,
with the coder retired in between. -/
theorem retired_key_live_again :
    ((coder_map.run (fun _ => ())
        [.get_coder (sample_key 1), .process_coders retire_all,
         .get_latest_coder (sample_key 0) (fun _ => true)]).m_invalid (sample_key 1) = true ∧
     (coder_map.run (fun _ => ())
        [.get_coder (sample_key 1), .process_coders retire_all,
         .get_latest_coder (sample_key 0) (fun _ => true)]).live (sample_key 1) = true) ∧
    ((coder_map.run (fun _ => ())
        [.get_latest_coder (sample_key 5) (fun _ => true), .process_coders retire_all,
         .get_latest_coder (sample_key 5) (fun _ => true)]).m_invalid (sample_key 1) = true ∧
     (coder_map.run (fun _ => ())
        [.get_latest_coder (sample_key 5) (fun _ => true), .process_coders retire_all,
         .get_latest_coder (sample_key 5) (fun _ => true)]).live (sample_key 1) = true) := by
  refine ⟨⟨by decide, by decide⟩, ⟨by decide, by decide⟩⟩

/-- The retired set only grows, whatever the call. -/
theorem coder_map.retired_stays_retired {β : Type} (build : key → β) (m : coder_map β)
    (c : coder_map.call β) (k : key) (h : m.m_invalid k = true) :
    (coder_map.step build m c).m_invalid k = true := by
  cases c with
  | get_coder k' =>
    simp only [coder_map.step, coder_map.get_coder]
    split
    · exact h
    · split <;> exact h
  | find_coder k' => exact h
  | get_latest_coder k' v =>
    simp only [coder_map.step, coder_map.get_latest_coder, coder_map.get_block]
    split <;> split <;> (try split) <;> exact h
  | process_coders p =>
    simp only [coder_map.step, coder_map.process_coders]
    split
    · split
      · rfl
      · exact h
    · exact h

/-- The calls `get_coder`, `find_coder` and `process_coders` keep the retired
set and the live key set disjoint; `get_latest_coder` is the call that does not
consult the retired set. -/
theorem coder_map.retired_not_live_preserved {β : Type} (build : key → β) (m : coder_map β)
    (c : coder_map.call β) (hc : ∀ k v, c ≠ .get_latest_coder k v)
    (h : m.retired_not_live) : (coder_map.step build m c).retired_not_live := by
  intro k hk
  cases c with
  | get_coder k' =>
    cases hinv : m.m_invalid k' with
    | true =>
      simp only [coder_map.step, coder_map.get_coder, hinv, if_true] at hk ⊢
      exact h k hk
    | false =>
      cases hs : coder_map.search_coder m k' with
      | some c =>
        simp only [coder_map.step, coder_map.get_coder, hinv, hs, Bool.false_eq_true,
          if_false] at hk ⊢
        exact h k hk
      | none =>
        simp only [coder_map.step, coder_map.get_coder, hinv, hs, Bool.false_eq_true,
          if_false, coder_map.create_coder] at hk ⊢
        have hne : k ≠ k' := by
          intro heq
          rw [heq, hinv] at hk
          cases hk
        rw [Function.update_noteq hne]
        exact h k hk
  | find_coder k' => exact h k hk
  | get_latest_coder k' v => exact absurd rfl (hc k' v)
  | process_coders p =>
    simp only [coder_map.step, coder_map.process_coders] at hk ⊢
    cases hm : m.m_coders k with
    | none => rfl
    | some c =>
      simp only [hm] at hk ⊢
      by_cases hp : (p c).2 = true
      · simp [hp]
      · simp only [hp, if_false] at hk
        rw [h k (by simpa using hk)] at hm
        cases hm

/-! ## Keys -/

theorem eth_addr.val_inj (a b : eth_addr) : a.val = b.val ↔ a = b := by
  constructor
  · intro h
    obtain ⟨a0, a1, a2, a3, a4, a5⟩ := a
    obtain ⟨b0, b1, b2, b3, b4, b5⟩ := b
    simp only [eth_addr.val] at h
    have h0 := a0.isLt; have h1 := a1.isLt; have h2 := a2.isLt
    have h3 := a3.isLt; have h4 := a4.isLt; have h5 := a5.isLt
    have g0 := b0.isLt; have g1 := b1.isLt; have g2 := b2.isLt
    have g3 := b3.isLt; have g4 := b4.isLt; have g5 := b5.isLt
    have e0 : a0 = b0 := Fin.ext (by omega)
    have e1 : a1 = b1 := Fin.ext (by omega)
    have e2 : a2 = b2 := Fin.ext (by omega)
    have e3 : a3 = b3 := Fin.ext (by omega)
    have e4 : a4 = b4 := Fin.ext (by omega)
    have e5 : a5 = b5 := Fin.ext (by omega)
    rw [e0, e1, e2, e3, e4, e5]
  · intro h
    rw [h]

theorem memcmp_sign (a b : eth_addr) :
    (memcmp a.bytes b.bytes ETH_ALEN < 0 ↔ a.val < b.val) ∧
    (memcmp a.bytes b.bytes ETH_ALEN = 0 ↔ a.val = b.val) := by
  obtain ⟨a0, a1, a2, a3, a4, a5⟩ := a
  obtain ⟨b0, b1, b2, b3, b4, b5⟩ := b
  have h0 := a0.isLt; have h1 := a1.isLt; have h2 := a2.isLt
  have h3 := a3.isLt; have h4 := a4.isLt; have h5 := a5.isLt
  have g0 := b0.isLt; have g1 := b1.isLt; have g2 := b2.isLt
  have g3 := b3.isLt; have g4 := b4.isLt; have g5 := b5.isLt
  simp only [eth_addr.bytes, eth_addr.val, ETH_ALEN, memcmp, ne_eq, Fin.ext_iff]
  split_ifs <;> constructor <;> omega

theorem spec.lex_lt_iff_val (a b : eth_addr) :
    spec.lex_lt a.bytes b.bytes ↔ a.val < b.val := by
  obtain ⟨a0, a1, a2, a3, a4, a5⟩ := a
  obtain ⟨b0, b1, b2, b3, b4, b5⟩ := b
  have h0 := a0.isLt; have h1 := a1.isLt; have h2 := a2.isLt
  have h3 := a3.isLt; have h4 := a4.isLt; have h5 := a5.isLt
  have g0 := b0.isLt; have g1 := b1.isLt; have g2 := b2.isLt
  have g3 := b3.isLt; have g4 := b4.isLt; have g5 := b5.isLt
  simp only [eth_addr.bytes, eth_addr.val, spec.lex_lt, Fin.ext_iff, and_false, or_false]
  omega

/-- The operator `<` on keys in terms of the numeric values of the addresses. -/
theorem key.lt_iff (a b : key) :
    key.lt a b = true ↔
      a.src.val < b.src.val ∨
        (a.src.val = b.src.val ∧
          (a.dst.val < b.dst.val ∨ (a.dst.val = b.dst.val ∧ a.block < b.block))) := by
  have hs := memcmp_sign a.src b.src
  have hd := memcmp_sign a.dst b.dst
  unfold key.lt
  simp only
  split_ifs with h1 h2 h3
  · simp only [true_iff]
    exact Or.inl (hs.1.mp h1)
  · simp only [true_iff]
    exact Or.inr ⟨hs.2.mp h2.1, Or.inl (hd.1.mp h2.2)⟩
  · simp only [true_iff]
    exact Or.inr ⟨hs.2.mp h3.1, Or.inr ⟨hd.2.mp h3.2.1, h3.2.2⟩⟩
  · simp only [Bool.false_eq_true, false_iff]
    rintro (h | ⟨he, h | ⟨he2, hb⟩⟩)
    · exact h1 (hs.1.mpr h)
    · exact h2 ⟨hs.2.mpr he, hd.1.mpr h⟩
    · exact h3 ⟨hs.2.mpr he, hd.2.mpr he2, hb⟩

/-- The operator `==` on keys is equality of the three components. -/
theorem key.eq_iff (a b : key) : key.eq a b = true ↔ a = b := by
  have hs := memcmp_sign a.src b.src
  have hd := memcmp_sign a.dst b.dst
  unfold key.eq
  simp only [Bool.and_eq_true, decide_eq_true_eq]
  rw [hs.2, hd.2, eth_addr.val_inj, eth_addr.val_inj]
  constructor
  · rintro ⟨⟨h1, h2⟩, h3⟩
    obtain ⟨_, _, _⟩ := a
    obtain ⟨_, _, _⟩ := b
    simp only at h1 h2 h3
    rw [h1, h2, h3]
  · intro h
    rw [h]
    exact ⟨⟨rfl, rfl⟩, rfl⟩

/-- C20: `key::operator<` is the strict lexicographic order on
`(src, dst, block)` with the addresses compared bytewise as unsigned values;
`operator==` is equality of the three components; `<` is irreflexive and
transitive, and of `a < b`, `a == b`, `b < a` exactly one holds. -/
theorem key_lt_strict_total_order :
    (∀ a b : key, key.lt a b = true ↔ spec.key_lt a b) ∧
    (∀ a b : key, key.eq a b = true ↔ a = b) ∧
    (∀ a : key, key.lt a a = false) ∧
    (∀ a b c : key, key.lt a b = true → key.lt b c = true → key.lt a c = true) ∧
    (∀ a b : key,
      (key.lt a b = true ∧ key.eq a b = false ∧ key.lt b a = false) ∨
      (key.lt a b = false ∧ key.eq a b = true ∧ key.lt b a = false) ∨
      (key.lt a b = false ∧ key.eq a b = false ∧ key.lt b a = true)) := by
  refine ⟨?_, key.eq_iff, ?_, ?_, ?_⟩
  · intro a b
    rw [key.lt_iff, spec.key_lt, spec.lex_lt_iff_val, spec.lex_lt_iff_val,
      ← eth_addr.val_inj a.src b.src, ← eth_addr.val_inj a.dst b.dst]
  · intro a
    rw [Bool.eq_false_iff, ne_eq, key.lt_iff]
    omega
  · intro a b c
    rw [key.lt_iff, key.lt_iff, key.lt_iff]
    omega
  · intro a b
    have hab := key.lt_iff a b
    have hba := key.lt_iff b a
    have he : key.eq a b = true ↔
        (a.src.val = b.src.val ∧ a.dst.val = b.dst.val ∧ a.block = b.block) := by
      rw [key.eq_iff, eth_addr.val_inj, eth_addr.val_inj]
      constructor
      · intro h
        rw [h]
        exact ⟨rfl, rfl, rfl⟩
      · rintro ⟨h1, h2, h3⟩
        obtain ⟨_, _, _⟩ := a
        obtain ⟨_, _, _⟩ := b
        simp only at h1 h2 h3
        rw [h1, h2, h3]
    cases h1 : key.lt a b <;> cases h2 : key.eq a b <;> cases h3 : key.lt b a <;>
      simp only [h1, h2, h3, Bool.false_eq_true, false_iff, true_iff] at hab hba he <;>
      simp <;> omega


/-- Witness of C20: three keys of one flow in ascending block order. -/
theorem key_lt_strict_total_order_witness :
    key.lt (sample_key 1) (sample_key 3) = true :=
  key_lt_strict_total_order.2.2.2.1 (sample_key 1) (sample_key 2) (sample_key 3)
    (by decide) (by decide)

/-- C11, the source at the failing input: after two `get_latest_coder` calls
with block-0 keys the latest block of the flow is 2; a third call whose key
carries block 5 reads the latest block under the key as passed, finds none, and
stores 1: the latest block has decreased. -/
theorem latest_block_decreases :
    sample_map_block2.latest_block sample_src sample_dst = 2 ∧
    (coder_map.step (fun _ => ()) sample_map_block2
        (.get_latest_coder (sample_key 5) all_valid)).latest_block sample_src sample_dst = 1 := by
  constructor <;> decide

/-- Every call other than `get_latest_coder` leaves `m_blocks` alone, and a
`get_latest_coder` whose key carries block 0 does not lower the latest block of
any flow, as long as the increment does not wrap. -/
theorem coder_map.latest_block_mono {β : Type} (build : key → β) (m : coder_map β)
    (c : coder_map.call β) (src dst : eth_addr)
    (hc : ∀ k v, c = .get_latest_coder k v →
      k.block = 0 ∧ m.latest_block k.src k.dst + 1 < 2 ^ 64) :
    m.latest_block src dst ≤ (coder_map.step build m c).latest_block src dst := by
  cases c with
  | get_coder k =>
    simp only [coder_map.step, coder_map.get_coder, coder_map.latest_block]
    split
    · exact le_refl _
    · split <;> exact le_refl _
  | find_coder k => exact le_refl _
  | process_coders p => exact le_refl _
  | get_latest_coder k v =>
    obtain ⟨hk0, hlt⟩ := hc k v rfl
    obtain ⟨ks, kd, kb⟩ := k
    simp only at hk0
    subst hk0
    simp only [coder_map.latest_block] at hlt
    have hu : uadd ((m.m_blocks { src := ks, dst := kd, block := 0 }).getD 0) 1
        = (m.m_blocks { src := ks, dst := kd, block := 0 }).getD 0 + 1 :=
      coder.uadd_eq _ _ hlt
    simp only [coder_map.step, coder_map.get_latest_coder, coder_map.get_block,
      coder_map.set_block, coder_map.create_coder, coder_map.latest_block]
    by_cases hq : ({ src := src, dst := dst, block := 0 } : key)
        = { src := ks, dst := kd, block := 0 }
    · rw [hq]
      cases hb : m.m_blocks { src := ks, dst := kd, block := 0 } with
      | none =>
        simp only [hb, Option.getD_none] at hu ⊢
        split
        · split <;> simp
        · simp
      | some b =>
        simp only [hb, Option.getD_some] at hu ⊢
        split
        · split
          · simp [hb]
          · simp [hu]
        · simp [hu]
    · cases hb : m.m_blocks { src := ks, dst := kd, block := 0 } with
      | none =>
        simp only [hb]
        split
        · split
          · simp [Function.update_noteq hq]
          · simp [Function.update_noteq hq]
        · simp [Function.update_noteq hq]
      | some b =>
        simp only [hb]
        split
        · split
          · simp
          · simp [Function.update_noteq hq]
        · simp [Function.update_noteq hq]

/-- C12, the source at the failing input: the sample flow has latest block 2
and a live, valid coder at block 2.  With a key that carries block 0
`get_latest_coder` returns that coder and the latest block stays 2; with a key
of the same flow that carries block 5 it creates and returns a coder at block 1
and stores 1 as latest block. -/
theorem get_latest_coder_depends_on_block :
    sample_map_block2.latest_block sample_src sample_dst = 2 ∧
    sample_map_block2.live (sample_key 2) = true ∧
    ((coder_map.get_latest_coder (fun _ => ()) all_valid sample_map_block2 (sample_key 0)).1.map
        (fun c => c._key) = some (sample_key 2) ∧
      (coder_map.get_latest_coder (fun _ => ()) all_valid sample_map_block2
        (sample_key 0)).2.latest_block sample_src sample_dst = 2) ∧
    ((coder_map.get_latest_coder (fun _ => ()) all_valid sample_map_block2 (sample_key 5)).1.map
        (fun c => c._key) = some (sample_key 1) ∧
      (coder_map.get_latest_coder (fun _ => ()) all_valid sample_map_block2
        (sample_key 5)).2.latest_block sample_src sample_dst = 1) := by
  refine ⟨by decide, by decide, ⟨by decide, by decide⟩, ⟨by decide, by decide⟩⟩

theorem coder_map.get_block_fst {β : Type} (m : coder_map β) (k : key) :
    (coder_map.get_block m k).1 = (m.m_blocks k).getD 0 := by
  unfold coder_map.get_block
  cases m.m_blocks k <;> rfl

theorem coder_map.get_block_coders {β : Type} (m : coder_map β) (k : key) :
    (coder_map.get_block m k).2.m_coders = m.m_coders ∧
    (coder_map.get_block m k).2.m_invalid = m.m_invalid := by
  unfold coder_map.get_block
  cases m.m_blocks k <;> exact ⟨rfl, rfl⟩

theorem coder_map.get_block_blocks {β : Type} (m : coder_map β) (k q : key) :
    ((coder_map.get_block m k).2.m_blocks q).getD 0 = (m.m_blocks q).getD 0 := by
  unfold coder_map.get_block
  cases hb : m.m_blocks k with
  | some b => rfl
  | none =>
    by_cases hq : q = k
    · rw [hq]
      simp [hb]
    · simp [Function.update_noteq hq]

theorem coder_map.search_coder_congr {β : Type} (m1 m : coder_map β) (k : key)
    (h : m1.m_coders = m.m_coders) :
    coder_map.search_coder m1 k = coder_map.search_coder m k := by
  unfold coder_map.search_coder
  rw [h]

/-- The branch of `get_latest_coder` that returns the coder it found. -/
theorem coder_map.get_latest_coder_found {β : Type} (build : key → β) (is_valid : β → Bool)
    (m : coder_map β) (k : key) (c : coder_obj β)
    (hs : coder_map.search_coder m { k with block := (m.m_blocks k).getD 0 } = some c)
    (hv : is_valid c.role = true) :
    coder_map.get_latest_coder build is_valid m k = (some c, (coder_map.get_block m k).2) := by
  have h1 : coder_map.search_coder (coder_map.get_block m k).2
      { k with block := (coder_map.get_block m k).1 } = some c := by
    rw [coder_map.search_coder_congr _ m _ (coder_map.get_block_coders m k).1,
      coder_map.get_block_fst]
    exact hs
  unfold coder_map.get_latest_coder
  simp only [h1, hv, if_true]

/-- The branch of `get_latest_coder` that creates a coder at the next block. -/
theorem coder_map.get_latest_coder_created {β : Type} (build : key → β) (is_valid : β → Bool)
    (m : coder_map β) (k : key)
    (hs : ∀ c, coder_map.search_coder m { k with block := (m.m_blocks k).getD 0 } = some c →
      is_valid c.role = false) :
    coder_map.get_latest_coder build is_valid m k =
      (some { _key := { k with block := uadd ((m.m_blocks k).getD 0) 1 },
              role := build { k with block := uadd ((m.m_blocks k).getD 0) 1 } },
       { m_coders := Function.update m.m_coders
            { k with block := uadd ((m.m_blocks k).getD 0) 1 }
            (some { _key := { k with block := uadd ((m.m_blocks k).getD 0) 1 },
                    role := build { k with block := uadd ((m.m_blocks k).getD 0) 1 } }),
         m_blocks := Function.update (coder_map.get_block m k).2.m_blocks
            { k with block := 0 } (some (uadd ((m.m_blocks k).getD 0) 1)),
         m_invalid := m.m_invalid }) := by
  have h1 : coder_map.search_coder (coder_map.get_block m k).2
      { k with block := (coder_map.get_block m k).1 }
      = coder_map.search_coder m { k with block := (m.m_blocks k).getD 0 } := by
    rw [coder_map.search_coder_congr _ m _ (coder_map.get_block_coders m k).1,
      coder_map.get_block_fst]
  unfold coder_map.get_latest_coder
  simp only [h1]
  cases hsc : coder_map.search_coder m { k with block := (m.m_blocks k).getD 0 } with
  | none =>
    simp only [coder_map.set_block, coder_map.create_coder, coder_map.get_block_fst,
      (coder_map.get_block_coders m k).1, (coder_map.get_block_coders m k).2]
  | some c =>
    simp only [hs c hsc, Bool.false_eq_true, if_false, coder_map.set_block,
      coder_map.create_coder, coder_map.get_block_fst,
      (coder_map.get_block_coders m k).1, (coder_map.get_block_coders m k).2]

/-- For a key that carries block 0, `get_latest_coder` does what is specified:
with `L` the latest block of the flow, a live valid coder at block `L` is
returned and the live map, the retired set and every latest block stay as they
are; when the coder at block `L` is missing or not valid, a coder is created
at block `L + 1`, stored, returned, and `L + 1` becomes the latest block. -/
theorem coder_map.get_latest_coder_block0 {β : Type} (build : key → β) (is_valid : β → Bool)
    (m : coder_map β) (src dst : eth_addr) :
    (∀ c, m.m_coders { src := src, dst := dst, block := m.latest_block src dst } = some c →
      c._key = { src := src, dst := dst, block := m.latest_block src dst } →
      is_valid c.role = true →
      (coder_map.get_latest_coder build is_valid m { src := src, dst := dst, block := 0 }).1
          = some c ∧
      (coder_map.get_latest_coder build is_valid m { src := src, dst := dst, block := 0 }).2.m_coders
          = m.m_coders ∧
      (coder_map.get_latest_coder build is_valid m { src := src, dst := dst, block := 0 }).2.m_invalid
          = m.m_invalid ∧
      ∀ s d, (coder_map.get_latest_coder build is_valid m
          { src := src, dst := dst, block := 0 }).2.latest_block s d = m.latest_block s d) ∧
    ((∀ c, m.m_coders { src := src, dst := dst, block := m.latest_block src dst } = some c →
        c._key = { src := src, dst := dst, block := m.latest_block src dst } →
        is_valid c.role = false) →
      (coder_map.get_latest_coder build is_valid m { src := src, dst := dst, block := 0 }).1
          = some { _key := { src := src, dst := dst, block := uadd (m.latest_block src dst) 1 },
                   role := build { src := src, dst := dst,
                                   block := uadd (m.latest_block src dst) 1 } } ∧
      (coder_map.get_latest_coder build is_valid m { src := src, dst := dst, block := 0 }).2.m_coders
          { src := src, dst := dst, block := uadd (m.latest_block src dst) 1 }
          = some { _key := { src := src, dst := dst, block := uadd (m.latest_block src dst) 1 },
                   role := build { src := src, dst := dst,
                                   block := uadd (m.latest_block src dst) 1 } } ∧
      (coder_map.get_latest_coder build is_valid m
          { src := src, dst := dst, block := 0 }).2.latest_block src dst
          = uadd (m.latest_block src dst) 1 ∧
      (coder_map.get_latest_coder build is_valid m { src := src, dst := dst, block := 0 }).2.m_invalid
          = m.m_invalid) := by
  have hL : m.latest_block src dst = (m.m_blocks { src := src, dst := dst, block := 0 }).getD 0 :=
    rfl
  have hsearch : ∀ x : Nat,
      coder_map.search_coder m { ({ src := src, dst := dst, block := 0 } : key) with block := x }
        = coder_map.search_coder m { src := src, dst := dst, block := x } := fun _ => rfl
  constructor
  · intro c hc hk hv
    have hs : coder_map.search_coder m
        { ({ src := src, dst := dst, block := 0 } : key) with
          block := (m.m_blocks { src := src, dst := dst, block := 0 }).getD 0 } = some c := by
      rw [hsearch, ← hL]
      unfold coder_map.search_coder
      simp only [hc, hk, if_true]
    rw [coder_map.get_latest_coder_found build is_valid m _ c hs hv]
    refine ⟨rfl, (coder_map.get_block_coders m _).1, (coder_map.get_block_coders m _).2, ?_⟩
    intro s d
    exact coder_map.get_block_blocks m _ _
  · intro hinv
    have hs : ∀ c, coder_map.search_coder m
        { ({ src := src, dst := dst, block := 0 } : key) with
          block := (m.m_blocks { src := src, dst := dst, block := 0 }).getD 0 } = some c →
        is_valid c.role = false := by
      intro c hc
      rw [hsearch, ← hL] at hc
      unfold coder_map.search_coder at hc
      generalize m.latest_block src dst = L at hc hinv
      cases hm : m.m_coders ⟨src, dst, L⟩ with
      | none =>
        rw [hm] at hc
        cases hc
      | some c' =>
        rw [hm] at hc
        simp only at hc
        split at hc
        · rename_i hk
          cases hc
          exact hinv c hm hk
        · cases hc
    rw [coder_map.get_latest_coder_created build is_valid m _ hs, ← hL]
    refine ⟨rfl, ?_, ?_, rfl⟩
    · simp
    · unfold coder_map.latest_block
      simp

/-! ## Decoded frames and acknowledgements of the decoder -/

theorem dec_count_append (i : Nat) (a b : List frame) :
    dec_count i (a ++ b) = dec_count i a + dec_count i b := by
  induction a with
  | nil => simp [dec_count]
  | cons f fs ih => cases f <;> simp [dec_count, ih, Nat.add_assoc]

theorem send_acks_eq (n : Nat) (budget : ℚ) (out : List frame) :
    ∃ m, send_acks n budget out = out ++ List.replicate m frame.ack := by
  induction n generalizing budget out with
  | zero => exact ⟨0, by simp [send_acks]⟩
  | succ n ih =>
    unfold send_acks
    split_ifs with h
    · obtain ⟨m, hm⟩ := ih (budget - 1) (out ++ [frame.ack])
      refine ⟨m + 1, ?_⟩
      rw [hm, List.append_assoc, List.replicate_succ]
      rfl
    · exact ⟨0, by simp⟩

theorem dec_count_replicate_ack (i m : Nat) :
    dec_count i (List.replicate m frame.ack) = 0 := by
  induction m with
  | zero => rfl
  | succ m ih => simpa [List.replicate_succ, dec_count] using ih

theorem decoder.send_decoded_packet_set (d : decoder) (i : Nat)
    (h : d.m_decoded_symbols[i]? = some true) : d.send_decoded_packet i = some d := by
  unfold decoder.send_decoded_packet
  rw [h]

theorem decoder.once_since_send_decoded_packet (base : List frame) (d d1 : decoder) (i : Nat)
    (hinv : d.once_since base) (h : d.send_decoded_packet i = some d1) :
    d1.once_since base := by
  unfold decoder.send_decoded_packet at h
  cases hb : d.m_decoded_symbols[i]? with
  | none => rw [hb] at h; cases h
  | some b =>
    rw [hb] at h
    cases b with
    | true => cases h; exact hinv
    | false =>
      simp only at h
      split_ifs at h with hlen
      cases h
      obtain ⟨new, hs, hle, hbit⟩ := hinv
      have hi0 : dec_count i new = 0 := by
        have h1 := hle i
        have h2 := hbit i
        rcases Nat.lt_or_ge (dec_count i new) 1 with h3 | h3
        · omega
        · have h4 : dec_count i new = 1 := by omega
          rw [h2 h4] at hb
          cases hb
      have hlt : i < d.m_decoded_symbols.length := by
        by_contra hc
        rw [List.getElem?_eq_none (by omega)] at hb
        cases hb
      refine ⟨new ++ [frame.dec i (mem_read d.rlnc_symbols (i * d.symbol_size + LEN_SIZE)
        (load_u16 d.rlnc_symbols (i * d.symbol_size)))], ?_, ?_, ?_⟩
      · simp only [hs, List.append_assoc]
      · intro j
        rw [dec_count_append]
        by_cases hj : i = j
        · subst hj
          simp [dec_count, hi0]
        · simp [dec_count, hj, hle j]
      · intro j hj1
        rw [dec_count_append] at hj1
        by_cases hj : i = j
        · subst hj
          simp [List.getElem?_set, hlt]
        · simp only [dec_count, if_neg hj, Nat.add_zero] at hj1
          simp only [List.getElem?_set, if_neg hj]
          exact hbit j hj1

theorem decoder.once_since_send_decoded_range (base : List frame) (is : List Nat)
    (d d1 : decoder) (hinv : d.once_since base) (h : d.send_decoded_range is = some d1) :
    d1.once_since base := by
  induction is generalizing d with
  | nil =>
    simp only [decoder.send_decoded_range] at h
    cases h
    exact hinv
  | cons i is ih =>
    simp only [decoder.send_decoded_range] at h
    cases h1 : d.send_decoded_packet i with
    | none => rw [h1] at h; cases h
    | some d2 =>
      rw [h1] at h
      exact ih d2 (decoder.once_since_send_decoded_packet base d d2 i hinv h1) h

theorem decoder.once_since_send_decoded_packets (overshoot : ℚ) (base : List frame)
    (d d1 : decoder) (hinv : d.once_since base)
    (h : d.send_decoded_packets overshoot = some d1) : d1.once_since base := by
  unfold decoder.send_decoded_packets at h
  simp only at h
  obtain ⟨m, hm⟩ := send_acks_eq
    (Int.toNat ⌈coder.source_budget overshoot 1 254 254 d.m_e3⌉)
    (coder.source_budget overshoot 1 254 254 d.m_e3) d.sent
  rw [hm] at h
  have hinv1 : decoder.once_since base
      { d with sent := d.sent ++ List.replicate m frame.ack } := by
    obtain ⟨new, hs, hle, hbit⟩ := hinv
    refine ⟨new ++ List.replicate m frame.ack, ?_, ?_, ?_⟩
    · simp only [hs, List.append_assoc]
    · intro i
      rw [dec_count_append, dec_count_replicate_ack]
      exact hle i
    · intro i hi
      rw [dec_count_append, dec_count_replicate_ack] at hi
      exact hbit i hi
  cases h2 : decoder.send_partial_decoded_packets
      { d with sent := d.sent ++ List.replicate m frame.ack } d.symbols with
  | none => rw [h2] at h; cases h
  | some d2 =>
    rw [h2] at h
    simp only at h
    have hinv2 := decoder.once_since_send_decoded_range base _ _ d2 hinv1 h2
    cases h3 : d2.st.dispatch_event decoder.EVENT_ACKED with
    | none => rw [h3] at h; cases h
    | some st =>
      rw [h3] at h
      cases h
      exact hinv2

theorem decoder.once_since_send_run (overshoot : ℚ) (base : List frame)
    (calls : List decoder.send_call) (d d1 : decoder) (hinv : d.once_since base)
    (h : d.send_run overshoot calls = some d1) : d1.once_since base := by
  induction calls generalizing d with
  | nil =>
    simp only [decoder.send_run] at h
    cases h
    exact hinv
  | cons c cs ih =>
    simp only [decoder.send_run] at h
    cases h1 : d.send_step overshoot c with
    | none => rw [h1] at h; cases h
    | some d2 =>
      rw [h1] at h
      refine ih d2 ?_ h
      cases c with
      | send_decoded_packet i =>
        exact decoder.once_since_send_decoded_packet base d d2 i hinv h1
      | send_partial_decoded_packets rank =>
        exact decoder.once_since_send_decoded_range base _ d d2 hinv h1
      | send_decoded_packets =>
        exact decoder.once_since_send_decoded_packets overshoot base d d2 hinv h1

/-- C16: over any sequence of calls to `send_decoded_packet`,
`send_partial_decoded_packets` and `send_decoded_packets` on a decoder after
`init()`, the messages sent since `init()` hold at most one decoded frame for
every symbol index, the sent bit of every index with a frame is set, and a call
of `send_decoded_packet` for an index whose sent bit is set returns the decoder
unchanged (no message, no change of state). -/
theorem dec_frame_at_most_once (overshoot : ℚ) (d d1 : decoder)
    (calls : List decoder.send_call)
    (h : d.init.send_run overshoot calls = some d1) :
    (∃ new, d1.sent = d.init.sent ++ new ∧ (∀ i, dec_count i new ≤ 1) ∧
      ∀ i, dec_count i new = 1 → d1.m_decoded_symbols[i]? = some true) ∧
    ∀ i, d1.m_decoded_symbols[i]? = some true → d1.send_decoded_packet i = some d1 := by
  refine ⟨decoder.once_since_send_run overshoot d.init.sent calls d.init d1 ?_ h, ?_⟩
  · exact ⟨[], by simp, fun i => by simp [dec_count], fun i hi => by simp [dec_count] at hi⟩
  · intro i hi
    exact decoder.send_decoded_packet_set d1 i hi

theorem dec_frame_at_most_once_witness :
    ∃ d1, sample_decoder.init.send_run (53 / 50)
        [.send_decoded_packet 0, .send_partial_decoded_packets 2, .send_decoded_packets,
          .send_decoded_packet 1] = some d1 ∧
      ((∃ new, d1.sent = sample_decoder.init.sent ++ new ∧ (∀ i, dec_count i new ≤ 1) ∧
        ∀ i, dec_count i new = 1 → d1.m_decoded_symbols[i]? = some true) ∧
      ∀ i, d1.m_decoded_symbols[i]? = some true → d1.send_decoded_packet i = some d1) := by
  have h : (sample_decoder.init.send_run (53 / 50)
      [.send_decoded_packet 0, .send_partial_decoded_packets 2, .send_decoded_packets,
        .send_decoded_packet 1]).isSome = true := by decide
  obtain ⟨d1, h1⟩ := Option.isSome_iff_exists.mp h
  exact ⟨d1, h1, dec_frame_at_most_once (53 / 50) sample_decoder d1 _ h1⟩


theorem ack_count_append (a b : List frame) :
    ack_count (a ++ b) = ack_count a + ack_count b := by
  induction a with
  | nil => simp [ack_count]
  | cons f fs ih => cases f <;> simp [ack_count, ih, Nat.add_assoc]

theorem ack_count_replicate_ack (m : Nat) : ack_count (List.replicate m frame.ack) = m := by
  induction m with
  | zero => rfl
  | succ m ih => simp [List.replicate_succ, ack_count, ih, Nat.add_comm]

theorem int_to_size_t_eq (x : Int) (h0 : 0 ≤ x) (h1 : x < 2 ^ 31) :
    int_to_size_t x = x.toNat := by
  unfold int_to_size_t SIZE_MOD
  rw [Int.emod_eq_of_lt h0 (by push_cast; omega)]

theorem decoder.add_enc_packet_complete (ack_interval : Int) (hk : 0 < ack_interval)
    (hk32 : ack_interval < 2 ^ 31)
    (d : decoder) (k : kodo_decode) (len : Nat) (hc : d.rlnc_complete = true)
    (hred : d.m_red_pkt_count + 1 < SIZE_MOD) :
    d.add_enc_packet ack_interval k len =
      some { d with
        m_red_pkt_count := d.m_red_pkt_count + 1
        sent := d.sent ++ List.replicate
          ((d.m_red_pkt_count + 1) / ack_interval.toNat
            - d.m_red_pkt_count / ack_interval.toNat) frame.ack } := by
  have hpos : 0 < ack_interval.toNat := by omega
  have hu : uadd d.m_red_pkt_count 1 = d.m_red_pkt_count + 1 := by
    unfold uadd
    exact Nat.mod_eq_of_lt hred
  unfold decoder.add_enc_packet
  rw [if_pos hc]
  simp only [int_to_size_t_eq ack_interval (le_of_lt hk) hk32, hu]
  rw [if_neg (by omega)]
  rw [Nat.succ_div]
  by_cases hm : (d.m_red_pkt_count + 1) % ack_interval.toNat = 0
  · rw [if_pos hm, if_pos (Nat.dvd_of_mod_eq_zero hm)]
    simp
  · rw [if_neg hm, if_neg (fun hd => hm (Nat.mod_eq_zero_of_dvd hd))]
    simp

theorem decoder.add_enc_packets_complete (ack_interval : Int) (hk : 0 < ack_interval)
    (hk32 : ack_interval < 2 ^ 31)
    (ps : List (kodo_decode × Nat)) (d : decoder) (hc : d.rlnc_complete = true)
    (hred : d.m_red_pkt_count + ps.length < SIZE_MOD) :
    d.add_enc_packets ack_interval ps =
      some { d with
        m_red_pkt_count := d.m_red_pkt_count + ps.length
        sent := d.sent ++ List.replicate
          ((d.m_red_pkt_count + ps.length) / ack_interval.toNat
            - d.m_red_pkt_count / ack_interval.toNat) frame.ack } := by
  induction ps generalizing d with
  | nil => simp [decoder.add_enc_packets]
  | cons p ps ih =>
    simp only [List.length_cons] at hred
    simp only [decoder.add_enc_packets]
    rw [decoder.add_enc_packet_complete ack_interval hk hk32 d p.1 p.2 hc (by omega)]
    simp only
    rw [ih { d with
        m_red_pkt_count := d.m_red_pkt_count + 1
        sent := d.sent ++ List.replicate
          ((d.m_red_pkt_count + 1) / ack_interval.toNat
            - d.m_red_pkt_count / ack_interval.toNat) frame.ack } hc
      (by show d.m_red_pkt_count + 1 + ps.length < SIZE_MOD; omega)]
    simp only [List.length_cons, List.append_assoc, ← List.replicate_add]
    have h1 : d.m_red_pkt_count / ack_interval.toNat
        ≤ (d.m_red_pkt_count + 1) / ack_interval.toNat :=
      Nat.div_le_div_right (Nat.le_succ _)
    have h2 : (d.m_red_pkt_count + 1) / ack_interval.toNat
        ≤ (d.m_red_pkt_count + 1 + ps.length) / ack_interval.toNat :=
      Nat.div_le_div_right (Nat.le_add_right _ _)
    have e1 : d.m_red_pkt_count + 1 + ps.length = d.m_red_pkt_count + (ps.length + 1) := by
      omega
    rw [e1] at h2 ⊢
    have e2 : (d.m_red_pkt_count + 1) / ack_interval.toNat
          - d.m_red_pkt_count / ack_interval.toNat
        + ((d.m_red_pkt_count + (ps.length + 1)) / ack_interval.toNat
          - (d.m_red_pkt_count + 1) / ack_interval.toNat)
        = (d.m_red_pkt_count + (ps.length + 1)) / ack_interval.toNat
          - d.m_red_pkt_count / ack_interval.toNat := by
      omega
    rw [e2]

/-- C18: for an acknowledgement interval `k` with `0 < k` (an `int32` flag) and
a decoder whose RLNC decoder is complete and whose `m_red_pkt_count` is `c`,
with `c + n` below `2 ^ 64`: one `add_enc_packet` returns the decoder with
`m_red_pkt_count = c + 1` and every other member, the RLNC decoder and
`m_enc_pkt_count` included, unchanged, and sends exactly one acknowledgement
when `c + 1` is a multiple of `k` and no message otherwise; `n` such packets
leave `m_red_pkt_count = c + n` and send `(c + n) / k - c / k` acknowledgements
and nothing else. -/
theorem redundant_packet_acks (ack_interval : Int) (hk : 0 < ack_interval)
    (hk32 : ack_interval < 2 ^ 31) (d : decoder) (hc : d.rlnc_complete = true) :
    (∀ (k : kodo_decode) (len : Nat), d.m_red_pkt_count + 1 < SIZE_MOD →
      d.add_enc_packet ack_interval k len =
        some { d with
          m_red_pkt_count := d.m_red_pkt_count + 1
          sent := d.sent ++
            (if (d.m_red_pkt_count + 1) % ack_interval.toNat = 0 then [frame.ack] else []) }) ∧
    ∀ ps : List (kodo_decode × Nat), d.m_red_pkt_count + ps.length < SIZE_MOD →
      ∃ d1, d.add_enc_packets ack_interval ps = some d1 ∧
        d1 = { d with
          m_red_pkt_count := d.m_red_pkt_count + ps.length
          sent := d1.sent } ∧
        d1.sent = d.sent ++ List.replicate
          ((d.m_red_pkt_count + ps.length) / ack_interval.toNat
            - d.m_red_pkt_count / ack_interval.toNat) frame.ack ∧
        ack_count d1.sent = ack_count d.sent
          + ((d.m_red_pkt_count + ps.length) / ack_interval.toNat
            - d.m_red_pkt_count / ack_interval.toNat) := by
  refine ⟨?_, ?_⟩
  · intro k len hred
    rw [decoder.add_enc_packet_complete ack_interval hk hk32 d k len hc hred, Nat.succ_div]
    by_cases hm : (d.m_red_pkt_count + 1) % ack_interval.toNat = 0
    · rw [if_pos hm, if_pos (Nat.dvd_of_mod_eq_zero hm)]
      simp
    · rw [if_neg hm, if_neg (fun hd => hm (Nat.mod_eq_zero_of_dvd hd))]
      simp
  · intro ps hred
    refine ⟨_, decoder.add_enc_packets_complete ack_interval hk hk32 ps d hc hred, rfl, rfl, ?_⟩
    simp only [ack_count_append, ack_count_replicate_ack]

theorem redundant_packet_acks_witness :
    sample_complete_decoder.add_enc_packet 3 sample_report 12 =
      some { sample_complete_decoder with
        m_red_pkt_count := 4 + 1
        sent := sample_complete_decoder.sent ++ [] } ∧
    ∃ d1, sample_complete_decoder.add_enc_packets 3
        [(sample_report, 12), (sample_report, 7), (sample_report, 12), (sample_report, 12),
          (sample_report, 12)] = some d1 ∧
      d1.m_red_pkt_count = 9 ∧ ack_count d1.sent = 2 := by
  have h := redundant_packet_acks 3 (by decide) (by decide) sample_complete_decoder rfl
  refine ⟨h.1 sample_report 12 (by decide), ?_⟩
  obtain ⟨d1, h1, h2, h3, h4⟩ := h.2
    [(sample_report, 12), (sample_report, 7), (sample_report, 12), (sample_report, 12),
      (sample_report, 12)] (by decide)
  refine ⟨d1, h1, ?_, h4⟩
  rw [h2]
  rfl

/-! ## The encoder: requests and the budget of coded packets -/

theorem coder.source_budget_nonneg (overshoot : ℚ) (h : 0 ≤ overshoot) (g : Nat)
    (e1 e2 e3 : uint8_t) : 0 ≤ coder.source_budget overshoot g e1 e2 e3 := by
  unfold coder.source_budget
  simp only
  split_ifs
  · exact mul_nonneg h (Nat.cast_nonneg _)
  · exact div_nonneg (mul_nonneg h (Nat.cast_nonneg _)) (Nat.cast_nonneg _)

theorem encoder.dispatch_event_eq (e e1 : encoder) (event : Nat)
    (h : e.dispatch_event event = some e1) : e1 = { e with st := e1.st } := by
  unfold encoder.dispatch_event at h
  cases hs : e.st.dispatch_event event with
  | none => rw [hs] at h; cases h
  | some st => rw [hs] at h; cases h; rfl

theorem encoder.send_encoded_packet_within (e : encoder) (type : Nat)
    (h : (e.m_enc_pkt_count : ℚ) < e.m_max_budget) :
    (e.send_encoded_packet type).within_budget := by
  unfold encoder.within_budget encoder.send_encoded_packet
  simp only
  have h1 : uadd e.m_enc_pkt_count 1 ≤ e.m_enc_pkt_count + 1 := by
    unfold uadd
    exact Nat.mod_le _ _
  have h2 : ((uadd e.m_enc_pkt_count 1 : Nat) : ℚ) ≤ (e.m_enc_pkt_count : ℚ) + 1 := by
    exact_mod_cast h1
  linarith

theorem encoder.send_encoded_credit_loop_kept (n : Nat) (e : encoder) :
    (encoder.send_encoded_credit_loop n e).m_max_budget = e.m_max_budget ∧
    (encoder.send_encoded_credit_loop n e).m_plain_pkt_count = e.m_plain_pkt_count ∧
    (encoder.send_encoded_credit_loop n e).symbols = e.symbols ∧
    (encoder.send_encoded_credit_loop n e).m_symbol_storage = e.m_symbol_storage ∧
    (encoder.send_encoded_credit_loop n e).symbol_size = e.symbol_size ∧
    (encoder.send_encoded_credit_loop n e).st = e.st := by
  induction n generalizing e with
  | zero => exact ⟨rfl, rfl, rfl, rfl, rfl, rfl⟩
  | succ n ih =>
    unfold encoder.send_encoded_credit_loop
    split_ifs with hg
    · exact ih (e.send_encoded_packet e.m_type)
    · exact ⟨rfl, rfl, rfl, rfl, rfl, rfl⟩

theorem encoder.send_encoded_credit_loop_within (n : Nat) (e : encoder)
    (h : e.within_budget) : (encoder.send_encoded_credit_loop n e).within_budget := by
  induction n generalizing e with
  | zero => exact h
  | succ n ih =>
    unfold encoder.send_encoded_credit_loop
    split_ifs with hg
    · exact ih (e.send_encoded_packet e.m_type)
        (encoder.send_encoded_packet_within e e.m_type hg.2)
    · exact h

theorem encoder.send_encoded_credit_loop_done (n : Nat) (e : encoder)
    (h : e.m_budget < (n : ℚ) + 1) :
    ¬ ((encoder.send_encoded_credit_loop n e).m_budget ≥ 1 ∧
      ((encoder.send_encoded_credit_loop n e).m_enc_pkt_count : ℚ)
        < (encoder.send_encoded_credit_loop n e).m_max_budget) := by
  induction n generalizing e with
  | zero =>
    unfold encoder.send_encoded_credit_loop
    intro hg
    have : e.m_budget < 1 := by simpa using h
    linarith [hg.1]
  | succ n ih =>
    unfold encoder.send_encoded_credit_loop
    split_ifs with hg
    · apply ih
      unfold encoder.send_encoded_packet
      simp only
      push_cast at h
      linarith
    · exact hg

/-- The loop of `send_encoded_credit()` has ended when the fuel is used up: its
guard is false in the result. -/
theorem encoder.send_encoded_credit_done (e : encoder) :
    ¬ ((e.send_encoded_credit).m_budget ≥ 1 ∧
      ((e.send_encoded_credit).m_enc_pkt_count : ℚ) < (e.send_encoded_credit).m_max_budget) := by
  unfold encoder.send_encoded_credit
  apply encoder.send_encoded_credit_loop_done
  have h1 : e.m_budget < (⌊e.m_budget⌋ : ℚ) + 1 := Int.lt_floor_add_one _
  have h2 : (⌊e.m_budget⌋ : ℚ) ≤ ((Int.toNat ⌊e.m_budget⌋ : Nat) : ℚ) := by
    have : ⌊e.m_budget⌋ ≤ ((Int.toNat ⌊e.m_budget⌋ : Nat) : Int) := Int.self_le_toNat _
    exact_mod_cast this
  linarith

theorem encoder.send_encoded_budget_loop_kept (n : Nat) (e e1 : encoder)
    (hr : encoder.send_encoded_budget_loop n e = some e1) :
    e1.m_max_budget = e.m_max_budget ∧
    e1.m_plain_pkt_count = e.m_plain_pkt_count ∧ e1.symbols = e.symbols ∧
    e1.m_symbol_storage = e.m_symbol_storage ∧ e1.symbol_size = e.symbol_size ∧
    e1.st = e.st ∧ ¬ ((e1.m_enc_pkt_count : ℚ) < e1.m_max_budget) := by
  induction n generalizing e with
  | zero =>
    unfold encoder.send_encoded_budget_loop at hr
    split_ifs at hr with hg
    cases hr
    exact ⟨rfl, rfl, rfl, rfl, rfl, rfl, hg⟩
  | succ n ih =>
    unfold encoder.send_encoded_budget_loop at hr
    split_ifs at hr with hg
    · exact ih (e.send_encoded_packet e.m_type) hr
    · cases hr
      exact ⟨rfl, rfl, rfl, rfl, rfl, rfl, hg⟩

theorem encoder.send_encoded_budget_loop_within (n : Nat) (e e1 : encoder)
    (h : e.within_budget) (hr : encoder.send_encoded_budget_loop n e = some e1) :
    e1.within_budget := by
  induction n generalizing e with
  | zero =>
    unfold encoder.send_encoded_budget_loop at hr
    split_ifs at hr with hg
    cases hr
    exact h
  | succ n ih =>
    unfold encoder.send_encoded_budget_loop at hr
    split_ifs at hr with hg
    · exact ih (e.send_encoded_packet e.m_type)
        (encoder.send_encoded_packet_within e e.m_type hg) hr
    · cases hr
      exact h

/-- The loop of `send_encoded_budget()` ends within the fuel when the counter
does not wrap around on the way. -/
theorem encoder.send_encoded_budget_loop_some (n : Nat) (e : encoder)
    (h : e.m_max_budget - (e.m_enc_pkt_count : ℚ) ≤ (n : ℚ))
    (hw : e.m_enc_pkt_count + n < SIZE_MOD) :
    ∃ e1, encoder.send_encoded_budget_loop n e = some e1 := by
  induction n generalizing e with
  | zero =>
    unfold encoder.send_encoded_budget_loop
    have : ¬ ((e.m_enc_pkt_count : ℚ) < e.m_max_budget) := by
      simp only [Nat.cast_zero] at h
      linarith
    rw [if_neg this]
    exact ⟨e, rfl⟩
  | succ n ih =>
    unfold encoder.send_encoded_budget_loop
    split_ifs with hg
    · apply ih
      · unfold encoder.send_encoded_packet
        simp only
        have hu : uadd e.m_enc_pkt_count 1 = e.m_enc_pkt_count + 1 := by
          unfold uadd
          exact Nat.mod_eq_of_lt (by omega)
        rw [hu]
        push_cast at h ⊢
        linarith
      · unfold encoder.send_encoded_packet
        simp only
        have hu : uadd e.m_enc_pkt_count 1 = e.m_enc_pkt_count + 1 := by
          unfold uadd
          exact Nat.mod_eq_of_lt (by omega)
        rw [hu]
        omega
    · exact ⟨e, rfl⟩


theorem encoder.dispatch_event_keeps (e e1 : encoder) (event : Nat)
    (h : e.dispatch_event event = some e1) :
    e.keeps_symbols e1 ∧ e1.m_enc_pkt_count = e.m_enc_pkt_count ∧
      e1.m_max_budget = e.m_max_budget := by
  rw [encoder.dispatch_event_eq e e1 event h]
  exact ⟨⟨rfl, rfl, rfl, rfl⟩, rfl, rfl⟩

theorem encoder.send_encoded_credit_keeps (e : encoder) :
    e.keeps_symbols e.send_encoded_credit ∧
      e.send_encoded_credit.m_max_budget = e.m_max_budget := by
  obtain ⟨h1, h2, h3, h4, h5, _⟩ :=
    encoder.send_encoded_credit_loop_kept (Int.toNat ⌊e.m_budget⌋) e
  exact ⟨⟨h3, h5, h2, h4⟩, h1⟩

theorem encoder.send_encoded_credit_within (e : encoder) (h : e.within_budget) :
    e.send_encoded_credit.within_budget :=
  encoder.send_encoded_credit_loop_within _ e h

theorem encoder.send_encoded_budget_keeps (e e1 : encoder)
    (h : e.send_encoded_budget = some e1) :
    e.keeps_symbols e1 ∧ e1.m_max_budget = e.m_max_budget := by
  unfold encoder.send_encoded_budget at h
  cases hl : encoder.send_encoded_budget_loop
      (Int.toNat ⌈e.m_max_budget - (e.m_enc_pkt_count : ℚ)⌉) e with
  | none => rw [hl] at h; cases h
  | some e2 =>
    rw [hl] at h
    obtain ⟨h1, h2, h3, h4, h5, _, _⟩ := encoder.send_encoded_budget_loop_kept _ e e2 hl
    obtain ⟨⟨k1, k2, k3, k4⟩, _, k6⟩ := encoder.dispatch_event_keeps e2 e1 _ h
    exact ⟨⟨k1.trans h3, k2.trans h5, k3.trans h2, k4.trans h4⟩, k6.trans h1⟩

theorem encoder.send_encoded_budget_within (e e1 : encoder) (hi : e.within_budget)
    (h : e.send_encoded_budget = some e1) : e1.within_budget := by
  unfold encoder.send_encoded_budget at h
  cases hl : encoder.send_encoded_budget_loop
      (Int.toNat ⌈e.m_max_budget - (e.m_enc_pkt_count : ℚ)⌉) e with
  | none => rw [hl] at h; cases h
  | some e2 =>
    rw [hl] at h
    have h2 := encoder.send_encoded_budget_loop_within _ e e2 hi hl
    obtain ⟨_, k5, k6⟩ := encoder.dispatch_event_keeps e2 e1 _ h
    unfold encoder.within_budget at h2 ⊢
    rw [k5, k6]
    exact h2

theorem encoder.enc_wait_keeps (e e1 : encoder) (h : e.enc_wait = some e1) :
    e.keeps_symbols e1 ∧ e1.m_enc_pkt_count = e.m_enc_pkt_count ∧
      e1.m_max_budget = e.m_max_budget := by
  unfold encoder.enc_wait at h
  have hk := encoder.dispatch_event_keeps _ e1 _ h
  exact hk

theorem encoder.add_ack_packet_keeps (e e1 : encoder) (h : e.add_ack_packet = some e1) :
    e.keeps_symbols e1 ∧ e1.m_enc_pkt_count = e.m_enc_pkt_count ∧
      e1.m_max_budget = e.m_max_budget := by
  unfold encoder.add_ack_packet at h
  split_ifs at h with h1 h2
  · cases h
    exact ⟨⟨rfl, rfl, rfl, rfl⟩, rfl, rfl⟩
  · have hk := encoder.dispatch_event_keeps _ e1 _ h
    exact hk
  · exact encoder.dispatch_event_keeps e e1 _ h

theorem encoder.process_keeps (e : encoder) (a b : Bool) (r : encoder × Bool)
    (h : e.process a b = some r) :
    e.keeps_symbols r.1 ∧ r.1.m_enc_pkt_count = e.m_enc_pkt_count ∧
      r.1.m_max_budget = e.m_max_budget := by
  unfold encoder.process at h
  split_ifs at h with h1 h2 h3 h4
  · cases h
    exact ⟨⟨rfl, rfl, rfl, rfl⟩, rfl, rfl⟩
  · cases h
    exact ⟨⟨rfl, rfl, rfl, rfl⟩, rfl, rfl⟩
  · cases h
    exact ⟨⟨rfl, rfl, rfl, rfl⟩, rfl, rfl⟩
  · cases hd : e.dispatch_event encoder.EVENT_TIMEOUT with
    | none => rw [hd] at h; cases h
    | some e2 =>
      rw [hd] at h
      cases h
      have hk := encoder.dispatch_event_keeps e e2 _ hd
      simp only
      split_ifs
      · exact hk
      · exact hk
  · cases h
    exact ⟨⟨rfl, rfl, rfl, rfl⟩, rfl, rfl⟩

theorem encoder.add_req_packet_keeps (overshoot : ℚ) (e : encoder) (local_rank rank seq : Nat) :
    e.keeps_symbols (e.add_req_packet overshoot local_rank rank seq) := by
  unfold encoder.add_req_packet
  by_cases h1 : e.m_last_req_seq = seq ∨ rank = local_rank
  · simp only [if_pos h1]
    exact ⟨rfl, rfl, rfl, rfl⟩
  · simp only [if_neg h1]
    have hk := (encoder.send_encoded_credit_keeps
      { e with
        m_budget := coder.source_budget overshoot
          ((local_rank + (2 ^ 32 - rank % 2 ^ 32)) % 2 ^ 32) 254 254 e.m_e3
        m_max_budget :=
          if (e.m_enc_pkt_count : ℚ) ≥ e.m_max_budget then
            e.m_max_budget + coder.source_budget overshoot
              ((local_rank + (2 ^ 32 - rank % 2 ^ 32)) % 2 ^ 32) 254 254 e.m_e3
          else e.m_max_budget
        m_type := RED_PACKET }).1
    exact hk

theorem encoder.add_req_packet_within (overshoot : ℚ) (ho : 0 ≤ overshoot) (e : encoder)
    (local_rank rank seq : Nat) (h : e.within_budget) :
    (e.add_req_packet overshoot local_rank rank seq).within_budget := by
  unfold encoder.add_req_packet
  by_cases h1 : e.m_last_req_seq = seq ∨ rank = local_rank
  · simp only [if_pos h1]
    exact h
  · simp only [if_neg h1]
    have hw := encoder.send_encoded_credit_within
      { e with
        m_budget := coder.source_budget overshoot
          ((local_rank + (2 ^ 32 - rank % 2 ^ 32)) % 2 ^ 32) 254 254 e.m_e3
        m_max_budget :=
          if (e.m_enc_pkt_count : ℚ) ≥ e.m_max_budget then
            e.m_max_budget + coder.source_budget overshoot
              ((local_rank + (2 ^ 32 - rank % 2 ^ 32)) % 2 ^ 32) 254 254 e.m_e3
          else e.m_max_budget
        m_type := RED_PACKET } (by
          unfold encoder.within_budget at h ⊢
          simp only
          have hc := coder.source_budget_nonneg overshoot ho
            ((local_rank + (2 ^ 32 - rank % 2 ^ 32)) % 2 ^ 32) 254 254 e.m_e3
          split_ifs <;> linarith)
    exact hw

theorem encoder.handler_keeps (e e1 : encoder) (h : e.handler = some e1) :
    e.keeps_symbols e1 ∧ e1.m_max_budget = e.m_max_budget := by
  unfold encoder.handler at h
  split_ifs at h with h1 h2 h3
  · have := encoder.enc_wait_keeps e e1 h
    exact ⟨this.1, this.2.2⟩
  · exact encoder.send_encoded_budget_keeps e e1 h
  · cases h
    exact ⟨⟨rfl, rfl, rfl, rfl⟩, rfl⟩

theorem encoder.handler_within (e e1 : encoder) (hi : e.within_budget)
    (h : e.handler = some e1) : e1.within_budget := by
  unfold encoder.handler at h
  split_ifs at h with h1 h2 h3
  · obtain ⟨_, k5, k6⟩ := encoder.enc_wait_keeps e e1 h
    unfold encoder.within_budget at hi ⊢
    rw [k5, k6]
    exact hi
  · exact encoder.send_encoded_budget_within e e1 hi h
  · cases h
    exact hi

/-- What `add_plain_packet` does to the counter of plain packets and to the
budget: either nothing, or the counter was below `symbols()` and is one more. -/
theorem encoder.add_plain_packet_spec (threshold : ℚ) (e e1 : encoder) (data : List uint8_t)
    (rank : Nat) (semaphore_count : Int)
    (h : e.add_plain_packet threshold data rank semaphore_count = some e1) :
    e1.symbols = e.symbols ∧ e1.symbol_size = e.symbol_size ∧
    e1.m_max_budget = e.m_max_budget ∧
    (e1 = e ∨ (e.curr_state = encoder.STATE_WAIT ∧ e.m_plain_pkt_count < e.symbols ∧
      e1.m_plain_pkt_count = uadd e.m_plain_pkt_count 1)) ∧
    (e.within_budget → e1.within_budget) := by
  unfold encoder.add_plain_packet at h
  simp only at h
  split_ifs at h with h1 h2 h3 h4 h5 h6
  · cases h
    exact ⟨rfl, rfl, rfl, Or.inl rfl, fun hi => hi⟩
  · obtain ⟨⟨k1, k2, k3, _⟩, k5, k6⟩ := encoder.dispatch_event_keeps _ e1 _ h
    refine ⟨k1, k2, k6, Or.inr ⟨not_not.mp h3, by omega, k3⟩, ?_⟩
    intro hi
    unfold encoder.within_budget at hi ⊢
    rw [k5, k6]
    exact hi
  · cases hc : coder.recoder_credit e.m_e1.val e.m_e2.val e.m_e3.val with
    | none => rw [hc] at h; cases h
    | some credit =>
      rw [hc] at h
      cases h
      obtain ⟨⟨k1, k2, k3, _⟩, k6⟩ := encoder.send_encoded_credit_keeps
        { e with
          m_symbol_storage :=
            mem_write (mem_write e.m_symbol_storage (e.m_plain_pkt_count * e.symbol_size)
              (store_u16 data.length)) (e.m_plain_pkt_count * e.symbol_size + LEN_SIZE) data
          m_plain_pkt_count := uadd e.m_plain_pkt_count 1
          m_budget := e.m_budget + credit }
      refine ⟨k1, k2, k6, Or.inr ⟨not_not.mp h3, by omega, k3⟩, ?_⟩
      intro hi
      exact encoder.send_encoded_credit_within _ hi
  · cases h
    exact ⟨rfl, rfl, rfl, Or.inr ⟨not_not.mp h3, by omega, rfl⟩, fun hi => hi⟩


theorem encoder.step_within (overshoot threshold : ℚ) (ho : 0 ≤ overshoot) (e e1 : encoder)
    (c : encoder.call) (hi : e.within_budget)
    (h : e.step overshoot threshold c = some e1) : e1.within_budget := by
  cases c with
  | add_plain_packet data rank semaphore_count =>
    exact (encoder.add_plain_packet_spec threshold e e1 data rank semaphore_count h).2.2.2.2 hi
  | add_ack_packet =>
    obtain ⟨_, k5, k6⟩ := encoder.add_ack_packet_keeps e e1 h
    unfold encoder.within_budget at hi ⊢
    rw [k5, k6]
    exact hi
  | add_req_packet local_rank rank seq =>
    simp only [encoder.step] at h
    cases h
    exact encoder.add_req_packet_within overshoot ho e local_rank rank seq hi
  | process a b =>
    simp only [encoder.step] at h
    cases hp : e.process a b with
    | none => rw [hp] at h; cases h
    | some r =>
      rw [hp] at h
      cases h
      obtain ⟨_, k5, k6⟩ := encoder.process_keeps e a b r hp
      unfold encoder.within_budget at hi ⊢
      rw [k5, k6]
      exact hi
  | handler => exact encoder.handler_within e e1 hi h
  | load =>
    simp only [encoder.step] at h
    cases h
    exact hi

theorem encoder.run_within (overshoot threshold : ℚ) (ho : 0 ≤ overshoot)
    (calls : List encoder.call) (e e1 : encoder) (hi : e.within_budget)
    (h : e.run overshoot threshold calls = some e1) : e1.within_budget := by
  induction calls generalizing e with
  | nil =>
    simp only [encoder.run] at h
    cases h
    exact hi
  | cons c cs ih =>
    simp only [encoder.run] at h
    cases hs : e.step overshoot threshold c with
    | none => rw [hs] at h; cases h
    | some e2 =>
      rw [hs] at h
      exact ih e2 (encoder.step_within overshoot threshold ho e e2 c hi hs) h

theorem encoder.run_max_budget_kept (overshoot threshold : ℚ)
    (calls : List encoder.call) (e e1 : encoder)
    (h : e.run overshoot threshold calls = some e1)
    (hk : e.max_budget_kept overshoot threshold calls = true) :
    e1.m_max_budget = e.m_max_budget := by
  induction calls generalizing e with
  | nil =>
    simp only [encoder.run] at h
    cases h
    rfl
  | cons c cs ih =>
    simp only [encoder.run] at h
    simp only [encoder.max_budget_kept] at hk
    cases hs : e.step overshoot threshold c with
    | none => rw [hs] at h; cases h
    | some e2 =>
      rw [hs] at h hk
      simp only [Bool.and_eq_true, decide_eq_true_eq] at hk
      rw [ih e2 h hk.2, hk.1]

/-- C14, as the code has it: in every state that an encoder reaches after
`init()` (with a fixed overshoot of at least zero), by calls of its public
methods and steps of its driver thread, `m_enc_pkt_count < m_max_budget + 1`,
that is `m_enc_pkt_count ≤ ⌈m_max_budget⌉`; and as long as no step has changed
`m_max_budget`, it is the value `source_budget(symbols, m_e1, m_e2, m_e3)` that
`init()` assigned. -/
theorem enc_pkt_count_below_budget_plus_one (overshoot threshold : ℚ) (ho : 0 ≤ overshoot)
    (e0 e1 : encoder) (calls : List encoder.call)
    (h : (e0.init overshoot).run overshoot threshold calls = some e1) :
    (e1.m_enc_pkt_count : ℚ) < e1.m_max_budget + 1 ∧
    (e1.m_enc_pkt_count : Int) ≤ ⌈e1.m_max_budget⌉ ∧
    ((e0.init overshoot).max_budget_kept overshoot threshold calls = true →
      e1.m_max_budget = coder.source_budget overshoot e0.symbols e0.m_e1 e0.m_e2 e0.m_e3) := by
  have hinit : (e0.init overshoot).within_budget := by
    unfold encoder.within_budget encoder.init
    simp only [Nat.cast_zero]
    have := coder.source_budget_nonneg overshoot ho e0.symbols e0.m_e1 e0.m_e2 e0.m_e3
    linarith
  have hw := encoder.run_within overshoot threshold ho calls _ e1 hinit h
  refine ⟨hw, ?_, ?_⟩
  · unfold encoder.within_budget at hw
    have h1 : e1.m_max_budget ≤ (⌈e1.m_max_budget⌉ : ℚ) := Int.le_ceil _
    have h2 : ((e1.m_enc_pkt_count : Int) : ℚ) < (⌈e1.m_max_budget⌉ : ℚ) + 1 := by
      push_cast
      linarith
    have h3 : (e1.m_enc_pkt_count : Int) < ⌈e1.m_max_budget⌉ + 1 := by exact_mod_cast h2
    omega
  · intro hk
    rw [encoder.run_max_budget_kept overshoot threshold calls _ e1 h hk]
    rfl

theorem enc_pkt_count_below_budget_plus_one_witness :
    ∃ e1, (sample_encoder.init (53 / 50)).run (53 / 50) (1 / 10)
        [.add_plain_packet [1, 2, 3] 1 1, .add_plain_packet [4] 2 1, .load, .handler, .load,
          .handler] = some e1 ∧
      ((e1.m_enc_pkt_count : ℚ) < e1.m_max_budget + 1 ∧
      (e1.m_enc_pkt_count : Int) ≤ ⌈e1.m_max_budget⌉ ∧
      ((sample_encoder.init (53 / 50)).max_budget_kept (53 / 50) (1 / 10)
          [.add_plain_packet [1, 2, 3] 1 1, .add_plain_packet [4] 2 1, .load, .handler, .load,
            .handler] = true →
        e1.m_max_budget = coder.source_budget (53 / 50) sample_encoder.symbols
          sample_encoder.m_e1 sample_encoder.m_e2 sample_encoder.m_e3)) := by
  have h : ((sample_encoder.init (53 / 50)).run (53 / 50) (1 / 10)
      [.add_plain_packet [1, 2, 3] 1 1, .add_plain_packet [4] 2 1, .load, .handler, .load,
        .handler]).isSome = true := by decide!
  obtain ⟨e1, h1⟩ := Option.isSome_iff_exists.mp h
  exact ⟨e1, h1, enc_pkt_count_below_budget_plus_one (53 / 50) (1 / 10) (by norm_num)
    sample_encoder e1 _ h1⟩

/-- C14, counterexample: an encoder of two symbols with the estimates
`(25, 25, 254)` and the overshoot `1.06` gets the budget `2.12` from `init()`;
after two plain packets and the driver steps through `STATE_FULL` and
`STATE_SEND_BUDGET` it has sent three coded packets, with `m_max_budget` never
changed: `m_enc_pkt_count = 3 > 2.12 = m_max_budget`. -/
theorem enc_pkt_count_exceeds_budget :
    ((sample_encoder.init (53 / 50)).run (53 / 50) (1 / 10)
        [.add_plain_packet [1, 2, 3] 1 1, .add_plain_packet [4] 2 1, .load, .handler, .load,
          .handler]).map (fun e => (e.m_enc_pkt_count, e.m_max_budget, e.curr_state))
      = some (3, 53 / 25, encoder.STATE_SEND_BUDGET) ∧
    (sample_encoder.init (53 / 50)).max_budget_kept (53 / 50) (1 / 10)
        [.add_plain_packet [1, 2, 3] 1 1, .add_plain_packet [4] 2 1, .load, .handler, .load,
          .handler] = true ∧
    coder.source_budget (53 / 50) 2 25 25 254 = 53 / 25 ∧
    ¬ ((3 : ℚ) ≤ 53 / 25) := by
  refine ⟨by decide!, by decide!, by decide!, by norm_num⟩

/-- C17: `add_req_packet(rank, seq)` with `seq` equal to `m_last_req_seq`, or
with `rank` equal to the rank of the encoder, returns the encoder unchanged (no
message, and `m_enc_pkt_count`, `m_budget`, `m_max_budget`, `m_type` and
`m_last_req_seq` as before); and for every request, delivering it twice in a
row leaves the encoder as delivering it once does. -/
theorem duplicate_req_ignored (overshoot : ℚ) (e : encoder) (local_rank rank seq : Nat) :
    (e.m_last_req_seq = seq ∨ rank = local_rank →
      e.add_req_packet overshoot local_rank rank seq = e) ∧
    (e.add_req_packet overshoot local_rank rank seq).add_req_packet overshoot local_rank rank seq
      = e.add_req_packet overshoot local_rank rank seq := by
  have h1 : e.m_last_req_seq = seq ∨ rank = local_rank →
      e.add_req_packet overshoot local_rank rank seq = e := by
    intro h
    unfold encoder.add_req_packet
    simp only [if_pos h]
  refine ⟨h1, ?_⟩
  by_cases h : e.m_last_req_seq = seq ∨ rank = local_rank
  · rw [h1 h, h1 h]
  · have h2 : (e.add_req_packet overshoot local_rank rank seq).m_last_req_seq = seq := by
      unfold encoder.add_req_packet
      simp only [if_neg h]
    generalize e.add_req_packet overshoot local_rank rank seq = e2 at h2
    unfold encoder.add_req_packet
    simp only [if_pos (Or.inl h2 : e2.m_last_req_seq = seq ∨ rank = local_rank)]

theorem duplicate_req_ignored_witness :
    (({ sample_encoder with m_last_req_seq := 7 } : encoder).add_req_packet (53 / 50) 2 1 7
      = { sample_encoder with m_last_req_seq := 7 }) ∧
    (({ sample_encoder with m_last_req_seq := 7 } : encoder).add_req_packet (53 / 50) 2 1
        7).add_req_packet (53 / 50) 2 1 7
      = ({ sample_encoder with m_last_req_seq := 7 } : encoder).add_req_packet (53 / 50) 2 1 7 :=
  ⟨(duplicate_req_ignored (53 / 50) { sample_encoder with m_last_req_seq := 7 } 2 1 7).1
      (Or.inl rfl),
    (duplicate_req_ignored (53 / 50) { sample_encoder with m_last_req_seq := 7 } 2 1 7).2⟩

/-! ## The symbol slots: from `add_plain_packet` to `send_decoded_packet` -/

theorem load_u16_store (m : memory) (off v : Nat) (hv : v < 65536) :
    load_u16 (mem_write m off (store_u16 v)) off = v := by
  unfold load_u16 mem_write store_u16
  have h0 : off ≤ off ∧ off < off + 2 := by omega
  have h1 : off ≤ off + 1 ∧ off + 1 < off + 2 := by omega
  simp only [List.length_cons, List.length_nil, Nat.zero_add, Nat.reduceAdd, h0, h1, and_self,
    if_true, Nat.sub_self, Nat.add_sub_cancel_left, List.getD_cons_zero, List.getD_cons_succ,
    Fin.ofNat, Fin.val_mk]
  omega

theorem mem_read_write (m : memory) (off : Nat) (data : List uint8_t) :
    mem_read (mem_write m off data) off data.length = data := by
  apply List.ext_getElem
  · simp [mem_read]
  · intro j h1 h2
    simp only [mem_read, List.getElem_map, List.getElem_range, mem_write]
    have hj : off ≤ off + j ∧ off + j < off + data.length := by omega
    rw [if_pos hj, Nat.add_sub_cancel_left, List.getD_eq_getElem _ _ h2]

theorem mem_write_outside (m : memory) (off : Nat) (data : List uint8_t) (a : Nat)
    (h : a < off ∨ off + data.length ≤ a) : mem_write m off data a = m a := by
  unfold mem_write
  rw [if_neg (by omega)]

theorem load_u16_congr (m1 m2 : memory) (off : Nat) (h0 : m1 off = m2 off)
    (h1 : m1 (off + 1) = m2 (off + 1)) : load_u16 m1 off = load_u16 m2 off := by
  unfold load_u16
  rw [h0, h1]

theorem mem_read_congr (m1 m2 : memory) (off n : Nat)
    (h : ∀ j, j < n → m1 (off + j) = m2 (off + j)) : mem_read m1 off n = mem_read m2 off n := by
  unfold mem_read
  apply List.map_congr_left
  intro j hj
  exact h j (List.mem_range.mp hj)

theorem slot_holds_congr (m1 m2 : memory) (size i : Nat) (data : List uint8_t)
    (hlen : data.length + LEN_SIZE ≤ size)
    (h : ∀ j, j < size → m1 (i * size + j) = m2 (i * size + j))
    (hs : slot_holds m2 size i data) : slot_holds m1 size i data := by
  unfold slot_holds at hs ⊢
  unfold LEN_SIZE at hlen hs ⊢
  obtain ⟨h1, h2⟩ := hs
  refine ⟨?_, ?_⟩
  · refine Eq.trans ?_ h1
    apply load_u16_congr
    · exact h 0 (by omega)
    · exact h 1 (by omega)
  · refine Eq.trans ?_ h2
    apply mem_read_congr
    intro j hj
    have := h (2 + j) (by omega)
    rw [Nat.add_assoc]
    exact this

theorem slot_holds_write (m : memory) (size i : Nat) (data : List uint8_t)
    (hlen : data.length < 65536) :
    slot_holds (mem_write (mem_write m (i * size) (store_u16 data.length))
      (i * size + LEN_SIZE) data) size i data := by
  unfold slot_holds
  refine ⟨?_, mem_read_write _ _ _⟩
  refine Eq.trans ?_ (load_u16_store m (i * size) data.length hlen)
  have hl : LEN_SIZE = 2 := rfl
  apply load_u16_congr
  · exact mem_write_outside _ _ _ _ (Or.inl (by omega))
  · exact mem_write_outside _ _ _ _ (Or.inl (by omega))


theorem states.dispatch_event_curr (s s1 : states) (event : Nat)
    (h : s.dispatch_event event = some s1) : s1.m_curr_state = s.m_curr_state := by
  unfold states.dispatch_event at h
  split_ifs at h with h1
  · cases h; rfl
  · cases ht : states.trans s.m_trans_table s.m_curr_state event with
    | none => rw [ht] at h; cases h
    | some n =>
      rw [ht] at h
      simp only at h
      split_ifs at h <;> cases h <;> rfl

theorem encoder.dispatch_event_curr_state (e e1 : encoder) (event : Nat)
    (h : e.dispatch_event event = some e1) : e1.curr_state = e.curr_state := by
  unfold encoder.dispatch_event at h
  cases hs : e.st.dispatch_event event with
  | none => rw [hs] at h; cases h
  | some st =>
    rw [hs] at h
    cases h
    exact states.dispatch_event_curr e.st st event hs

/-- What a call of `add_plain_packet` in `STATE_WAIT` that returns has done: the
checks passed, the packet is in the slot of the old `m_plain_pkt_count`, the
counter is one more, and the current state is still `STATE_WAIT`. -/
theorem encoder.add_plain_packet_slot (threshold : ℚ) (e e1 : encoder) (data : List uint8_t)
    (rank : Nat) (semaphore_count : Int) (hw : e.curr_state = encoder.STATE_WAIT)
    (h : e.add_plain_packet threshold data rank semaphore_count = some e1) :
    data.length < 65536 ∧ data.length ≤ usub e.symbol_size LEN_SIZE ∧
    e.m_plain_pkt_count < e.symbols ∧
    e1.m_symbol_storage =
      mem_write (mem_write e.m_symbol_storage (e.m_plain_pkt_count * e.symbol_size)
        (store_u16 data.length)) (e.m_plain_pkt_count * e.symbol_size + LEN_SIZE) data ∧
    e1.m_plain_pkt_count = uadd e.m_plain_pkt_count 1 ∧
    e1.curr_state = encoder.STATE_WAIT ∧ e1.symbols = e.symbols ∧
    e1.symbol_size = e.symbol_size := by
  unfold encoder.add_plain_packet at h
  simp only at h
  split_ifs at h with h1 h2 h3 h4 h5 h6
  · exact absurd hw h3
  · obtain ⟨⟨k1, k2, k3, k4⟩, _, _⟩ := encoder.dispatch_event_keeps _ e1 _ h
    have hc := encoder.dispatch_event_curr_state _ e1 _ h
    exact ⟨by omega, by omega, by omega, k4, k3, hc.trans hw, k1, k2⟩
  · cases hc : coder.recoder_credit e.m_e1.val e.m_e2.val e.m_e3.val with
    | none => rw [hc] at h; cases h
    | some credit =>
      rw [hc] at h
      cases h
      obtain ⟨k6, k3, k1, k4, k2, k7⟩ := encoder.send_encoded_credit_loop_kept
        (Int.toNat ⌊e.m_budget + credit⌋)
        { e with
          m_symbol_storage :=
            mem_write (mem_write e.m_symbol_storage (e.m_plain_pkt_count * e.symbol_size)
              (store_u16 data.length)) (e.m_plain_pkt_count * e.symbol_size + LEN_SIZE) data
          m_plain_pkt_count := uadd e.m_plain_pkt_count 1
          m_budget := e.m_budget + credit }
      refine ⟨by omega, by omega, by omega, k4, k3, ?_, k1, k2⟩
      unfold encoder.curr_state at hw ⊢
      unfold encoder.send_encoded_credit
      rw [k7]
      exact hw
  · cases h
    exact ⟨by omega, by omega, by omega, rfl, rfl, hw, rfl, rfl⟩

/-- A decoder whose slot `i` holds `data`, with the sent bit of `i` clear and
`data` within `RLNC_MAX_PAYLOAD`, sends the decoded frame `(i, data)`. -/
theorem decoder.send_decoded_packet_slot (d : decoder) (i : Nat) (data : List uint8_t)
    (hs : slot_holds d.rlnc_symbols d.symbol_size i data)
    (hb : d.m_decoded_symbols[i]? = some false) (hlen : data.length ≤ RLNC_MAX_PAYLOAD) :
    d.send_decoded_packet i =
      some { d with
        sent := d.sent ++ [frame.dec i data]
        m_decoded_symbols := d.m_decoded_symbols.set i true } := by
  unfold decoder.send_decoded_packet
  rw [hb]
  simp only
  obtain ⟨h1, h2⟩ := hs
  rw [h1, if_neg (by omega), h2]


theorem encoder.add_plain_packets_slots (threshold : ℚ)
    (ps : List (List uint8_t × Nat × Int)) (e e1 : encoder)
    (hw : e.curr_state = encoder.STATE_WAIT) (hss : LEN_SIZE ≤ e.symbol_size)
    (hmax : e.symbols + e.symbol_size ≤ RLNC_MAX_PAYLOAD)
    (h : e.add_plain_packets threshold ps = some e1) :
    e1.m_plain_pkt_count = e.m_plain_pkt_count + ps.length ∧
    (ps.length = 0 ∨ e.m_plain_pkt_count + ps.length ≤ e.symbols) ∧
    e1.symbols = e.symbols ∧ e1.symbol_size = e.symbol_size ∧
    (∀ a, a < e.m_plain_pkt_count * e.symbol_size →
      e1.m_symbol_storage a = e.m_symbol_storage a) ∧
    ∀ j (hj : j < ps.length),
      (ps.get ⟨j, hj⟩).1.length + LEN_SIZE ≤ e.symbol_size ∧
      slot_holds e1.m_symbol_storage e.symbol_size (e.m_plain_pkt_count + j) (ps.get ⟨j, hj⟩).1 := by
  have hl : LEN_SIZE = 2 := rfl
  have hr : RLNC_MAX_PAYLOAD = 1518 := rfl
  induction ps generalizing e with
  | nil =>
    simp only [encoder.add_plain_packets] at h
    cases h
    refine ⟨rfl, Or.inl rfl, rfl, rfl, fun _ _ => rfl, ?_⟩
    intro j hj
    simp at hj
  | cons p ps ih =>
    simp only [encoder.add_plain_packets] at h
    cases hs : e.add_plain_packet threshold p.1 p.2.1 p.2.2 with
    | none => rw [hs] at h; cases h
    | some e2 =>
      rw [hs] at h
      obtain ⟨s1, s2, s3, s4, s5, s6, s7, s8⟩ :=
        encoder.add_plain_packet_slot threshold e e2 p.1 p.2.1 p.2.2 hw hs
      have hu : usub e.symbol_size LEN_SIZE = e.symbol_size - 2 := by
        unfold usub SIZE_MOD
        rw [hl]
        omega
      have hc : uadd e.m_plain_pkt_count 1 = e.m_plain_pkt_count + 1 := by
        unfold uadd SIZE_MOD
        omega
      rw [hc] at s5
      rw [hu] at s2
      obtain ⟨i1, i2, i3, i4, i5, i6⟩ := ih e2 s6 (by omega) (by omega) h
      rw [s5, s7] at i2
      rw [s5, s8] at i5
      have hmul : (e.m_plain_pkt_count + 1) * e.symbol_size
          = e.m_plain_pkt_count * e.symbol_size + e.symbol_size := by ring
      have hbelow : ∀ a, a < e.m_plain_pkt_count * e.symbol_size →
          e2.m_symbol_storage a = e.m_symbol_storage a := by
        intro a ha
        rw [s4, mem_write_outside _ _ _ _ (Or.inl (by omega)),
          mem_write_outside _ _ _ _ (Or.inl (by omega))]
      refine ⟨by rw [i1, s5, List.length_cons]; omega,
        Or.inr (by simp only [List.length_cons]; omega),
        i3.trans s7, i4.trans s8, ?_, ?_⟩
      · intro a ha
        rw [i5 a (by omega), hbelow a ha]
      · intro j hj
        cases j with
        | zero =>
          simp only [List.get_eq_getElem, List.getElem_cons_zero, Nat.add_zero]
          refine ⟨by omega, ?_⟩
          apply slot_holds_congr e1.m_symbol_storage e2.m_symbol_storage _ _ _ (by omega)
          · intro k hk
            exact i5 _ (by omega)
          · rw [s4]
            exact slot_holds_write _ _ _ _ s1
        | succ j =>
          have hj2 : j < ps.length := by simpa using hj
          have := i6 j hj2
          rw [s5, s8] at this
          simp only [List.get_eq_getElem, List.getElem_cons_succ] at this ⊢
          have e3 : e.m_plain_pkt_count + (j + 1) = e.m_plain_pkt_count + 1 + j := by omega
          rw [e3]
          exact this

theorem decoder.send_decoded_range_slots (datas : Nat → List uint8_t) (is : List Nat)
    (d : decoder) (hn : is.Nodup)
    (hb : ∀ i, i ∈ is → d.m_decoded_symbols[i]? = some false)
    (hs : ∀ i, i ∈ is → slot_holds d.rlnc_symbols d.symbol_size i (datas i) ∧
      (datas i).length ≤ RLNC_MAX_PAYLOAD) :
    ∃ d1, d.send_decoded_range is = some d1 ∧
      d1.sent = d.sent ++ is.map (fun i => frame.dec i (datas i)) := by
  induction is generalizing d with
  | nil => exact ⟨d, rfl, by simp⟩
  | cons i is ih =>
    simp only [decoder.send_decoded_range]
    have h1 := decoder.send_decoded_packet_slot d i (datas i) (hs i (List.mem_cons_self _ _)).1
      (hb i (List.mem_cons_self _ _)) (hs i (List.mem_cons_self _ _)).2
    rw [h1]
    simp only
    have hn2 := List.nodup_cons.mp hn
    obtain ⟨d1, r1, r2⟩ := ih
      { d with
        sent := d.sent ++ [frame.dec i (datas i)]
        m_decoded_symbols := d.m_decoded_symbols.set i true } hn2.2
      (by
        intro j hj
        have hne : i ≠ j := fun he => hn2.1 (he ▸ hj)
        simp only [List.getElem?_set, if_neg hne]
        exact hb j (List.mem_cons_of_mem _ hj))
      (by
        intro j hj
        exact hs j (List.mem_cons_of_mem _ hj))
    refine ⟨d1, r1, ?_⟩
    rw [r2]
    simp

/-- C15: an encoder in `STATE_WAIT` with no plain packet yet, a symbol size of
at least `LEN_SIZE` and `symbols + symbol_size ≤ RLNC_MAX_PAYLOAD` (the check of
`main`), on which the calls `add_plain_packet(data_j, len_j)` for the packets
`ps` have returned: every length passed the check `len_j ≤ symbol_size - 2`,
there are at most `symbols()` packets, and slot `j` of the symbol storage holds
packet `j` (the `uint16_t` at its start is `len_j`, the `len_j` bytes after it
are `data_j`). Every decoder of the same symbol size whose slot `j` has the same
bytes and whose sent bit `j` is clear answers `send_decoded_packet(j)` with one
decoded frame whose payload is `data_j`; and a decoder whose symbol block has
the bytes of the encoder's, after `init()`, answers
`send_partial_decoded_packets` over all the packets with exactly the frames
`(0, data_0), (1, data_1), ...`, one for every packet. -/
theorem symbol_slot_round_trip (threshold : ℚ) (e e1 : encoder)
    (ps : List (List uint8_t × Nat × Int))
    (hw : e.curr_state = encoder.STATE_WAIT) (h0 : e.m_plain_pkt_count = 0)
    (hss : LEN_SIZE ≤ e.symbol_size)
    (hmax : e.symbols + e.symbol_size ≤ RLNC_MAX_PAYLOAD)
    (h : e.add_plain_packets threshold ps = some e1) :
    ps.length ≤ e.symbols ∧
    (∀ j (hj : j < ps.length),
      (ps.get ⟨j, hj⟩).1.length ≤ e.symbol_size - LEN_SIZE ∧
      load_u16 e1.m_symbol_storage (j * e.symbol_size) = (ps.get ⟨j, hj⟩).1.length ∧
      mem_read e1.m_symbol_storage (j * e.symbol_size + LEN_SIZE) (ps.get ⟨j, hj⟩).1.length
        = (ps.get ⟨j, hj⟩).1 ∧
      ∀ d : decoder, d.symbol_size = e.symbol_size →
        (∀ a, a < e.symbol_size →
          d.rlnc_symbols (j * e.symbol_size + a) = e1.m_symbol_storage (j * e.symbol_size + a)) →
        d.m_decoded_symbols[j]? = some false →
        d.send_decoded_packet j =
          some { d with
            sent := d.sent ++ [frame.dec j (ps.get ⟨j, hj⟩).1]
            m_decoded_symbols := d.m_decoded_symbols.set j true }) ∧
    ∀ d : decoder, d.symbol_size = e.symbol_size → d.symbols = e.symbols →
      (∀ a, a < ps.length * e.symbol_size → d.rlnc_symbols a = e1.m_symbol_storage a) →
      ∃ d1, d.init.send_partial_decoded_packets ps.length = some d1 ∧
        d1.sent = d.sent ++
          (List.range ps.length).map (fun j => frame.dec j (ps.getD j ([], 0, 0)).1) := by
  have hl : LEN_SIZE = 2 := rfl
  have hr : RLNC_MAX_PAYLOAD = 1518 := rfl
  obtain ⟨k1, k2, k3, k4, k5, k6⟩ :=
    encoder.add_plain_packets_slots threshold ps e e1 hw hss hmax h
  rw [h0] at k2 k6
  simp only [Nat.zero_add] at k2 k6
  refine ⟨by omega, ?_, ?_⟩
  · intro j hj
    obtain ⟨m1, m2⟩ := k6 j hj
    refine ⟨by omega, m2.1, m2.2, ?_⟩
    intro d hd hmem hbit
    apply decoder.send_decoded_packet_slot d j _ _ hbit (by omega)
    rw [hd]
    exact slot_holds_congr _ _ _ _ _ m1 hmem m2
  · intro d hd hsym hmem
    have hrange := decoder.send_decoded_range_slots
      (fun j => (ps.getD j ([], 0, 0)).1) (List.range ps.length) d.init
      (List.nodup_range _)
      (by
        intro i hi
        have hi2 := List.mem_range.mp hi
        show (List.replicate d.symbols false)[i]? = some false
        rw [List.getElem?_replicate, if_pos (by omega)])
      (by
        intro i hi
        have hi2 := List.mem_range.mp hi
        obtain ⟨m1, m2⟩ := k6 i hi2
        have hget : (ps.getD i ([], 0, 0)).1 = (ps.get ⟨i, hi2⟩).1 := by
          rw [List.getD_eq_getElem _ _ hi2]
          rfl
        simp only [hget]
        refine ⟨?_, by omega⟩
        show slot_holds d.rlnc_symbols d.symbol_size i _
        rw [hd]
        apply slot_holds_congr _ _ _ _ _ m1 _ m2
        intro a ha
        apply hmem
        have : i * e.symbol_size + e.symbol_size ≤ ps.length * e.symbol_size := by
          have := Nat.mul_le_mul_right e.symbol_size (Nat.succ_le_of_lt hi2)
          rw [Nat.succ_mul] at this
          exact this
        omega)
    exact hrange

theorem symbol_slot_round_trip_witness :
    ∃ e1 d1, sample_encoder.add_plain_packets (1 / 10) [([1, 2, 3], 1, 0), ([4], 2, 0)] = some e1 ∧
      load_u16 e1.m_symbol_storage (1 * 8) = 1 ∧
      mem_read e1.m_symbol_storage (0 * 8 + LEN_SIZE) 3 = [1, 2, 3] ∧
      ({ sample_decoder with rlnc_symbols := e1.m_symbol_storage } :
        decoder).init.send_partial_decoded_packets 2 = some d1 ∧
      d1.sent = [frame.dec 0 [1, 2, 3], frame.dec 1 [4]] := by
  have h : (sample_encoder.add_plain_packets (1 / 10)
      [([1, 2, 3], 1, 0), ([4], 2, 0)]).isSome = true := by decide!
  obtain ⟨e1, h1⟩ := Option.isSome_iff_exists.mp h
  have hall := symbol_slot_round_trip (1 / 10) sample_encoder e1
    [([1, 2, 3], 1, 0), ([4], 2, 0)] rfl rfl (by decide) (by decide) h1
  obtain ⟨d1, r1, r2⟩ := hall.2.2 { sample_decoder with rlnc_symbols := e1.m_symbol_storage }
    rfl rfl (fun _ _ => rfl)
  exact ⟨e1, d1, h1, (hall.2.1 1 (by decide)).2.1, (hall.2.1 0 (by decide)).2.2.1, r1, r2⟩

/-! ## The helper: help packets and `m_max_budget` -/

/-- C19, failing inputs. A helper of 64 symbols with the estimates
`(25, 25, 38)` (the flags `e1 = 10`, `e2 = 10`, `e3 = 15`), overshoot `1.06` and
helper threshold `1.0` gets `m_max_budget = 10`, `m_threshold = 51` and the
credit `51/46` from `init()`; after sixty innovative coded packets (ranks 1 to
60) it has sent eleven help packets. A helper of one symbol with the estimates
`(140, 0, 12)` gets `m_max_budget = 1` and sends two help packets in its first
`add_enc_packet`. -/
theorem helper_exceeds_max_budget :
    (((sample_helper 64).init (53 / 50) 1 25 25 38).bind
        (fun h => h.add_enc_packets ((List.range 60).map (fun i => (12, i + 1))))).map
      (fun h => (h.m_max_budget, h.m_threshold, h.m_credit, h.m_hlp_pkt_count, hlp_count h.sent))
      = some (10, 51, 51 / 46, 11, 11) ∧
    (((sample_helper 1).init (53 / 50) 1 140 0 12).bind
        (fun h => h.add_enc_packet 12 1)).map
      (fun h => (h.m_max_budget, h.m_threshold, h.m_credit, h.m_hlp_pkt_count, hlp_count h.sent))
      = some (1, 1, 51 / 23, 2, 2) := by
  refine ⟨by decide!, by decide!⟩


theorem helper.send_hlp_credits_loop_le (n : Nat) (h : helper)
    (hi : h.m_hlp_pkt_count ≤ int_to_size_t h.m_max_budget + 1) :
    (helper.send_hlp_credits_loop n h).m_hlp_pkt_count
        ≤ int_to_size_t (helper.send_hlp_credits_loop n h).m_max_budget + 1 ∧
    (helper.send_hlp_credits_loop n h).m_max_budget = h.m_max_budget := by
  induction n generalizing h with
  | zero => exact ⟨hi, rfl⟩
  | succ n ih =>
    unfold helper.send_hlp_credits_loop
    split_ifs with hg
    · have hu : uadd h.m_hlp_pkt_count 1 ≤ h.m_hlp_pkt_count + 1 := by
        unfold uadd
        exact Nat.mod_le _ _
      have := ih { h.send_hlp_packet with m_budget := h.m_budget - 1 }
        (by
          show uadd h.m_hlp_pkt_count 1 ≤ int_to_size_t h.m_max_budget + 1
          omega)
      exact this
    · exact ⟨hi, rfl⟩

/-- What the code does keep: after `init()` and any sequence of
`add_enc_packet` calls the helper has sent at most `m_max_budget + 1` help
packets. -/
theorem helper.hlp_pkt_count_le_succ (ps : List (Nat × Nat)) (h h1 : helper)
    (hi : h.m_hlp_pkt_count ≤ int_to_size_t h.m_max_budget + 1)
    (hr : h.add_enc_packets ps = some h1) :
    h1.m_hlp_pkt_count ≤ int_to_size_t h1.m_max_budget + 1 ∧
      h1.m_max_budget = h.m_max_budget := by
  induction ps generalizing h with
  | nil =>
    simp only [helper.add_enc_packets] at hr
    cases hr
    exact ⟨hi, rfl⟩
  | cons p ps ih =>
    simp only [helper.add_enc_packets] at hr
    cases hs : h.add_enc_packet p.1 p.2 with
    | none => rw [hs] at hr; cases hr
    | some h2 =>
      rw [hs] at hr
      have hstep : h2.m_hlp_pkt_count ≤ int_to_size_t h2.m_max_budget + 1 ∧
          h2.m_max_budget = h.m_max_budget := by
        unfold helper.add_enc_packet at hs
        simp only at hs
        have hcred : (helper.send_hlp_credits
              { h with rlnc_rank := p.2, m_enc_pkt_count := uadd h.m_enc_pkt_count 1 }).m_hlp_pkt_count
            ≤ int_to_size_t (helper.send_hlp_credits
              { h with rlnc_rank := p.2,
                       m_enc_pkt_count := uadd h.m_enc_pkt_count 1 }).m_max_budget + 1 ∧
            (helper.send_hlp_credits
              { h with rlnc_rank := p.2,
                       m_enc_pkt_count := uadd h.m_enc_pkt_count 1 }).m_max_budget
              = h.m_max_budget := by
          unfold helper.send_hlp_credits
          simp only
          split_ifs
          · exact ⟨hi, rfl⟩
          · exact helper.send_hlp_credits_loop_le _ _ hi
        split_ifs at hs with c1 c2 c3 c4 c5
        · cases hs; exact ⟨hi, rfl⟩
        · cases hs; exact ⟨hi, rfl⟩
        · cases hd : (helper.send_hlp_credits
              { h with rlnc_rank := p.2,
                       m_enc_pkt_count := uadd h.m_enc_pkt_count 1 }).st.dispatch_event
              helper.EVENT_BUDGET_SENT with
          | none => rw [hd] at hs; cases hs
          | some st => rw [hd] at hs; cases hs; exact hcred
        · cases hs; exact hcred
        · cases hd : h.st.dispatch_event helper.EVENT_BUDGET_SENT with
          | none => rw [hd] at hs; cases hs
          | some st => rw [hd] at hs; cases hs; exact ⟨hi, rfl⟩
        · cases hs; exact ⟨hi, rfl⟩
      obtain ⟨r1, r2⟩ := ih h2 hstep.1 hr
      exact ⟨r1, r2.trans hstep.2⟩

/-! ## Plain packets through the dispatcher -/

theorem encoder_map.store_bounded (fresh : encoder) (m : coder_map encoder)
    (c : coder_obj encoder) (e : encoder) (hb : encoder_map.bounded fresh m)
    (hs : e.symbols = fresh.symbols) (hc : e.m_plain_pkt_count ≤ fresh.symbols) :
    encoder_map.bounded fresh (encoder_map.store m c e) := by
  intro k c1 h
  unfold encoder_map.store at h
  simp only at h
  by_cases hk : k = c._key
  · rw [hk, Function.update_same] at h
    cases h
    exact ⟨hs, hc⟩
  · rw [Function.update_noteq hk] at h
    exact hb k c1 h

theorem coder_map.search_coder_some {β : Type} (m : coder_map β) (k : key) (c : coder_obj β)
    (h : coder_map.search_coder m k = some c) : m.m_coders k = some c := by
  unfold coder_map.search_coder at h
  cases hm : m.m_coders k with
  | none => rw [hm] at h; cases h
  | some c1 =>
    rw [hm] at h
    simp only at h
    split_ifs at h
    cases h
    rfl

/-- The coder that `get_latest_coder` hands out for a plain packet is not full,
and the map stays bounded. -/
theorem encoder_map.get_latest_coder_bounded (overshoot : ℚ) (fresh : encoder)
    (hg : 1 ≤ fresh.symbols) (m : coder_map encoder) (k : key)
    (hb : encoder_map.bounded fresh m) :
    encoder_map.bounded fresh
      (coder_map.get_latest_coder (encoder_map.build overshoot fresh) encoder.is_valid m k).2 ∧
    ∀ c, (coder_map.get_latest_coder (encoder_map.build overshoot fresh)
        encoder.is_valid m k).1 = some c →
      c.role.symbols = fresh.symbols ∧ c.role.m_plain_pkt_count < c.role.symbols := by
  have hfound : ∀ c, coder_map.search_coder m { k with block := (m.m_blocks k).getD 0 } = some c →
      encoder.is_valid c.role = true →
      encoder_map.bounded fresh
        (coder_map.get_latest_coder (encoder_map.build overshoot fresh) encoder.is_valid m k).2 ∧
      ∀ c, (coder_map.get_latest_coder (encoder_map.build overshoot fresh)
          encoder.is_valid m k).1 = some c →
        c.role.symbols = fresh.symbols ∧ c.role.m_plain_pkt_count < c.role.symbols := by
    intro c hs hv
    rw [coder_map.get_latest_coder_found _ _ m k c hs hv]
    refine ⟨?_, ?_⟩
    · intro k1 c1 h1
      rw [(coder_map.get_block_coders m k).1] at h1
      exact hb k1 c1 h1
    · intro c1 h1
      cases h1
      have hin := hb _ c (coder_map.search_coder_some m _ c hs)
      unfold encoder.is_valid encoder.is_full at hv
      simp only [Bool.not_eq_true', decide_eq_false_iff_not, ge_iff_le, not_le] at hv
      exact ⟨hin.1, hv⟩
  have hcreated : (∀ c, coder_map.search_coder m { k with block := (m.m_blocks k).getD 0 } = some c →
      encoder.is_valid c.role = false) →
      encoder_map.bounded fresh
        (coder_map.get_latest_coder (encoder_map.build overshoot fresh) encoder.is_valid m k).2 ∧
      ∀ c, (coder_map.get_latest_coder (encoder_map.build overshoot fresh)
          encoder.is_valid m k).1 = some c →
        c.role.symbols = fresh.symbols ∧ c.role.m_plain_pkt_count < c.role.symbols := by
    intro hs
    rw [coder_map.get_latest_coder_created _ _ m k hs]
    refine ⟨?_, ?_⟩
    · intro k1 c1 h1
      simp only at h1
      by_cases hk : k1 = { k with block := uadd ((m.m_blocks k).getD 0) 1 }
      · rw [hk, Function.update_same] at h1
        cases h1
        exact ⟨rfl, Nat.zero_le _⟩
      · rw [Function.update_noteq hk] at h1
        exact hb k1 c1 h1
    · intro c1 h1
      cases h1
      exact ⟨rfl, hg⟩
  cases hs : coder_map.search_coder m { k with block := (m.m_blocks k).getD 0 } with
  | none =>
    apply hcreated
    intro c hc
    rw [hs] at hc
    cases hc
  | some c =>
    cases hv : encoder.is_valid c.role with
    | true => exact hfound c hs hv
    | false =>
      apply hcreated
      intro c1 hc1
      rw [hs] at hc1
      cases hc1
      exact hv

theorem encoder_map.step_bounded (overshoot threshold : ℚ) (fresh : encoder)
    (hg : 1 ≤ fresh.symbols) (m m1 : coder_map encoder) (ev : encoder_map.event)
    (hb : encoder_map.bounded fresh m)
    (h : encoder_map.step overshoot threshold fresh m ev = some m1) :
    encoder_map.bounded fresh m1 := by
  cases ev with
  | plain k data rank semaphore_count =>
    simp only [encoder_map.step, encoder_map.handle_plain] at h
    obtain ⟨b1, b2⟩ := encoder_map.get_latest_coder_bounded overshoot fresh hg m k hb
    cases hr : (coder_map.get_latest_coder (encoder_map.build overshoot fresh)
        encoder.is_valid m k).1 with
    | none =>
      rw [hr] at h
      cases h
      exact b1
    | some c =>
      rw [hr] at h
      simp only at h
      cases ha : c.role.add_plain_packet threshold data rank semaphore_count with
      | none => rw [ha] at h; cases h
      | some e1 =>
        rw [ha] at h
        cases h
        obtain ⟨c1, c2⟩ := b2 c hr
        obtain ⟨s1, _, _, s4, _⟩ :=
          encoder.add_plain_packet_spec threshold c.role e1 data rank semaphore_count ha
        apply encoder_map.store_bounded fresh _ c e1 b1 (s1.trans c1)
        rcases s4 with s4 | ⟨_, s5, s6⟩
        · rw [s4]
          omega
        · rw [s6]
          have : uadd c.role.m_plain_pkt_count 1 ≤ c.role.m_plain_pkt_count + 1 := by
            unfold uadd
            exact Nat.mod_le _ _
          omega
  | ack k =>
    simp only [encoder_map.step, encoder_map.handle_ack, coder_map.find_coder] at h
    cases hr : coder_map.search_coder m k with
    | none =>
      rw [hr] at h
      cases h
      exact hb
    | some c =>
      rw [hr] at h
      simp only at h
      cases ha : c.role.add_ack_packet with
      | none => rw [ha] at h; cases h
      | some e1 =>
        rw [ha] at h
        cases h
        obtain ⟨⟨k1, _, k3, _⟩, _, _⟩ := encoder.add_ack_packet_keeps c.role e1 ha
        have hin := hb _ c (coder_map.search_coder_some m k c hr)
        exact encoder_map.store_bounded fresh m c e1 hb (k1.trans hin.1) (by rw [k3]; exact hin.2)
  | req k local_rank rank seq =>
    simp only [encoder_map.step, encoder_map.handle_req, coder_map.find_coder] at h
    cases hr : coder_map.search_coder m k with
    | none =>
      rw [hr] at h
      cases h
      exact hb
    | some c =>
      rw [hr] at h
      cases h
      obtain ⟨k1, _, k3, _⟩ := encoder.add_req_packet_keeps overshoot c.role local_rank rank seq
      have hin := hb _ c (coder_map.search_coder_some m k c hr)
      exact encoder_map.store_bounded fresh m c _ hb (k1.trans hin.1) (by rw [k3]; exact hin.2)
  | house_keeping a b =>
    simp only [encoder_map.step, encoder_map.house_keeping, coder_map.process_coders] at h
    cases h
    intro k c hc
    simp only at hc
    cases hm : m.m_coders k with
    | none => rw [hm] at hc; cases hc
    | some c0 =>
      rw [hm] at hc
      simp only at hc
      have hin := hb k c0 hm
      cases hp : c0.role.process (a c0._key) (b c0._key) with
      | none =>
        rw [hp] at hc
        simp only [Bool.false_eq_true, if_false] at hc
        cases hc
        exact hin
      | some r =>
        rw [hp] at hc
        simp only at hc
        obtain ⟨⟨k1, _, k3, _⟩, _, _⟩ := encoder.process_keeps c0.role _ _ r hp
        split_ifs at hc
        cases hc
        exact ⟨k1.trans hin.1, by rw [k3]; exact hin.2⟩
  | handler k =>
    simp only [encoder_map.step, encoder_map.drive_handler] at h
    cases hm : m.m_coders k with
    | none =>
      rw [hm] at h
      cases h
      exact hb
    | some c =>
      rw [hm] at h
      simp only at h
      cases ha : c.role.handler with
      | none => rw [ha] at h; cases h
      | some e1 =>
        rw [ha] at h
        cases h
        obtain ⟨⟨k1, _, k3, _⟩, _⟩ := encoder.handler_keeps c.role e1 ha
        have hin := hb k c hm
        exact encoder_map.store_bounded fresh m c e1 hb (k1.trans hin.1) (by rw [k3]; exact hin.2)
  | load k =>
    simp only [encoder_map.step, encoder_map.drive_load] at h
    cases hm : m.m_coders k with
    | none =>
      rw [hm] at h
      cases h
      exact hb
    | some c =>
      rw [hm] at h
      cases h
      have hin := hb k c hm
      exact encoder_map.store_bounded fresh m c _ hb hin.1 hin.2

theorem encoder_map.run_from_bounded (overshoot threshold : ℚ) (fresh : encoder)
    (hg : 1 ≤ fresh.symbols) (evs : List encoder_map.event) (m m1 : coder_map encoder)
    (hb : encoder_map.bounded fresh m)
    (h : encoder_map.run_from overshoot threshold fresh m evs = some m1) :
    encoder_map.bounded fresh m1 := by
  induction evs generalizing m with
  | nil =>
    simp only [encoder_map.run_from] at h
    cases h
    exact hb
  | cons ev evs ih =>
    simp only [encoder_map.run_from] at h
    cases hs : encoder_map.step overshoot threshold fresh m ev with
    | none => rw [hs] at h; cases h
    | some m2 =>
      rw [hs] at h
      exact ih m2 (encoder_map.step_bounded overshoot threshold fresh hg m m2 ev hb hs) h


/-- A plain frame does not write a full encoder: an encoder of the map that is
not valid is either left as it is, or its entry is taken by the encoder that
`get_latest_coder` has created for the frame. -/
theorem encoder_map.handle_plain_full_kept (overshoot threshold : ℚ) (fresh : encoder)
    (m m1 : coder_map encoder) (k : key) (data : List uint8_t) (rank : Nat)
    (semaphore_count : Int)
    (h : encoder_map.handle_plain overshoot threshold fresh m k data rank semaphore_count
      = some m1)
    (k1 : key) (c : coder_obj encoder) (hc : m.m_coders k1 = some c)
    (hf : encoder.is_valid c.role = false) :
    m1.m_coders k1 = some c ∨
    ∃ e1, (fresh.init overshoot).add_plain_packet threshold data rank semaphore_count = some e1 ∧
      m1.m_coders k1 = some { _key := k1, role := e1 } := by
  unfold encoder_map.handle_plain at h
  simp only at h
  by_cases hfound : ∃ c0, coder_map.search_coder m { k with block := (m.m_blocks k).getD 0 }
      = some c0 ∧ encoder.is_valid c0.role = true
  · obtain ⟨c0, hs, hv⟩ := hfound
    rw [coder_map.get_latest_coder_found _ _ m k c0 hs hv] at h
    simp only at h
    cases ha : c0.role.add_plain_packet threshold data rank semaphore_count with
    | none =>
      rw [ha] at h
      cases h
    | some e1 =>
      rw [ha] at h
      simp only [Option.some.injEq] at h
      subst h
      left
      have hm0 := coder_map.search_coder_some m _ c0 hs
      have hk0 : c0._key = { k with block := (m.m_blocks k).getD 0 } := by
        unfold coder_map.search_coder at hs
        rw [hm0] at hs
        simp only at hs
        split_ifs at hs with hk
        exact hk
      have hne : k1 ≠ c0._key := by
        intro heq
        rw [heq, hk0, hm0] at hc
        cases hc
        rw [hv] at hf
        cases hf
      unfold encoder_map.store
      simp only [Function.update_noteq hne, (coder_map.get_block_coders m k).1]
      exact hc
  · have hs : ∀ c0, coder_map.search_coder m { k with block := (m.m_blocks k).getD 0 }
        = some c0 → encoder.is_valid c0.role = false := by
      intro c0 hc0
      cases hv : encoder.is_valid c0.role with
      | false => rfl
      | true => exact absurd ⟨c0, hc0, hv⟩ hfound
    rw [coder_map.get_latest_coder_created _ _ m k hs] at h
    simp only [encoder_map.build] at h
    cases ha : (fresh.init overshoot).add_plain_packet threshold data rank semaphore_count with
    | none =>
      rw [ha] at h
      cases h
    | some e1 =>
      rw [ha] at h
      simp only [Option.some.injEq] at h
      subst h
      by_cases hk : k1 = { k with block := uadd ((m.m_blocks k).getD 0) 1 }
      · right
        subst hk
        refine ⟨e1, rfl, ?_⟩
        unfold encoder_map.store
        exact Function.update_same _ _ _
      · left
        unfold encoder_map.store
        simp only [Function.update_noteq hk]
        exact hc

/-- C13: with at least one symbol per generation, in every state of the encoder
map that events reach from the empty map (plain, acknowledgement and request
frames through `handle_packet`, sweeps of the house keeping thread, steps of
the driver threads), every live encoder has at most `symbols()` plain packets;
the coder that `get_latest_coder` hands to `handle_packet` for a plain frame is
never full, so no further `add_plain_packet` reaches an encoder once its count
is `symbols()`: a further plain frame leaves such an encoder as it is, slots
and count included, unless the entry of the map is taken by the encoder newly
created for the frame; and `add_plain_packet` on an encoder whose current
state is not `STATE_WAIT` returns the encoder unchanged whenever the length
passes the check. -/
theorem plain_pkt_count_le_symbols (overshoot threshold : ℚ) (fresh : encoder)
    (hg : 1 ≤ fresh.symbols) (evs : List encoder_map.event) (m : coder_map encoder)
    (h : encoder_map.run overshoot threshold fresh evs = some m) :
    (∀ k c, m.m_coders k = some c →
      c.role.symbols = fresh.symbols ∧ c.role.m_plain_pkt_count ≤ c.role.symbols) ∧
    (∀ k c, (coder_map.get_latest_coder (encoder_map.build overshoot fresh)
        encoder.is_valid m k).1 = some c → c.role.m_plain_pkt_count < c.role.symbols) ∧
    (∀ k data rank semaphore_count m1,
      encoder_map.step overshoot threshold fresh m (.plain k data rank semaphore_count)
        = some m1 →
      ∀ k1 c, m.m_coders k1 = some c → c.role.m_plain_pkt_count = fresh.symbols →
        m1.m_coders k1 = some c ∨
        ∃ e1, (fresh.init overshoot).add_plain_packet threshold data rank semaphore_count
            = some e1 ∧
          m1.m_coders k1 = some { _key := k1, role := e1 }) ∧
    ∀ (e : encoder) (data : List uint8_t) (rank : Nat) (semaphore_count : Int),
      e.curr_state ≠ encoder.STATE_WAIT → data.length < 65536 →
      data.length ≤ usub e.symbol_size LEN_SIZE →
      e.add_plain_packet threshold data rank semaphore_count = some e := by
  have hb : encoder_map.bounded fresh m := by
    apply encoder_map.run_from_bounded overshoot threshold fresh hg evs coder_map.empty m _ h
    intro k c hc
    cases hc
  refine ⟨?_, ?_, ?_, ?_⟩
  · intro k c hc
    obtain ⟨h1, h2⟩ := hb k c hc
    exact ⟨h1, by rw [h1]; exact h2⟩
  · intro k c hc
    exact ((encoder_map.get_latest_coder_bounded overshoot fresh hg m k hb).2 c hc).2
  · intro k data rank semaphore_count m1 hstep k1 c hc hfull
    have hv : encoder.is_valid c.role = false := by
      unfold encoder.is_valid encoder.is_full
      rw [hfull, (hb k1 c hc).1]
      simp
    exact encoder_map.handle_plain_full_kept overshoot threshold fresh m m1 k data rank
      semaphore_count hstep k1 c hc hv
  · intro e data rank semaphore_count hw h1 h2
    unfold encoder.add_plain_packet
    simp only
    rw [if_neg (by omega), if_neg (by omega), if_pos hw]

theorem plain_pkt_count_le_symbols_witness :
    ∃ m, encoder_map.run (53 / 50) (1 / 10) sample_encoder
        [.plain (sample_key 0) [1, 2, 3] 1 0, .plain (sample_key 0) [4] 2 0,
          .load (sample_key 1), .handler (sample_key 1), .ack (sample_key 1),
          .house_keeping (fun _ => false) (fun _ => false),
          .plain (sample_key 0) [5] 1 0] = some m ∧
      ((∀ k c, m.m_coders k = some c →
        c.role.symbols = sample_encoder.symbols ∧ c.role.m_plain_pkt_count ≤ c.role.symbols) ∧
      (∀ k c, (coder_map.get_latest_coder (encoder_map.build (53 / 50) sample_encoder)
          encoder.is_valid m k).1 = some c → c.role.m_plain_pkt_count < c.role.symbols) ∧
      (∀ k data rank semaphore_count m1,
        encoder_map.step (53 / 50) (1 / 10) sample_encoder m
          (.plain k data rank semaphore_count) = some m1 →
        ∀ k1 c, m.m_coders k1 = some c → c.role.m_plain_pkt_count = sample_encoder.symbols →
          m1.m_coders k1 = some c ∨
          ∃ e1, (sample_encoder.init (53 / 50)).add_plain_packet (1 / 10) data rank
              semaphore_count = some e1 ∧
            m1.m_coders k1 = some { _key := k1, role := e1 }) ∧
      ∀ (e : encoder) (data : List uint8_t) (rank : Nat) (semaphore_count : Int),
        e.curr_state ≠ encoder.STATE_WAIT → data.length < 65536 →
        data.length ≤ usub e.symbol_size LEN_SIZE →
        e.add_plain_packet (1 / 10) data rank semaphore_count = some e) := by
  have h : (encoder_map.run (53 / 50) (1 / 10) sample_encoder
      [.plain (sample_key 0) [1, 2, 3] 1 0, .plain (sample_key 0) [4] 2 0,
        .load (sample_key 1), .handler (sample_key 1), .ack (sample_key 1),
        .house_keeping (fun _ => false) (fun _ => false),
        .plain (sample_key 0) [5] 1 0]).isSome = true := by decide!
  obtain ⟨m, h1⟩ := Option.isSome_iff_exists.mp h
  exact ⟨m, h1, plain_pkt_count_le_symbols (53 / 50) (1 / 10) sample_encoder (by decide) _ m h1⟩

/-- Outside the dispatcher: after two plain frames for one flow the encoder of
two symbols stored under block 1 has `m_plain_pkt_count = symbols() = 2` while
its current state is still `STATE_WAIT` (the next state `STATE_FULL` is pending
until the driver loads it).  The guard of `add_plain_packet` tests the current
state only, so a direct call on that encoder, which `handle_packet` never
makes, would address the slot with index 2, outside the storage. -/
theorem add_plain_packet_on_full_encoder :
    ((encoder_map.run (53 / 50) (1 / 10) sample_encoder
        [.plain (sample_key 0) [1, 2, 3] 1 0, .plain (sample_key 0) [4] 2 0]).bind
      (fun m => m.m_coders (sample_key 1))).map
      (fun c => (c.role.m_plain_pkt_count, c.role.symbols, c.role.curr_state,
        c.role.st.m_next_state, (c.role.add_plain_packet (1 / 10) [5] 3 0).isSome))
      = some (2, 2, encoder.STATE_WAIT, encoder.STATE_FULL, false) := by
  decide!

/-! ## The semaphore -/

theorem semaphore.step_queue_length (s s1 : semaphore) (o : semaphore.op)
    (hi : (s.m_queue.length : Int) = max 0 (-s.m_count))
    (h : s.step o = some s1) : (s1.m_queue.length : Int) = max 0 (-s1.m_count) := by
  cases o with
  | wait cond_var =>
    simp only [semaphore.step, semaphore.wait] at h
    by_cases h1 : s.m_count ≤ SSIZE_MIN
    · simp [h1] at h
    · by_cases h2 : s.m_count - 1 < 0
      · by_cases h3 : semaphore.wakeup_pending
            { s with m_count := s.m_count - 1, m_queue := s.m_queue ++ [cond_var] } = true
        · simp only [h1, h2, h3, if_false, if_true, Option.map_some', Option.some.injEq] at h
          subst h
          simp only [List.length_append, List.length_cons, List.length_nil]
          push_cast
          omega
        · simp only [h1, h2, h3, if_false, if_true, Bool.false_eq_true, Option.map_some',
            Option.some.injEq] at h
          subst h
          simp only [List.length_append, List.length_cons, List.length_nil]
          push_cast
          omega
      · simp only [h1, h2, if_false, Option.map_some', Option.some.injEq] at h
        subst h
        simp only
        omega
  | notify =>
    simp only [semaphore.step, semaphore.notify] at h
    by_cases h1 : s.m_count ≥ SSIZE_MAX
    · simp [h1] at h
    · by_cases h2 : s.m_count + 1 ≤ 0
      · by_cases h3 : s.m_wakeups ≥ SSIZE_MAX
        · simp [h1, h2, h3] at h
        · cases hq : s.m_queue with
          | nil => simp [h1, h2, h3, hq] at h
          | cons w rest =>
            simp only [h1, h2, h3, hq, if_false, if_true, Option.map_some',
              Option.some.injEq] at h
            subst h
            rw [hq] at hi
            simp only [List.length_cons] at hi ⊢
            push_cast at hi
            omega
      · simp only [h1, h2, if_false, Option.map_some', Option.some.injEq] at h
        subst h
        simp only
        omega
  | resume =>
    simp only [semaphore.step, semaphore.resume, Option.some.injEq] at h
    subst h
    split_ifs <;> exact hi

theorem semaphore.run_queue_length (os : List semaphore.op) (s s1 : semaphore)
    (hi : (s.m_queue.length : Int) = max 0 (-s.m_count))
    (h : s.run os = some s1) : (s1.m_queue.length : Int) = max 0 (-s1.m_count) := by
  induction os generalizing s with
  | nil =>
    simp only [semaphore.run] at h
    cases h
    exact hi
  | cons o os ih =>
    simp only [semaphore.run] at h
    cases hs : s.step o with
    | none => rw [hs] at h; cases h
    | some s2 =>
      rw [hs] at h
      exact ih s2 (semaphore.step_queue_length s s2 o hi hs) h

/-- C29: a semaphore constructed with a count `c` that an `ssize_t` holds
(`semaphore(c)`, or `semaphore()` for zero), after any sequence of `wait`,
`notify` and wake-up steps, has a queue of length `max(0, -m_count)`; so when
the count is negative the queue is not empty, and `notify()` on it finds a
front element: it returns unless an increment leaves the range of `ssize_t`. -/
theorem semaphore_queue_length (c : Nat) (hc : (c : Int) ≤ SSIZE_MAX) (os : List semaphore.op)
    (s : semaphore) (h : (semaphore.ctor_count c).run os = some s) :
    (s.m_queue.length : Int) = max 0 (-s.m_count) ∧
    (s.m_count + 1 ≤ 0 → s.m_queue ≠ []) ∧
    (s.m_count < SSIZE_MAX → s.m_wakeups < SSIZE_MAX → ∃ r, s.notify = some r) ∧
    semaphore.ctor_count 0 = semaphore.ctor := by
  have hinit : ((semaphore.ctor_count c).m_queue.length : Int)
      = max 0 (-(semaphore.ctor_count c).m_count) := by
    unfold semaphore.ctor_count size_to_ssize SIZE_MOD
    unfold SSIZE_MAX at hc
    simp only [List.length_nil, Nat.cast_zero]
    have h1 : c % 2 ^ 64 = c := Nat.mod_eq_of_lt (by omega)
    rw [h1]
    split_ifs with h2
    · omega
    · omega
  have hlen := semaphore.run_queue_length os _ s hinit h
  have hne : s.m_count + 1 ≤ 0 → s.m_queue ≠ [] := by
    intro hneg hq
    rw [hq] at hlen
    simp only [List.length_nil, Nat.cast_zero] at hlen
    omega
  refine ⟨hlen, hne, ?_, rfl⟩
  intro h1 h2
  unfold semaphore.notify
  rw [if_neg (not_le.mpr h1)]
  simp only
  by_cases hneg : s.m_count + 1 ≤ 0
  · rw [if_pos hneg, if_neg (not_le.mpr h2)]
    cases hq : s.m_queue with
    | nil => exact absurd hq (hne hneg)
    | cons w rest => exact ⟨_, rfl⟩
  · rw [if_neg hneg]
    exact ⟨_, rfl⟩

theorem semaphore_queue_length_witness :
    ((⟨[9], -1, 0⟩ : semaphore).m_queue.length : Int)
        = max 0 (-(⟨[9], -1, 0⟩ : semaphore).m_count) ∧
      ((⟨[9], -1, 0⟩ : semaphore).m_count + 1 ≤ 0 → (⟨[9], -1, 0⟩ : semaphore).m_queue ≠ []) ∧
      ((⟨[9], -1, 0⟩ : semaphore).m_count < SSIZE_MAX →
        (⟨[9], -1, 0⟩ : semaphore).m_wakeups < SSIZE_MAX →
        ∃ r, (⟨[9], -1, 0⟩ : semaphore).notify = some r) ∧
      semaphore.ctor_count 0 = semaphore.ctor :=
  semaphore_queue_length 2 (by decide)
    [.wait 7, .wait 8, .wait 5, .notify, .resume, .wait 9] ⟨[9], -1, 0⟩ (by decide)

/-! ## Wrap-around inside `r_val` -/

/-- The parts of `r_val` named above are the ones it computes. -/
theorem coder.r_val_parts (g : Nat) (e1 e2 e3 : uint8_t) :
    coder.r_val g e1 e2 e3 =
      if coder.r_test e1 e2 e3 then
        uadd (coder.ONE / elvis (coder.r_val_test_denom e1 e3) coder.ONE)
          (b2n (coder.ONE % elvis (coder.r_val_test_denom e1 e3) coder.ONE != 0))
      else
        uadd (coder.r_val_nom g e1 e2 e3 / elvis (coder.r_val_denom e1 e2 e3) coder.ONE)
          (b2n (coder.r_val_nom g e1 e2 e3 % elvis (coder.r_val_denom e1 e2 e3) coder.ONE != 0)) :=
  rfl

/-- C27, counterexample: for `g = 1` and the estimates `(255, 200, 200)`
`r_test` is false, and the first three terms `ONE*g - g*e2 - g*e3` of the
numerator are `255 - 200 - 200`: the second subtraction wraps around to
`2^64 - 145`. The last term brings the numerator back to `55`, and `r_val` is
`5`. -/
theorem r_val_intermediate_wraps :
    coder.r_test 255 200 200 = false ∧
    coder.r_val_nom_head 1 200 200 = 2 ^ 64 - 145 ∧
    (255 * 1 - 1 * 200 - 1 * 200 : Int) = -145 ∧
    coder.r_val_nom 1 255 200 200 = 55 ∧
    coder.r_val 1 255 200 200 = 5 := by
  refine ⟨by decide, by decide, by decide, by decide, by decide⟩

/-- C27, as the code has it: for every `g` with `g·255·255` inside the word and
all estimates, where `r_test` holds the denominator `e3 − ⌊e1·e3/255⌋` is at
least one and the machine value is that integer; otherwise the numerator
`255g − g·e2 − g·e3 + ⌊g·e1·e3/255⌋` and the denominator
`255 + ⌊⌊e1·e3·e2/255⌋/255⌋ − e2 − ⌊e1·e3/255⌋` are non-negative integers and the
machine values of `nom` and of the denominator are these integers (a
subtraction on the way to `nom` may wrap around, the sum does not); no division
is by zero, and `r_val` is the result of the integer arithmetic. -/
theorem r_val_results_do_not_wrap (g : Nat) (e1 e2 e3 : uint8_t) (hg : g * 65025 < 2 ^ 64) :
    (coder.r_test e1 e2 e3 = true →
      1 ≤ spec.r_test_denom e1.val e3.val ∧
      (coder.r_val_test_denom e1 e3 : Int) = spec.r_test_denom e1.val e3.val) ∧
    (coder.r_test e1 e2 e3 = false →
      0 ≤ spec.r_nom g e1.val e2.val e3.val ∧
      (coder.r_val_nom g e1 e2 e3 : Int) = spec.r_nom g e1.val e2.val e3.val ∧
      0 ≤ spec.r_denom e1.val e2.val e3.val ∧
      (coder.r_val_denom e1 e2 e3 : Int) = spec.r_denom e1.val e2.val e3.val) ∧
    elvis (coder.r_val_test_denom e1 e3) coder.ONE ≠ 0 ∧
    elvis (coder.r_val_denom e1 e2 e3) coder.ONE ≠ 0 ∧
    ((coder.r_val g e1 e2 e3 : Nat) : Int) = spec.r_ONE g e1.val e2.val e3.val := by
  have h1 := e1.isLt
  have h2 := e2.isLt
  have h3 := e3.isLt
  have ha : e1.val * e3.val / 255 ≤ e3.val := coder.div_255_le _ _ (by omega)
  have hd := coder.denom_nonneg e1.val e2.val e3.val (by omega) (by omega) (by omega)
  have hP : e1.val * e3.val ≤ 65025 := by nlinarith
  have hge2 : g * e2.val ≤ g * 255 := Nat.mul_le_mul_left g (by omega)
  have hge3 : g * e3.val ≤ g * 255 := Nat.mul_le_mul_left g (by omega)
  have hge1 : g * e1.val ≤ g * 255 := Nat.mul_le_mul_left g (by omega)
  have hge13 : g * e1.val * e3.val ≤ g * 65025 := by
    rw [Nat.mul_assoc]; exact Nat.mul_le_mul_left g hP
  have hq : g * (e1.val * e3.val / 255) ≤ g * (e1.val * e3.val) / 255 :=
    coder.mul_div_le_div g _ _ (Nat.div_mul_le_self _ _)
  rw [← Nat.mul_assoc] at hq
  have hq2 : g * e1.val * e3.val / 255 ≤ g * 255 := by
    apply Nat.div_le_of_le_mul
    omega
  have hA : e1.val * e3.val * e2.val / 255 / 255 ≤ 255 := by
    have : e1.val * e3.val * e2.val ≤ 65025 * 255 := Nat.mul_le_mul hP (by omega)
    omega
  have htd : coder.r_val_test_denom e1 e3 = e3.val - e1.val * e3.val / 255 := by
    unfold coder.r_val_test_denom coder.ONE
    rw [coder.usub_eq _ _ ha (by omega)]
  have hden : coder.r_val_denom e1 e2 e3
      = 255 + e1.val * e3.val * e2.val / 255 / 255 - e2.val - e1.val * e3.val / 255 := by
    unfold coder.r_val_denom coder.ONE
    rw [coder.uadd_eq 255 _ (by omega),
      coder.usub_eq (255 + e1.val * e3.val * e2.val / 255 / 255) e2.val (by omega) (by omega),
      coder.usub_eq _ _ (by omega) (by omega)]
  refine ⟨?_, ?_, ?_, ?_, ?_⟩
  · intro ht
    rw [coder.r_test_eq] at ht
    have ht2 : 255 - e2.val < e3.val - e1.val * e3.val / 255 := of_decide_eq_true ht
    rw [htd]
    unfold spec.r_test_denom
    have hc : ((e1.val : Int) * (e3.val : Int)) / 255 = ((e1.val * e3.val / 255 : Nat) : Int) := by
      push_cast
      rfl
    rw [hc]
    omega
  · intro ht
    rw [coder.r_test_eq] at ht
    have ht2 : ¬ 255 - e2.val < e3.val - e1.val * e3.val / 255 := of_decide_eq_false ht
    have hga : g * e2.val + g * e3.val ≤ g * 255 + g * (e1.val * e3.val / 255) := by
      have : e2.val + e3.val ≤ 255 + e1.val * e3.val / 255 := by omega
      calc g * e2.val + g * e3.val = g * (e2.val + e3.val) := by ring
        _ ≤ g * (255 + e1.val * e3.val / 255) := Nat.mul_le_mul_left g this
        _ = g * 255 + g * (e1.val * e3.val / 255) := by ring
    have hnom : coder.r_val_nom g e1 e2 e3
        = g * 255 + g * e1.val * e3.val / 255 - g * e2.val - g * e3.val := by
      unfold coder.r_val_nom coder.r_val_nom_head coder.ONE
      rw [coder.umul_eq 255 g (by omega), coder.umul_eq g e2.val (by omega),
        coder.umul_eq g e3.val (by omega), coder.umul_eq g e1.val (by omega),
        coder.umul_eq (g * e1.val) e3.val (by omega)]
      rw [Nat.mul_comm 255 g]
      exact coder.usub_usub_uadd _ _ _ _ hge2 (by omega) (by omega) (by omega)
    rw [hnom, hden]
    unfold spec.r_nom spec.r_denom
    have hc1 : ((g : Int) * (e1.val : Int) * (e3.val : Int)) / 255
        = ((g * e1.val * e3.val / 255 : Nat) : Int) := by
      push_cast
      rfl
    have hc2 : ((e1.val : Int) * (e3.val : Int)) / 255 = ((e1.val * e3.val / 255 : Nat) : Int) := by
      push_cast
      rfl
    have hc3 : ((e1.val : Int) * (e3.val : Int) * (e2.val : Int)) / 255 / 255
        = ((e1.val * e3.val * e2.val / 255 / 255 : Nat) : Int) := by
      push_cast
      rfl
    rw [hc1, hc2, hc3]
    have m2 : ((g * e2.val : Nat) : Int) = (g : Int) * (e2.val : Int) := by push_cast; rfl
    have m3 : ((g * e3.val : Nat) : Int) = (g : Int) * (e3.val : Int) := by push_cast; rfl
    rw [← m2, ← m3]
    refine ⟨by omega, by omega, by omega, by omega⟩
  · unfold elvis coder.ONE
    split_ifs with h
    · exact h
    · norm_num
  · unfold elvis coder.ONE
    split_ifs with h
    · exact h
    · norm_num
  · rw [coder.r_val_eq_r_nat g e1 e2 e3 hg]
    exact coder.r_nat_eq_spec g _ _ _ (by omega) (by omega) (by omega)

theorem r_val_results_do_not_wrap_witness :
    (coder.r_test 25 25 76 = true →
      1 ≤ spec.r_test_denom (25 : uint8_t).val (76 : uint8_t).val ∧
      (coder.r_val_test_denom 25 76 : Int)
        = spec.r_test_denom (25 : uint8_t).val (76 : uint8_t).val) ∧
    (coder.r_test 25 25 76 = false →
      0 ≤ spec.r_nom (64 : Nat) (25 : uint8_t).val (25 : uint8_t).val (76 : uint8_t).val ∧
      (coder.r_val_nom 64 25 25 76 : Int)
        = spec.r_nom (64 : Nat) (25 : uint8_t).val (25 : uint8_t).val (76 : uint8_t).val ∧
      0 ≤ spec.r_denom (25 : uint8_t).val (25 : uint8_t).val (76 : uint8_t).val ∧
      (coder.r_val_denom 25 25 76 : Int)
        = spec.r_denom (25 : uint8_t).val (25 : uint8_t).val (76 : uint8_t).val) ∧
    elvis (coder.r_val_test_denom 25 76) coder.ONE ≠ 0 ∧
    elvis (coder.r_val_denom 25 25 76) coder.ONE ≠ 0 ∧
    ((coder.r_val 64 25 25 76 : Nat) : Int)
      = spec.r_ONE (64 : Nat) (25 : uint8_t).val (25 : uint8_t).val (76 : uint8_t).val :=
  r_val_results_do_not_wrap 64 25 25 76 (by norm_num)

/-! ## Timeouts lead to `STATE_DONE` -/

theorem states.timeout_table_encoder :
    ∀ s : Fin encoder.STATE_NUM,
      states.dispatch_event ⟨s.val, s.val, encoder.trans_table⟩ encoder.EVENT_TIMEOUT
        = some ⟨s.val, encoder.STATE_DONE, encoder.trans_table⟩ := by
  decide

theorem states.timeout_table_decoder :
    ∀ s : Fin decoder.STATE_NUM,
      states.dispatch_event ⟨s.val, s.val, decoder.trans_table⟩ decoder.EVENT_TIMEOUT
        = some ⟨s.val, decoder.STATE_DONE, decoder.trans_table⟩ := by
  decide

theorem states.timeout_table_recoder :
    ∀ s : Fin recoder.STATE_NUM,
      states.dispatch_event ⟨s.val, s.val, recoder.trans_table⟩ recoder.EVENT_TIMEOUT
        = some ⟨s.val, recoder.STATE_DONE, recoder.trans_table⟩ := by
  decide

theorem states.timeout_table_helper :
    ∀ s : Fin helper.STATE_NUM,
      states.dispatch_event ⟨s.val, s.val, helper.trans_table⟩ helper.EVENT_TIMEOUT
        = some ⟨s.val, helper.STATE_DONE, helper.trans_table⟩ := by
  decide

/-- C28: in each of the four roles, for every state `s` of the role and no
transition pending (current and next state both `s`, the table as the
constructor of the role leaves it), `dispatch_event` with the `EVENT_TIMEOUT`
of the role returns with the next state `STATE_DONE`; once the driver has
loaded that state, `process()` of the role returns `true`, whatever the timers
say, so that the sweep of `process_coders` retires the coder. -/
theorem timeout_leads_to_done :
    (∀ (e : encoder) (s : Fin encoder.STATE_NUM), e.st = ⟨s.val, s.val, encoder.trans_table⟩ →
      ∃ e1, e.dispatch_event encoder.EVENT_TIMEOUT = some e1 ∧
        e1.st.m_next_state = encoder.STATE_DONE ∧
        ∀ a b, e1.load.process a b = some (e1.load, true)) ∧
    (∀ (overshoot : ℚ) (d : decoder) (s : Fin decoder.STATE_NUM),
      d.st = ⟨s.val, s.val, decoder.trans_table⟩ →
      ∃ d1, d.dispatch_event decoder.EVENT_TIMEOUT = some d1 ∧
        d1.st.m_next_state = decoder.STATE_DONE ∧
        ∀ a b, decoder.process overshoot { d1 with st := d1.st.thread_load } a b
          = some ({ d1 with st := d1.st.thread_load }, true)) ∧
    (∀ (r : recoder) (s : Fin recoder.STATE_NUM), r.st = ⟨s.val, s.val, recoder.trans_table⟩ →
      ∃ r1, r.dispatch_event recoder.EVENT_TIMEOUT = some r1 ∧
        r1.st.m_next_state = recoder.STATE_DONE ∧
        ∀ a, recoder.process { r1 with st := r1.st.thread_load } a
          = some ({ r1 with st := r1.st.thread_load }, true)) ∧
    (∀ (h : helper) (s : Fin helper.STATE_NUM), h.st = ⟨s.val, s.val, helper.trans_table⟩ →
      ∃ h1, helper.dispatch_event h helper.EVENT_TIMEOUT = some h1 ∧
        h1.st.m_next_state = helper.STATE_DONE ∧
        ∀ a, helper.process { h1 with st := h1.st.thread_load } a
          = some ({ h1 with st := h1.st.thread_load }, true)) ∧
    ∀ (β : Type) (m : coder_map β) (process : coder_obj β → β × Bool) (k : key) (c : coder_obj β),
      m.m_coders k = some c → (process c).2 = true →
      (coder_map.process_coders process m).m_coders k = none ∧
      (coder_map.process_coders process m).m_invalid k = true := by
  refine ⟨?_, ?_, ?_, ?_, ?_⟩
  · intro e s he
    refine ⟨{ e with st := ⟨s.val, encoder.STATE_DONE, encoder.trans_table⟩ }, ?_, rfl, ?_⟩
    · unfold encoder.dispatch_event
      rw [he, states.timeout_table_encoder s]
    · intro a b
      unfold encoder.process encoder.load encoder.curr_state states.thread_load
      simp only
      rfl
  · intro overshoot d s hd
    refine ⟨{ d with st := ⟨s.val, decoder.STATE_DONE, decoder.trans_table⟩ }, ?_, rfl, ?_⟩
    · unfold decoder.dispatch_event
      rw [hd, states.timeout_table_decoder s]
    · intro a b
      unfold decoder.process states.thread_load
      simp only
      rfl
  · intro r s hr
    refine ⟨{ r with st := ⟨s.val, recoder.STATE_DONE, recoder.trans_table⟩ }, ?_, rfl, ?_⟩
    · unfold recoder.dispatch_event
      rw [hr, states.timeout_table_recoder s]
    · intro a
      unfold recoder.process states.thread_load
      simp only
      rfl
  · intro h s hh
    refine ⟨{ h with st := ⟨s.val, helper.STATE_DONE, helper.trans_table⟩ }, ?_, rfl, ?_⟩
    · unfold helper.dispatch_event
      rw [hh, states.timeout_table_helper s]
    · intro a
      unfold helper.process states.thread_load
      simp only
      rfl
  · intro β m process k c hc hp
    unfold coder_map.process_coders
    simp only [hc, hp, if_true, and_self]

theorem timeout_leads_to_done_witness :
    ∃ e1, ({ sample_encoder with st := ⟨encoder.STATE_WAIT_ACK, encoder.STATE_WAIT_ACK,
          encoder.trans_table⟩ } : encoder).dispatch_event encoder.EVENT_TIMEOUT = some e1 ∧
      e1.st.m_next_state = encoder.STATE_DONE ∧
      ∀ a b, e1.load.process a b = some (e1.load, true) :=
  timeout_leads_to_done.1
    { sample_encoder with st := ⟨encoder.STATE_WAIT_ACK, encoder.STATE_WAIT_ACK,
        encoder.trans_table⟩ } ⟨5, by decide⟩ rfl

/-! ## The budget of the recoder -/

/-- The part of C26 that holds: when the budget after `update_budget()` is at
most zero, `send_rec_credits` dispatches `EVENT_CREDIT_SENT` and sends
nothing. -/
theorem recoder.send_rec_credits_nonpositive (r r1 : recoder) (v : Int)
    (hu : r.update_budget = some (r1, v)) (hb : r1.m_budget ≤ 0) :
    r.send_rec_credits = r1.dispatch_event recoder.EVENT_CREDIT_SENT ∧
    ∀ r2, r.send_rec_credits = some r2 → r2.sent = r.sent ∧ r2.m_budget = r1.m_budget := by
  have h1 : r.send_rec_credits = r1.dispatch_event recoder.EVENT_CREDIT_SENT := by
    unfold recoder.send_rec_credits
    rw [hu]
    simp only [if_pos hb]
  refine ⟨h1, ?_⟩
  intro r2 h2
  rw [h1] at h2
  unfold recoder.dispatch_event at h2
  have hsent : r1.sent = r.sent := by
    unfold recoder.update_budget at hu
    split_ifs at hu with hc
    · cases hu; rfl
    · cases hcr : coder.recoder_credit r.m_e1.val r.m_e2.val r.m_e3.val with
      | none => rw [hcr] at hu; cases hu
      | some credit =>
        rw [hcr] at hu
        simp only at hu
        cases hd : double_to_ssize ((r.m_budget : ℚ) + credit) with
        | none => rw [hd] at hu; cases hu
        | some b => rw [hd] at hu; cases hu; rfl
  cases hs : r1.st.dispatch_event recoder.EVENT_CREDIT_SENT with
  | none => rw [hs] at h2; cases h2
  | some st =>
    rw [hs] at h2
    cases h2
    exact ⟨hsent, rfl⟩

/-- C26, failing inputs. A recoder in `STATE_SEND_CREDIT` whose base class holds
the estimates `(25, 25, 76)` has the credit `255/248`. With `m_budget = -5` one
execution of `send_rec_credits` leaves `m_budget = -3` and two leave `-1`,
without a message, where the credit added twice gives `-5 + 255/124`. With own
estimates `e1 = 255` the budget is not changed at all. With own estimates of
zero (credit `1`) and base-class estimates `(200, 25, 200)` (credit `85/33`) one
execution from `m_budget = -5` leaves `m_budget = -2`: the credit comes from the
base-class estimates. -/
theorem recoder_budget_truncates :
    coder.recoder_credit 25 25 76 = some (255 / 248) ∧
    (recoder.send_rec_credits_times 1 { sample_recoder with m_budget := -5 }).map
      (fun r => (r.m_budget, r.sent)) = some (-3, []) ∧
    (recoder.send_rec_credits_times 2 { sample_recoder with m_budget := -5 }).map
      (fun r => (r.m_budget, r.sent)) = some (-1, []) ∧
    ((-5 : ℚ) + 2 * (255 / 248) = -5 + 255 / 124) ∧
    (recoder.send_rec_credits_times 1 { sample_recoder with m_budget := -5, e1 := 255 }).map
      (fun r => (r.m_budget, r.sent)) = some (-5, []) ∧
    coder.recoder_credit 0 0 0 = some 1 ∧
    coder.recoder_credit 200 25 200 = some (85 / 33) ∧
    (recoder.send_rec_credits_times 1
        { sample_recoder with m_budget := -5, m_e1 := 200, m_e3 := 200 }).map
      (fun r => (r.m_budget, r.sent)) = some (-2, []) := by
  refine ⟨by decide!, by decide!, by decide!, by norm_num, by decide!, by decide!, by decide!,
    by decide!⟩


/-! ## Acknowledgements and requests of the decoder -/

theorem send_acks_count (n : Nat) (b : ℚ) (out : List frame) (h : b ≤ (n : ℚ)) :
    ack_count (send_acks n b out) = ack_count out + Int.toNat ⌈b⌉ := by
  induction n generalizing b out with
  | zero =>
    simp only [Nat.cast_zero] at h
    have : ⌈b⌉ ≤ 0 := Int.ceil_le.mpr (by simpa using h)
    unfold send_acks
    omega
  | succ n ih =>
    unfold send_acks
    split_ifs with hb
    · rw [ih (b - 1) _ (by push_cast at h; linarith), ack_count_append]
      have h1 : ⌈b - 1⌉ = ⌈b⌉ - 1 := Int.ceil_sub_one b
      have h2 : 0 < ⌈b⌉ := Int.ceil_pos.mpr hb
      rw [h1]
      simp only [ack_count]
      omega
    · have : ⌈b⌉ ≤ 0 := Int.ceil_le.mpr (by push_cast; linarith)
      omega

theorem req_count_append (a b : List frame) :
    req_count (a ++ b) = req_count a + req_count b := by
  induction a with
  | nil => simp [req_count]
  | cons f fs ih => cases f <;> simp [req_count, ih, Nat.add_assoc]

theorem send_requests_count (n : Nat) (b : ℚ) (rank seq : Nat) (out : List frame)
    (h : b < (n : ℚ)) :
    req_count (send_requests n b rank seq out) = req_count out + Int.toNat (⌊b⌋ + 1) := by
  induction n generalizing b out with
  | zero =>
    simp only [Nat.cast_zero] at h
    have : ⌊b⌋ < 0 := Int.floor_lt.mpr (by simpa using h)
    unfold send_requests
    omega
  | succ n ih =>
    unfold send_requests
    split_ifs with hb
    · rw [ih (b - 1) _ (by push_cast at h; linarith), req_count_append]
      have h1 : ⌊b - 1⌋ = ⌊b⌋ - 1 := Int.floor_sub_one b
      have h2 : 0 ≤ ⌊b⌋ := Int.floor_nonneg.mpr hb
      rw [h1]
      simp only [req_count]
      omega
    · have : ⌊b⌋ < 0 := Int.floor_lt.mpr (by push_cast; linarith)
      omega

/-- The numbers of C25 in general: the loop of `send_decoded_packets` sends
`⌈b⌉` acknowledgements and the loop of a request round sends `⌊b⌋ + 1` requests,
for the budget `b = source_budget(1, 254, 254, m_e3)`; the two numbers differ
by one exactly when `b` is a whole number. -/
theorem decoder.ack_and_req_counts (overshoot : ℚ) (e3 : uint8_t) (out : List frame)
    (rank seq : Nat) :
    ack_count (send_acks (Int.toNat ⌈coder.source_budget overshoot 1 254 254 e3⌉)
        (coder.source_budget overshoot 1 254 254 e3) out)
      = ack_count out + Int.toNat ⌈coder.source_budget overshoot 1 254 254 e3⌉ ∧
    req_count (send_requests (Int.toNat ⌊coder.source_budget overshoot 1 254 254 e3⌋ + 1)
        (coder.source_budget overshoot 1 254 254 e3) rank seq out)
      = req_count out + Int.toNat (⌊coder.source_budget overshoot 1 254 254 e3⌋ + 1) := by
  generalize coder.source_budget overshoot 1 254 254 e3 = b
  refine ⟨send_acks_count _ b out ?_, send_requests_count _ b rank seq out ?_⟩
  · have h1 : b ≤ (⌈b⌉ : ℚ) := Int.le_ceil b
    have h2 : (⌈b⌉ : ℚ) ≤ ((Int.toNat ⌈b⌉ : Nat) : ℚ) := by
      have : ⌈b⌉ ≤ ((Int.toNat ⌈b⌉ : Nat) : Int) := Int.self_le_toNat _
      exact_mod_cast this
    linarith
  · have h1 : b < (⌊b⌋ : ℚ) + 1 := Int.lt_floor_add_one b
    have h2 : (⌊b⌋ : ℚ) ≤ ((Int.toNat ⌊b⌋ : Nat) : ℚ) := by
      have : ⌊b⌋ ≤ ((Int.toNat ⌊b⌋ : Nat) : Int) := Int.self_le_toNat _
      exact_mod_cast this
    push_cast
    linarith

/-- C25, failing input: with the overshoot `1` and `m_e3 = 254` the budget
`source_budget(1, 254, 254, m_e3)` is `1`; the handler `send_decoded_packets`
sends one acknowledgement, and one request round of `process()` sends two
requests. -/
theorem req_round_exceeds_acks :
    coder.source_budget 1 1 254 254 254 = 1 ∧
    (decoder.send_decoded_packets 1
        { sample_decoder.init with
          m_e3 := 254
          st := ⟨decoder.STATE_WRITE_DEC, decoder.STATE_WRITE_DEC, decoder.trans_table⟩ }).map
      (fun d => ack_count d.sent) = some 1 ∧
    (decoder.process 1
        { sample_decoder.init with
          m_e3 := 254
          st := ⟨decoder.STATE_WAIT, decoder.STATE_WAIT, decoder.trans_table⟩ } false true).map
      (fun r => (req_count r.1.sent, r.1.m_req_seq, r.2)) = some (2, 2, false) := by
  refine ⟨by decide!, by decide!, by decide!⟩


/-! ## Acknowledgements through `handle_packet` -/

theorem coder_map.store_same_keys {β : Type} (m : coder_map β) (k : key) (c : coder_obj β)
    (x : β) (h : coder_map.search_coder m k = some c) :
    coder_map.same_keys m (coder_map.store m c x) := by
  have hm : m.m_coders k = some c := by
    unfold coder_map.search_coder at h
    cases hc : m.m_coders k with
    | none => rw [hc] at h; cases h
    | some c1 =>
      rw [hc] at h
      simp only at h
      split_ifs at h
      cases h
      rfl
  have hk : c._key = k := by
    unfold coder_map.search_coder at h
    rw [hm] at h
    simp only at h
    split_ifs at h with hkk
    exact hkk
  subst hk
  refine ⟨?_, rfl, rfl⟩
  intro k1
  unfold coder_map.store
  simp only
  by_cases hk1 : k1 = c._key
  · rw [hk1, Function.update_same, hm]
    rfl
  · rw [Function.update_noteq hk1]

theorem coder_map.same_keys_refl {β : Type} (m : coder_map β) : coder_map.same_keys m m :=
  ⟨fun _ => rfl, rfl, rfl⟩

/-- C22: when `handle_packet` returns for an acknowledgement with key `k`, the
decoder map is as before and plays no part in the result; `add_ack_packet` has
been called on exactly one coder, the one that `find_coder(k)` finds in the
encoder map, else the one it finds in the recoder map, else the one it finds in
the helper map, and the other maps are as before; with no such coder all four
maps are as before. In every case each map has the same live keys with coders
of the same keys, the same block map and the same retired set as before. -/
theorem ack_delivered_to_first_live_coder (ms ms1 : role_maps) (k : key)
    (h : handle_ack_packet ms k = some ms1) :
    ms1.dec_map = ms.dec_map ∧
    (∀ dm, handle_ack_packet { ms with dec_map := dm } k = some { ms1 with dec_map := dm }) ∧
    (∀ e, coder_map.search_coder ms.enc_map k = some e →
      ∃ e1, e.role.add_ack_packet = some e1 ∧
        ms1 = { ms with enc_map := coder_map.store ms.enc_map e e1 }) ∧
    (coder_map.search_coder ms.enc_map k = none →
      ∀ r, coder_map.search_coder ms.rec_map k = some r →
        ∃ r1, r.role.add_ack_packet = some r1 ∧
          ms1 = { ms with rec_map := coder_map.store ms.rec_map r r1 }) ∧
    (coder_map.search_coder ms.enc_map k = none →
      coder_map.search_coder ms.rec_map k = none →
      ∀ c, coder_map.search_coder ms.hlp_map k = some c →
        ∃ c1, c.role.add_ack_packet = some c1 ∧
          ms1 = { ms with hlp_map := coder_map.store ms.hlp_map c c1 }) ∧
    (coder_map.search_coder ms.enc_map k = none →
      coder_map.search_coder ms.rec_map k = none →
      coder_map.search_coder ms.hlp_map k = none → ms1 = ms) ∧
    coder_map.same_keys ms.enc_map ms1.enc_map ∧ coder_map.same_keys ms.dec_map ms1.dec_map ∧
    coder_map.same_keys ms.rec_map ms1.rec_map ∧ coder_map.same_keys ms.hlp_map ms1.hlp_map := by
  unfold handle_ack_packet at h
  simp only [coder_map.find_coder] at h
  cases he : coder_map.search_coder ms.enc_map k with
  | some e =>
    rw [he] at h
    simp only at h
    cases ha : e.role.add_ack_packet with
    | none => rw [ha] at h; cases h
    | some e1 =>
      rw [ha] at h
      cases h
      refine ⟨rfl, ?_, ?_, ?_, ?_, ?_, coder_map.store_same_keys _ k e e1 he,
        coder_map.same_keys_refl _, coder_map.same_keys_refl _, coder_map.same_keys_refl _⟩
      · intro dm
        unfold handle_ack_packet
        simp only [coder_map.find_coder, he, ha]
      · intro e2 h2
        cases h2
        exact ⟨e1, ha, rfl⟩
      · intro h2
        cases h2
      · intro h2
        cases h2
      · intro h2
        cases h2
  | none =>
    rw [he] at h
    simp only at h
    cases hr : coder_map.search_coder ms.rec_map k with
    | some r =>
      rw [hr] at h
      simp only at h
      cases ha : r.role.add_ack_packet with
      | none => rw [ha] at h; cases h
      | some r1 =>
        rw [ha] at h
        cases h
        refine ⟨rfl, ?_, ?_, ?_, ?_, ?_, coder_map.same_keys_refl _, coder_map.same_keys_refl _,
          coder_map.store_same_keys _ k r r1 hr, coder_map.same_keys_refl _⟩
        · intro dm
          unfold handle_ack_packet
          simp only [coder_map.find_coder, he, hr, ha]
        · intro e2 h2
          cases h2
        · intro _ r2 h2
          cases h2
          exact ⟨r1, ha, rfl⟩
        · intro _ h2
          cases h2
        · intro _ h2
          cases h2
    | none =>
      rw [hr] at h
      simp only at h
      cases hh : coder_map.search_coder ms.hlp_map k with
      | some c =>
        rw [hh] at h
        simp only at h
        cases ha : c.role.add_ack_packet with
        | none => rw [ha] at h; cases h
        | some c1 =>
          rw [ha] at h
          cases h
          refine ⟨rfl, ?_, ?_, ?_, ?_, ?_, coder_map.same_keys_refl _,
            coder_map.same_keys_refl _, coder_map.same_keys_refl _,
            coder_map.store_same_keys _ k c c1 hh⟩
          · intro dm
            unfold handle_ack_packet
            simp only [coder_map.find_coder, he, hr, hh, ha]
          · intro e2 h2
            cases h2
          · intro _ r2 h2
            cases h2
          · intro _ _ c2 h2
            cases h2
            exact ⟨c1, ha, rfl⟩
          · intro _ _ h2
            cases h2
      | none =>
        rw [hh] at h
        cases h
        refine ⟨rfl, ?_, ?_, ?_, ?_, ?_, coder_map.same_keys_refl _, coder_map.same_keys_refl _,
          coder_map.same_keys_refl _, coder_map.same_keys_refl _⟩
        · intro dm
          unfold handle_ack_packet
          simp only [coder_map.find_coder, he, hr, hh]
        · intro e2 h2
          cases h2
        · intro _ r2 h2
          cases h2
        · intro _ _ c2 h2
          cases h2
        · intro _ _ _
          rfl


theorem ack_delivered_to_first_live_coder_witness :
    ∃ ms1, handle_ack_packet sample_maps (sample_key 1) = some ms1 ∧
      ms1.dec_map = sample_maps.dec_map ∧ ms1.rec_map = sample_maps.rec_map ∧
      ms1.hlp_map = sample_maps.hlp_map ∧
      coder_map.same_keys sample_maps.enc_map ms1.enc_map := by
  have h : (handle_ack_packet sample_maps (sample_key 1)).isSome = true := by decide
  obtain ⟨ms1, h1⟩ := Option.isSome_iff_exists.mp h
  have hall := ack_delivered_to_first_live_coder sample_maps ms1 (sample_key 1) h1
  obtain ⟨e1, _, he1⟩ := hall.2.2.1 { _key := sample_key 1, role := sample_encoder } (by rfl)
  refine ⟨ms1, h1, hall.1, ?_, ?_, hall.2.2.2.2.2.2.1⟩
  · rw [he1]
  · rw [he1]


/-! ## `process()` of the encoder -/

theorem encoder.trans_table_total :
    ∀ (s : Fin encoder.STATE_NUM) (ev : Fin encoder.EVENT_NUM),
      (states.trans encoder.trans_table s.val ev.val).isSome = true := by
  decide

/-- With the table of the constructor and a current state of the encoder,
`process()` returns. -/
theorem encoder.process_some (e : encoder) (s : Fin encoder.STATE_NUM) (n : Nat)
    (he : e.st = ⟨s.val, n, encoder.trans_table⟩) (a b : Bool) :
    ∃ r, e.process a b = some r := by
  unfold encoder.process
  split_ifs
  · exact ⟨_, rfl⟩
  · exact ⟨_, rfl⟩
  · exact ⟨_, rfl⟩
  · have hd : ∃ e1, e.dispatch_event encoder.EVENT_TIMEOUT = some e1 := by
      unfold encoder.dispatch_event states.dispatch_event
      rw [he]
      simp only
      split_ifs
      · exact ⟨_, rfl⟩
      · have ht := encoder.trans_table_total s ⟨4, by decide⟩
        obtain ⟨c, hc⟩ := Option.isSome_iff_exists.mp ht
        simp only at hc
        have hc2 : states.trans encoder.trans_table s.val encoder.EVENT_TIMEOUT = some c := hc
        rw [hc2]
        simp only
        split_ifs
        · exact ⟨_, rfl⟩
        · exact ⟨_, rfl⟩
    obtain ⟨e1, h1⟩ := hd
    rw [h1]
    exact ⟨_, rfl⟩
  · exact ⟨_, rfl⟩

/-- C24: for an encoder that has been idle for `idle` seconds, with
`FLAGS_encoder_timeout` as `t`, when `process()` returns: it returns `true`
exactly when the current state is `STATE_DONE`, or is `STATE_FULL` with
`idle > t*5` (then after `enc_notify()`). When the state is neither
`STATE_FULL` nor `STATE_DONE` and `idle > t`, the encoder is the result of
`dispatch_event(EVENT_TIMEOUT)`, followed by `enc_notify()` exactly when
`m_plain_pkt_count == symbols()`; in every other case the state engine is as
before, nothing is dispatched, and apart from the `enc_notify()` of the blocked
time-out the encoder is unchanged. With the table of the constructor
`process()` does return. -/
theorem encoder_process_spec (e : encoder) (idle t : ℚ) (r : encoder × Bool)
    (h : e.process (check_timeout idle (t * 5)) (check_timeout idle t) = some r) :
    (r.2 = true ↔
      (e.curr_state = encoder.STATE_DONE ∨ (e.curr_state = encoder.STATE_FULL ∧ idle > t * 5))) ∧
    (e.curr_state = encoder.STATE_FULL → idle > t * 5 → r.1 = e.enc_notify) ∧
    (e.curr_state = encoder.STATE_FULL → ¬ idle > t * 5 → r.1 = e) ∧
    (e.curr_state = encoder.STATE_DONE → r.1 = e) ∧
    (e.curr_state ≠ encoder.STATE_FULL → e.curr_state ≠ encoder.STATE_DONE → idle > t →
      ∃ e1, e.dispatch_event encoder.EVENT_TIMEOUT = some e1 ∧
        r.1 = (if e.m_plain_pkt_count = e.symbols then e1.enc_notify else e1) ∧
        (r.1.sem_notifies = e.sem_notifies + 1 ↔ e.m_plain_pkt_count = e.symbols)) ∧
    (e.curr_state ≠ encoder.STATE_FULL → e.curr_state ≠ encoder.STATE_DONE → ¬ idle > t →
      r.1 = e) ∧
    (∀ s : Fin encoder.STATE_NUM, ∀ n, e.st = ⟨s.val, n, encoder.trans_table⟩ →
      ∀ a b, ∃ r1, e.process a b = some r1) := by
  have hFD : encoder.STATE_FULL ≠ encoder.STATE_DONE := by decide
  have hDF : ¬ encoder.STATE_DONE = encoder.STATE_FULL := by decide
  unfold encoder.process check_timeout at h
  refine ⟨?_, ?_, ?_, ?_, ?_, ?_, fun s n he a b => encoder.process_some e s n he a b⟩
  · by_cases hf : e.curr_state = encoder.STATE_FULL
    · by_cases hi : idle > t * 5
      · simp only [hf, hi, decide_True, if_true, Option.some.injEq] at h
        subst h
        simp [hf, hi]
      · simp only [hf, hi, decide_False, if_true, Bool.false_eq_true, if_false,
          Option.some.injEq] at h
        subst h
        simp [hf, hi, hFD]
    · by_cases hd : e.curr_state = encoder.STATE_DONE
      · simp only [hd, hDF, if_false, if_true, Option.some.injEq] at h
        subst h
        simp [hd]
      · by_cases hi : idle > t
        · simp only [hf, hd, hi, if_false, decide_True, if_true] at h
          cases hdis : e.dispatch_event encoder.EVENT_TIMEOUT with
          | none => rw [hdis] at h; cases h
          | some e1 =>
            rw [hdis] at h
            simp only [Option.some.injEq] at h
            subst h
            simp [hf, hd]
        · simp only [hf, hd, hi, if_false, decide_False, Bool.false_eq_true,
            Option.some.injEq] at h
          subst h
          simp [hf, hd]
  · intro hf hi
    simp only [hf, hi, decide_True, if_true, Option.some.injEq] at h
    subst h
    rfl
  · intro hf hi
    simp only [hf, hi, decide_False, if_true, Bool.false_eq_true, if_false,
      Option.some.injEq] at h
    subst h
    rfl
  · intro hd
    have hf : e.curr_state ≠ encoder.STATE_FULL := by
      rw [hd]
      exact fun hc => hFD hc.symm
    simp only [hd, hDF, if_false, if_true, Option.some.injEq] at h
    subst h
    rfl
  · intro hf hd hi
    simp only [hf, hd, hi, if_false, decide_True, if_true] at h
    cases hdis : e.dispatch_event encoder.EVENT_TIMEOUT with
    | none => rw [hdis] at h; cases h
    | some e1 =>
      rw [hdis] at h
      simp only [Option.some.injEq] at h
      subst h
      obtain ⟨⟨k1, _, k3, _⟩, _, _⟩ := encoder.dispatch_event_keeps e e1 _ hdis
      have hst := encoder.dispatch_event_eq e e1 _ hdis
      refine ⟨e1, rfl, ?_, ?_⟩
      · simp only [k1, k3]
      · simp only [k1, k3]
        have hsn : e1.sem_notifies = e.sem_notifies := by rw [hst]
        by_cases hp : e.m_plain_pkt_count = e.symbols
        · simp only [hp, if_true, iff_true]
          unfold encoder.enc_notify encoder.block_packets
          simp only [hsn]
        · simp only [hp, if_false, iff_false, hsn]
          omega
  · intro hf hd hi
    simp only [hf, hd, hi, if_false, decide_False, Bool.false_eq_true, Option.some.injEq] at h
    subst h
    rfl

theorem encoder_process_spec_witness :
    ∃ r, ({ sample_encoder with st := ⟨encoder.STATE_WAIT_ACK, encoder.STATE_WAIT_ACK,
          encoder.trans_table⟩ } : encoder).process
        (check_timeout 3 (1 * 5)) (check_timeout 3 1) = some r ∧
      (r.2 = true ↔
        (({ sample_encoder with st := ⟨encoder.STATE_WAIT_ACK, encoder.STATE_WAIT_ACK,
            encoder.trans_table⟩ } : encoder).curr_state = encoder.STATE_DONE ∨
          (({ sample_encoder with st := ⟨encoder.STATE_WAIT_ACK, encoder.STATE_WAIT_ACK,
            encoder.trans_table⟩ } : encoder).curr_state = encoder.STATE_FULL ∧
            (3 : ℚ) > 1 * 5))) := by
  have h : (({ sample_encoder with st := ⟨encoder.STATE_WAIT_ACK, encoder.STATE_WAIT_ACK,
      encoder.trans_table⟩ } : encoder).process
      (check_timeout 3 (1 * 5)) (check_timeout 3 1)).isSome = true := by decide!
  obtain ⟨r, h1⟩ := Option.isSome_iff_exists.mp h
  exact ⟨r, h1, (encoder_process_spec _ 3 1 r h1).1⟩


/-! ## The length check of `send_decoded_packet` -/

/-- The bound that `send_decoded_packet` does enforce: for an index whose sent
bit is clear it fails exactly when the length in the slot exceeds
`RLNC_MAX_PAYLOAD`, and otherwise sends that many bytes from behind the length
field, whatever the symbol size. -/
theorem decoder.send_decoded_packet_bound (d : decoder) (i : Nat)
    (hb : d.m_decoded_symbols[i]? = some false) :
    (d.send_decoded_packet i = none ↔
      load_u16 d.rlnc_symbols (i * d.symbol_size) > RLNC_MAX_PAYLOAD) ∧
    (load_u16 d.rlnc_symbols (i * d.symbol_size) ≤ RLNC_MAX_PAYLOAD →
      d.send_decoded_packet i =
        some { d with
          sent := d.sent ++ [frame.dec i (mem_read d.rlnc_symbols (i * d.symbol_size + LEN_SIZE)
            (load_u16 d.rlnc_symbols (i * d.symbol_size)))]
          m_decoded_symbols := d.m_decoded_symbols.set i true }) := by
  unfold decoder.send_decoded_packet
  rw [hb]
  simp only
  by_cases hl : load_u16 d.rlnc_symbols (i * d.symbol_size) > RLNC_MAX_PAYLOAD
  · rw [if_pos hl]
    exact ⟨⟨fun _ => hl, fun _ => rfl⟩, fun h => absurd hl (by omega)⟩
  · rw [if_neg hl]
    refine ⟨?_, fun _ => rfl⟩
    constructor
    · intro h
      cases h
    · intro h
      exact absurd h hl

/-- C23, failing input: a decoder of 64 symbols of 1454 bytes whose last slot
starts with the length 1500. The length exceeds `symbol_size - 2 = 1452`, and
`send_decoded_packet(63)` sends a decoded frame of 1500 bytes all the same: the
bytes from `63*1454 + 2` up to `63*1454 + 1502`, past the end `64*1454` of the
symbol block. -/
theorem send_decoded_packet_reads_past_slot :
    sample_decoder_long.symbols + sample_decoder_long.symbol_size ≤ RLNC_MAX_PAYLOAD ∧
    load_u16 sample_decoder_long.rlnc_symbols (63 * sample_decoder_long.symbol_size) = 1500 ∧
    sample_decoder_long.symbol_size - LEN_SIZE = 1452 ∧
    (sample_decoder_long.send_decoded_packet 63).map (fun d => d.sent.map dec_frame_size)
      = some [some (63, 1500)] ∧
    64 * 1454 < 63 * 1454 + LEN_SIZE + 1500 := by
  refine ⟨by decide, by decide, by decide, by decide!, by decide⟩

/-! ## Block rollover -/

theorem states.dispatch_event_table (s s1 : states) (event : Nat)
    (h : s.dispatch_event event = some s1) : s1.m_trans_table = s.m_trans_table := by
  unfold states.dispatch_event at h
  split_ifs at h with h1
  · cases h; rfl
  · cases ht : states.trans s.m_trans_table s.m_curr_state event with
    | none => rw [ht] at h; cases h
    | some n =>
      rw [ht] at h
      simp only at h
      split_ifs at h <;> cases h <;> rfl

theorem encoder.send_encoded_credit_loop_config (n : Nat) (e : encoder) :
    (encoder.send_encoded_credit_loop n e).m_e1 = e.m_e1 ∧
    (encoder.send_encoded_credit_loop n e).m_e2 = e.m_e2 ∧
    (encoder.send_encoded_credit_loop n e).m_e3 = e.m_e3 := by
  induction n generalizing e with
  | zero => exact ⟨rfl, rfl, rfl⟩
  | succ n ih =>
    unfold encoder.send_encoded_credit_loop
    split_ifs with hg
    · exact ih (e.send_encoded_packet e.m_type)
    · exact ⟨rfl, rfl, rfl⟩

/-- On an encoder like a new one that is not full, `add_plain_packet` with a
packet that fits returns, and the encoder is still like a new one. -/
theorem encoder.add_plain_packet_like (threshold : ℚ) (fresh e : encoder)
    (data : List uint8_t) (rank : Nat) (semaphore_count : Int)
    (hl : encoder.like fresh e)
    (hss : LEN_SIZE ≤ fresh.symbol_size)
    (hmax : fresh.symbols + fresh.symbol_size ≤ RLNC_MAX_PAYLOAD)
    (hc : coder.recoder_credit fresh.m_e1.val fresh.m_e2.val fresh.m_e3.val ≠ none)
    (hlen : data.length ≤ fresh.symbol_size - LEN_SIZE)
    (hcnt : e.m_plain_pkt_count < fresh.symbols) :
    ∃ e1, e.add_plain_packet threshold data rank semaphore_count = some e1 ∧
      encoder.like fresh e1 := by
  obtain ⟨l1, l2, l3, l4, l5, l6, l7⟩ := hl
  have hL : LEN_SIZE = 2 := rfl
  have hR : RLNC_MAX_PAYLOAD = 1518 := rfl
  have hu : usub e.symbol_size LEN_SIZE = e.symbol_size - 2 := by
    unfold usub SIZE_MOD
    rw [hL]
    omega
  unfold encoder.add_plain_packet
  simp only
  rw [if_neg (by omega), if_neg (by rw [hu]; omega),
    if_neg (by unfold encoder.curr_state; rw [l1]; exact fun h => h rfl),
    if_neg (by omega)]
  split_ifs with h1 h2
  · -- full: dispatch_event(EVENT_FULL)
    unfold encoder.dispatch_event
    simp only
    have hd : ∃ st, e.st.dispatch_event encoder.EVENT_FULL = some st := by
      unfold states.dispatch_event
      split_ifs
      · exact ⟨_, rfl⟩
      · have ht := encoder.trans_table_total ⟨1, by decide⟩ ⟨0, by decide⟩
        obtain ⟨c, hc2⟩ := Option.isSome_iff_exists.mp ht
        have hc3 : states.trans e.st.m_trans_table e.st.m_curr_state encoder.EVENT_FULL
            = some c := by
          rw [l1, l2]
          exact hc2
        rw [hc3]
        simp only
        split_ifs
        · exact ⟨_, rfl⟩
        · exact ⟨_, rfl⟩
    obtain ⟨st, hst⟩ := hd
    rw [hst]
    refine ⟨_, rfl, ?_⟩
    exact ⟨(states.dispatch_event_curr e.st st _ hst).trans l1,
      (states.dispatch_event_table e.st st _ hst).trans l2, l3, l4, l5, l6, l7⟩
  · -- credit
    cases hcr : coder.recoder_credit e.m_e1.val e.m_e2.val e.m_e3.val with
    | none =>
      rw [l5, l6, l7] at hcr
      exact absurd hcr hc
    | some credit =>
      simp only
      refine ⟨_, rfl, ?_⟩
      unfold encoder.send_encoded_credit
      obtain ⟨_, _, k3, _, k5, k6⟩ := encoder.send_encoded_credit_loop_kept
        (Int.toNat ⌊e.m_budget + credit⌋)
        { e with
          m_symbol_storage :=
            mem_write (mem_write e.m_symbol_storage (e.m_plain_pkt_count * e.symbol_size)
              (store_u16 data.length)) (e.m_plain_pkt_count * e.symbol_size + LEN_SIZE) data
          m_plain_pkt_count := uadd e.m_plain_pkt_count 1
          m_budget := e.m_budget + credit }
      obtain ⟨c1, c2, c3⟩ := encoder.send_encoded_credit_loop_config
        (Int.toNat ⌊e.m_budget + credit⌋)
        { e with
          m_symbol_storage :=
            mem_write (mem_write e.m_symbol_storage (e.m_plain_pkt_count * e.symbol_size)
              (store_u16 data.length)) (e.m_plain_pkt_count * e.symbol_size + LEN_SIZE) data
          m_plain_pkt_count := uadd e.m_plain_pkt_count 1
          m_budget := e.m_budget + credit }
      refine ⟨?_, ?_, k3.trans l3, k5.trans l4, c1.trans l5, c2.trans l6, c3.trans l7⟩
      · rw [k6]; exact l1
      · rw [k6]; exact l2
  · exact ⟨_, rfl, l1, l2, l3, l4, l5, l6, l7⟩


theorem encoder_map.block_arith_same (B g cnt : Nat) (h : cnt < g) :
    ((B - 1) * g + cnt) / g = B - 1 ∧ ((B - 1) * g + cnt) % g = cnt := by
  have hg : 0 < g := by omega
  refine ⟨?_, ?_⟩
  · rw [Nat.add_comm, Nat.add_mul_div_right _ _ hg, Nat.div_eq_of_lt h, Nat.zero_add]
  · rw [Nat.add_comm, Nat.add_mul_mod_self_right, Nat.mod_eq_of_lt h]

theorem encoder_map.block_arith_next (B g : Nat) (hB : 1 ≤ B) (hg : 1 ≤ g) :
    (B - 1) * g + g = B * g ∧ (B * g) / g = B ∧ (B * g) % g = 0 ∧ B ≤ B * g ∧
    ∀ i, i < B * g → i / g < B := by
  refine ⟨?_, Nat.mul_div_cancel _ (by omega), Nat.mul_mod_left _ _,
    Nat.le_mul_of_pos_right _ (by omega), ?_⟩
  · have : B = (B - 1) + 1 := by omega
    nth_rewrite 2 [this]
    rw [Nat.add_mul, Nat.one_mul]
  · intro i hi
    apply Nat.div_lt_of_lt_mul
    rw [Nat.mul_comm]
    exact hi

/-- What one more slot written does to the slots below it. -/
theorem encoder.add_plain_packet_keeps_slots (threshold : ℚ) (e e1 : encoder)
    (data : List uint8_t) (rank : Nat) (semaphore_count : Int)
    (hw : e.curr_state = encoder.STATE_WAIT)
    (h : e.add_plain_packet threshold data rank semaphore_count = some e1)
    (j : Nat) (old : List uint8_t) (hj : j < e.m_plain_pkt_count)
    (hlen : old.length + LEN_SIZE ≤ e.symbol_size)
    (hs : slot_holds e.m_symbol_storage e.symbol_size j old) :
    slot_holds e1.m_symbol_storage e.symbol_size j old := by
  obtain ⟨_, _, _, s4, _, _, _, _⟩ :=
    encoder.add_plain_packet_slot threshold e e1 data rank semaphore_count hw h
  apply slot_holds_congr _ _ _ _ _ hlen _ hs
  intro a ha
  have hle : j * e.symbol_size + e.symbol_size ≤ e.m_plain_pkt_count * e.symbol_size := by
    have := Nat.mul_le_mul_right e.symbol_size (Nat.succ_le_of_lt hj)
    rw [Nat.succ_mul] at this
    exact this
  rw [s4, mem_write_outside _ _ _ _ (Or.inl (by omega)),
    mem_write_outside _ _ _ _ (Or.inl (by omega))]


theorem encoder_map.handle_plain_found (overshoot threshold : ℚ) (fresh : encoder)
    (m : coder_map encoder) (src dst : eth_addr) (B : Nat) (c : coder_obj encoder)
    (data : List uint8_t) (rank : Nat) (semaphore_count : Int)
    (hb : m.m_blocks ⟨src, dst, 0⟩ = some B) (hc : m.m_coders ⟨src, dst, B⟩ = some c)
    (hk : c._key = ⟨src, dst, B⟩) (hv : encoder.is_valid c.role = true) :
    encoder_map.handle_plain overshoot threshold fresh m ⟨src, dst, 0⟩ data rank semaphore_count
      = (c.role.add_plain_packet threshold data rank semaphore_count).map
          (fun e1 => encoder_map.store m c e1) := by
  have hs : coder_map.search_coder m
      { (⟨src, dst, 0⟩ : key) with block := (m.m_blocks ⟨src, dst, 0⟩).getD 0 } = some c := by
    rw [hb]
    unfold coder_map.search_coder
    simp only [Option.getD_some, hc, hk, if_true]
  have hg : (coder_map.get_block m ⟨src, dst, 0⟩).2 = m := by
    unfold coder_map.get_block
    rw [hb]
  unfold encoder_map.handle_plain
  simp only
  rw [coder_map.get_latest_coder_found _ _ m ⟨src, dst, 0⟩ c hs hv, hg]
  simp only
  cases c.role.add_plain_packet threshold data rank semaphore_count <;> rfl

theorem encoder_map.handle_plain_created (overshoot threshold : ℚ) (fresh : encoder)
    (m : coder_map encoder) (src dst : eth_addr) (L : Nat)
    (data : List uint8_t) (rank : Nat) (semaphore_count : Int)
    (hb : (m.m_blocks ⟨src, dst, 0⟩).getD 0 = L)
    (hs : ∀ c, m.m_coders ⟨src, dst, L⟩ = some c → encoder.is_valid c.role = false) :
    encoder_map.handle_plain overshoot threshold fresh m ⟨src, dst, 0⟩ data rank semaphore_count
      = ((fresh.init overshoot).add_plain_packet threshold data rank semaphore_count).map
          (fun e1 =>
            ({ m_coders := Function.update m.m_coders ⟨src, dst, uadd L 1⟩
                (some { _key := ⟨src, dst, uadd L 1⟩, role := e1 })
               m_blocks := Function.update (coder_map.get_block m ⟨src, dst, 0⟩).2.m_blocks
                ⟨src, dst, 0⟩ (some (uadd L 1))
               m_invalid := m.m_invalid } : coder_map encoder)) := by
  have hs2 : ∀ c, coder_map.search_coder m
      { (⟨src, dst, 0⟩ : key) with block := (m.m_blocks ⟨src, dst, 0⟩).getD 0 } = some c →
      encoder.is_valid c.role = false := by
    intro c hc
    rw [hb] at hc
    exact hs c (coder_map.search_coder_some m _ c hc)
  unfold encoder_map.handle_plain
  simp only
  rw [coder_map.get_latest_coder_created _ _ m ⟨src, dst, 0⟩ hs2, hb]
  simp only [encoder_map.build]
  cases (fresh.init overshoot).add_plain_packet threshold data rank semaphore_count with
  | none => rfl
  | some e1 =>
    simp only [Option.map_some', encoder_map.store, Function.update_idem]


theorem encoder_map.rolled_created (overshoot threshold : ℚ) (fresh : encoder)
    (src dst : eth_addr) (m : coder_map encoder) (fs : List (List uint8_t × Nat × Int))
    (p : List uint8_t × Nat × Int) (L : Nat)
    (hf1 : fresh.st.m_curr_state = encoder.STATE_WAIT)
    (hf2 : fresh.st.m_trans_table = encoder.trans_table)
    (hg : 1 ≤ fresh.symbols) (hss : LEN_SIZE ≤ fresh.symbol_size)
    (hmax : fresh.symbols + fresh.symbol_size ≤ RLNC_MAX_PAYLOAD)
    (hc : coder.recoder_credit fresh.m_e1.val fresh.m_e2.val fresh.m_e3.val ≠ none)
    (hp : p.1.length ≤ fresh.symbol_size - LEN_SIZE)
    (hL : L + 1 < SIZE_MOD)
    (hb : (m.m_blocks ⟨src, dst, 0⟩).getD 0 = L)
    (hs : ∀ c, m.m_coders ⟨src, dst, L⟩ = some c → encoder.is_valid c.role = false)
    (hlen : fs.length = L * fresh.symbols)
    (hinv : encoder_map.rolled fresh src dst m fs) :
    ∃ m1, encoder_map.handle_plain overshoot threshold fresh m ⟨src, dst, 0⟩ p.1 p.2.1 p.2.2
        = some m1 ∧
      encoder_map.rolled fresh src dst m1 (fs ++ [p]) := by
  have hl : LEN_SIZE = 2 := rfl
  have hlike : encoder.like fresh (fresh.init overshoot) := ⟨hf1, hf2, rfl, rfl, rfl, rfl, rfl⟩
  obtain ⟨e1, he1, hlike1⟩ := encoder.add_plain_packet_like threshold fresh (fresh.init overshoot)
    p.1 p.2.1 p.2.2 hlike hss hmax hc hp (by show 0 < fresh.symbols; omega)
  obtain ⟨s1, _, _, s4, s5, _, _, _⟩ := encoder.add_plain_packet_slot threshold
    (fresh.init overshoot) e1 p.1 p.2.1 p.2.2 hf1 he1
  have hcnt : e1.m_plain_pkt_count = 1 := by
    rw [s5]
    show uadd 0 1 = 1
    decide
  have hslot : slot_holds e1.m_symbol_storage fresh.symbol_size 0 p.1 := by
    rw [s4]
    have := slot_holds_write (fresh.init overshoot).m_symbol_storage fresh.symbol_size 0 p.1 s1
    exact this
  have hu : uadd L 1 = L + 1 := by
    unfold uadd
    exact Nat.mod_eq_of_lt hL
  rw [encoder_map.handle_plain_created overshoot threshold fresh m src dst L p.1 p.2.1 p.2.2 hb hs,
    he1, hu]
  refine ⟨_, rfl, ?_, ?_⟩
  · right
    refine ⟨L + 1, 1, { _key := ⟨src, dst, L + 1⟩, role := e1 }, by omega, le_refl _, hg, ?_,
      ?_, ?_, rfl, hcnt, hlike1⟩
    · rw [List.length_append, hlen]
      simp
    · simp only [Function.update_same]
    · simp only [Function.update_same]
  · intro i hi
    have hi1 : i < fs.length + 1 := by
      rw [List.length_append, List.length_singleton] at hi
      exact hi
    rcases Nat.lt_or_ge i fs.length with hlt | hge
    · obtain ⟨c, c1, c2, c3, c4, c5, c6, c7⟩ := hinv.2 i hlt
      have hdiv : i / fresh.symbols < L := by
        apply Nat.div_lt_of_lt_mul
        rw [Nat.mul_comm, ← hlen]
        exact hlt
      have hne : (⟨src, dst, 1 + i / fresh.symbols⟩ : key) ≠ ⟨src, dst, L + 1⟩ := by
        intro h
        injection h with _ _ h3
        omega
      have hmul : i / fresh.symbols * fresh.symbols + fresh.symbols ≤ L * fresh.symbols := by
        have := Nat.mul_le_mul_right fresh.symbols (Nat.succ_le_of_lt hdiv)
        rw [Nat.succ_mul] at this
        exact this
      refine ⟨c, ?_, c2, ?_, ?_, c5, c6, ?_⟩
      · simp only [Function.update_noteq hne]
        exact c1
      · simp only [List.get_eq_getElem, List.getElem_append_left hlt] at c3 ⊢
        exact c3
      · simp only [List.get_eq_getElem, List.getElem_append_left hlt] at c4 ⊢
        exact c4
      · rw [c7, List.length_append, List.length_singleton]
        omega
    · have hi2 : i = fs.length := by omega
      subst hi2
      have hd : fs.length / fresh.symbols = L := by
        rw [hlen]
        exact Nat.mul_div_cancel _ (by omega)
      have hm : fs.length % fresh.symbols = 0 := by
        rw [hlen]
        exact Nat.mul_mod_left _ _
      have hkey : (⟨src, dst, 1 + fs.length / fresh.symbols⟩ : key) = ⟨src, dst, L + 1⟩ := by
        rw [hd, Nat.add_comm]
      have hget : (fs ++ [p]).get ⟨fs.length, hi⟩ = p := by
        simp
      rw [hkey, hm, hget, hd]
      refine ⟨{ _key := ⟨src, dst, L + 1⟩, role := e1 }, ?_, rfl, by omega, hslot, ?_, ?_, ?_⟩
      · simp only [Function.update_same]
      · show 0 < e1.m_plain_pkt_count
        omega
      · show e1.m_plain_pkt_count ≤ fresh.symbols
        omega
      · show e1.m_plain_pkt_count = _
        rw [hcnt, List.length_append, List.length_singleton, hlen]
        omega

theorem encoder_map.rolled_found (overshoot threshold : ℚ) (fresh : encoder)
    (src dst : eth_addr) (m : coder_map encoder) (fs : List (List uint8_t × Nat × Int))
    (p : List uint8_t × Nat × Int) (B cnt : Nat) (c : coder_obj encoder)
    (hss : LEN_SIZE ≤ fresh.symbol_size)
    (hmax : fresh.symbols + fresh.symbol_size ≤ RLNC_MAX_PAYLOAD)
    (hc : coder.recoder_credit fresh.m_e1.val fresh.m_e2.val fresh.m_e3.val ≠ none)
    (hp : p.1.length ≤ fresh.symbol_size - LEN_SIZE)
    (hB : 1 ≤ B) (hcnt : cnt < fresh.symbols)
    (hlen : fs.length = (B - 1) * fresh.symbols + cnt)
    (hb : m.m_blocks ⟨src, dst, 0⟩ = some B) (hco : m.m_coders ⟨src, dst, B⟩ = some c)
    (hk : c._key = ⟨src, dst, B⟩) (hpc : c.role.m_plain_pkt_count = cnt)
    (hlike : encoder.like fresh c.role)
    (hinv : encoder_map.rolled fresh src dst m fs) :
    ∃ m1, encoder_map.handle_plain overshoot threshold fresh m ⟨src, dst, 0⟩ p.1 p.2.1 p.2.2
        = some m1 ∧
      encoder_map.rolled fresh src dst m1 (fs ++ [p]) := by
  have hl : LEN_SIZE = 2 := rfl
  have hR : RLNC_MAX_PAYLOAD = 1518 := rfl
  have hv : encoder.is_valid c.role = true := by
    unfold encoder.is_valid encoder.is_full
    rw [hpc, hlike.2.2.1]
    simp only [ge_iff_le, Bool.not_eq_true', decide_eq_false_iff_not, not_le]
    exact hcnt
  obtain ⟨e1, he1, hlike1⟩ := encoder.add_plain_packet_like threshold fresh c.role
    p.1 p.2.1 p.2.2 hlike hss hmax hc hp (by rw [hpc]; exact hcnt)
  obtain ⟨s1, _, _, s4, s5, _, _, _⟩ := encoder.add_plain_packet_slot threshold
    c.role e1 p.1 p.2.1 p.2.2 hlike.1 he1
  have hss2 : c.role.symbol_size = fresh.symbol_size := hlike.2.2.2.1
  have hcnt2 : e1.m_plain_pkt_count = cnt + 1 := by
    rw [s5, hpc]
    unfold uadd SIZE_MOD
    omega
  have hslot : slot_holds e1.m_symbol_storage fresh.symbol_size cnt p.1 := by
    rw [s4, hpc, hss2]
    exact slot_holds_write _ _ _ _ s1
  obtain ⟨a1, a2⟩ := encoder_map.block_arith_same B fresh.symbols cnt hcnt
  rw [encoder_map.handle_plain_found overshoot threshold fresh m src dst B c p.1 p.2.1 p.2.2
    hb hco hk hv, he1]
  refine ⟨_, rfl, ?_, ?_⟩
  · right
    refine ⟨B, cnt + 1, { c with role := e1 }, hB, by omega, by omega, ?_, hb, ?_, hk, hcnt2,
      hlike1⟩
    · rw [List.length_append, hlen]
      simp only [List.length_singleton]
      omega
    · unfold encoder_map.store
      rw [← hk]
      exact Function.update_same _ _ _
  · intro i hi
    have hi1 : i < fs.length + 1 := by
      rw [List.length_append, List.length_singleton] at hi
      exact hi
    rcases Nat.lt_or_ge i fs.length with hlt | hge
    · obtain ⟨ci, c1, c2, c3, c4, c5, c6, c7⟩ := hinv.2 i hlt
      by_cases hsame : 1 + i / fresh.symbols = B
      · rw [hsame] at c1
        rw [hco] at c1
        cases c1
        have hq : i / fresh.symbols = B - 1 := by omega
        refine ⟨{ c with role := e1 }, ?_, ?_, ?_, ?_, ?_, ?_, ?_⟩
        · unfold encoder_map.store
          rw [hsame, ← hk]
          exact Function.update_same _ _ _
        · rw [hsame]
          exact hk
        · simp only [List.get_eq_getElem, List.getElem_append_left hlt] at c3 ⊢
          exact c3
        · simp only [List.get_eq_getElem, List.getElem_append_left hlt] at c3 c4 ⊢
          have := encoder.add_plain_packet_keeps_slots threshold c.role e1 p.1 p.2.1 p.2.2
            hlike.1 he1 (i % fresh.symbols) (fs[i]).1 c5 (by rw [hss2]; exact c3)
            (by rw [hss2]; exact c4)
          rw [hss2] at this
          exact this
        · show i % fresh.symbols < e1.m_plain_pkt_count
          omega
        · show e1.m_plain_pkt_count ≤ fresh.symbols
          omega
        · show e1.m_plain_pkt_count = _
          rw [hq, List.length_append, List.length_singleton, hlen, hcnt2]
          omega
      · have hne : (⟨src, dst, 1 + i / fresh.symbols⟩ : key) ≠ c._key := by
          rw [hk]
          intro h
          injection h with _ _ h3
          exact hsame h3
        have hle : i / fresh.symbols ≤ B - 1 := by
          have := Nat.div_le_div_right (c := fresh.symbols) (Nat.le_of_lt hlt)
          rw [hlen, a1] at this
          exact this
        have hmul : i / fresh.symbols * fresh.symbols + fresh.symbols
            ≤ (B - 1) * fresh.symbols := by
          have := Nat.mul_le_mul_right fresh.symbols
            (show (i / fresh.symbols).succ ≤ B - 1 by omega)
          rw [Nat.succ_mul] at this
          exact this
        refine ⟨ci, ?_, c2, ?_, ?_, c5, c6, ?_⟩
        · unfold encoder_map.store
          simp only [Function.update_noteq hne]
          exact c1
        · simp only [List.get_eq_getElem, List.getElem_append_left hlt] at c3 ⊢
          exact c3
        · simp only [List.get_eq_getElem, List.getElem_append_left hlt] at c4 ⊢
          exact c4
        · rw [c7, List.length_append, List.length_singleton]
          omega
    · have hi2 : i = fs.length := by omega
      subst hi2
      have hkey : (⟨src, dst, 1 + fs.length / fresh.symbols⟩ : key) = ⟨src, dst, B⟩ := by
        rw [hlen, a1]
        congr 1
        omega
      have hget : (fs ++ [p]).get ⟨fs.length, hi⟩ = p := by
        simp
      have hm : fs.length % fresh.symbols = cnt := by rw [hlen, a2]
      have hq : fs.length / fresh.symbols = B - 1 := by rw [hlen, a1]
      rw [hkey, hm, hget, hq]
      refine ⟨{ c with role := e1 }, ?_, hk, by omega, hslot, ?_, ?_, ?_⟩
      · unfold encoder_map.store
        rw [← hk]
        exact Function.update_same _ _ _
      · show cnt < e1.m_plain_pkt_count
        omega
      · show e1.m_plain_pkt_count ≤ fresh.symbols
        omega
      · show e1.m_plain_pkt_count = _
        rw [hcnt2, List.length_append, List.length_singleton, hlen]
        omega


theorem encoder_map.rolled_step (overshoot threshold : ℚ) (fresh : encoder)
    (src dst : eth_addr) (m : coder_map encoder) (fs : List (List uint8_t × Nat × Int))
    (p : List uint8_t × Nat × Int)
    (hf1 : fresh.st.m_curr_state = encoder.STATE_WAIT)
    (hf2 : fresh.st.m_trans_table = encoder.trans_table)
    (hg : 1 ≤ fresh.symbols) (hss : LEN_SIZE ≤ fresh.symbol_size)
    (hmax : fresh.symbols + fresh.symbol_size ≤ RLNC_MAX_PAYLOAD)
    (hc : coder.recoder_credit fresh.m_e1.val fresh.m_e2.val fresh.m_e3.val ≠ none)
    (hp : p.1.length ≤ fresh.symbol_size - LEN_SIZE)
    (hn : fs.length + 1 < SIZE_MOD)
    (hinv : encoder_map.rolled fresh src dst m fs) :
    ∃ m1, encoder_map.handle_plain overshoot threshold fresh m ⟨src, dst, 0⟩ p.1 p.2.1 p.2.2
        = some m1 ∧
      encoder_map.rolled fresh src dst m1 (fs ++ [p]) := by
  rcases hinv.1 with ⟨h1, h2, h3⟩ | ⟨B, cnt, c, hB, hcnt1, hcnt, hlen, hb, hco, hk, hpc, hlike⟩
  · apply encoder_map.rolled_created overshoot threshold fresh src dst m fs p 0 hf1 hf2 hg hss
      hmax hc hp (by decide) (by rw [h2]; rfl) _ (by rw [h1]; simp) hinv
    intro c hc2
    rw [h3] at hc2
    cases hc2
  · by_cases hfull : cnt < fresh.symbols
    · exact encoder_map.rolled_found overshoot threshold fresh src dst m fs p B cnt c hss hmax hc
        hp hB hfull hlen hb hco hk hpc hlike hinv
    · have hcg : cnt = fresh.symbols := by omega
      obtain ⟨b1, _, _, b4, _⟩ := encoder_map.block_arith_next B fresh.symbols hB hg
      have hlen2 : fs.length = B * fresh.symbols := by rw [hlen, hcg, b1]
      apply encoder_map.rolled_created overshoot threshold fresh src dst m fs p B hf1 hf2 hg hss
        hmax hc hp (by omega) (by rw [hb]; rfl) _ hlen2 hinv
      intro c2 hc2
      rw [hco] at hc2
      cases hc2
      unfold encoder.is_valid encoder.is_full
      rw [hpc, hlike.2.2.1, hcg]
      simp

theorem encoder_map.rolled_run (overshoot threshold : ℚ) (fresh : encoder)
    (src dst : eth_addr)
    (hf1 : fresh.st.m_curr_state = encoder.STATE_WAIT)
    (hf2 : fresh.st.m_trans_table = encoder.trans_table)
    (hg : 1 ≤ fresh.symbols) (hss : LEN_SIZE ≤ fresh.symbol_size)
    (hmax : fresh.symbols + fresh.symbol_size ≤ RLNC_MAX_PAYLOAD)
    (hc : coder.recoder_credit fresh.m_e1.val fresh.m_e2.val fresh.m_e3.val ≠ none)
    (ps : List (List uint8_t × Nat × Int)) :
    ∀ (m : coder_map encoder) (fs : List (List uint8_t × Nat × Int)),
      (∀ p ∈ ps, p.1.length ≤ fresh.symbol_size - LEN_SIZE) →
      fs.length + ps.length < SIZE_MOD →
      encoder_map.rolled fresh src dst m fs →
      ∃ m1, encoder_map.run_from overshoot threshold fresh m
          (encoder_map.plain_events ⟨src, dst, 0⟩ ps) = some m1 ∧
        encoder_map.rolled fresh src dst m1 (fs ++ ps) := by
  induction ps with
  | nil =>
    intro m fs _ _ hinv
    refine ⟨m, rfl, ?_⟩
    rw [List.append_nil]
    exact hinv
  | cons p ps ih =>
    intro m fs hp hn hinv
    rw [List.length_cons] at hn
    obtain ⟨m1, hm1, hinv1⟩ := encoder_map.rolled_step overshoot threshold fresh src dst m fs p
      hf1 hf2 hg hss hmax hc (hp p (List.mem_cons_self _ _)) (by omega) hinv
    obtain ⟨m2, hm2, hinv2⟩ := ih m1 (fs ++ [p])
      (fun q hq => hp q (List.mem_cons_of_mem _ hq))
      (by rw [List.length_append, List.length_singleton]; omega) hinv1
    refine ⟨m2, ?_, ?_⟩
    · show encoder_map.run_from overshoot threshold fresh m
        (encoder_map.event.plain ⟨src, dst, 0⟩ p.1 p.2.1 p.2.2 ::
          encoder_map.plain_events ⟨src, dst, 0⟩ ps) = some m2
      simp only [encoder_map.run_from, encoder_map.step, hm1]
      exact hm2
    · rw [List.append_assoc] at hinv2
      exact hinv2

/-- C30: block rollover. Let `fresh` be an encoder as its constructor leaves it
(current state `STATE_WAIT`, the table of the constructor) with `g = symbols ≥ 1`
symbols whose sizes pass the start-up check and whose estimates give a credit.
Starting from the empty encoder map, `n < 2^64` plain frames of the flow
`(src, dst)` are dispatched with keys of block 0, each short enough for a
symbol slot, and nothing else happens in between. Then the run succeeds, and in
the resulting map frame `i` (0-based) is held by symbol slot `i % g` of the
encoder stored under the key `(src, dst, 1 + i / g)`, which carries that key;
that encoder has taken exactly `g` plain packets, or the `n - (i / g) * g`
remaining ones if it is the latest; so the first encoder of the flow has block 1
and a block is opened only after its predecessor has taken `g` packets. The
latest block of the flow is `1 + (n - 1) / g` once a frame has arrived. -/
theorem block_rollover (overshoot threshold : ℚ) (fresh : encoder) (src dst : eth_addr)
    (frames : List (List uint8_t × Nat × Int))
    (hf1 : fresh.st.m_curr_state = encoder.STATE_WAIT)
    (hf2 : fresh.st.m_trans_table = encoder.trans_table)
    (hg : 1 ≤ fresh.symbols) (hss : LEN_SIZE ≤ fresh.symbol_size)
    (hmax : fresh.symbols + fresh.symbol_size ≤ RLNC_MAX_PAYLOAD)
    (hc : coder.recoder_credit fresh.m_e1.val fresh.m_e2.val fresh.m_e3.val ≠ none)
    (hp : ∀ p ∈ frames, p.1.length ≤ fresh.symbol_size - LEN_SIZE)
    (hn : frames.length < SIZE_MOD) :
    ∃ m, encoder_map.run overshoot threshold fresh
        (encoder_map.plain_events ⟨src, dst, 0⟩ frames) = some m ∧
      (∀ i (hi : i < frames.length), ∃ c,
        m.m_coders ⟨src, dst, 1 + i / fresh.symbols⟩ = some c ∧
        c._key = ⟨src, dst, 1 + i / fresh.symbols⟩ ∧
        slot_holds c.role.m_symbol_storage fresh.symbol_size (i % fresh.symbols)
          (frames.get ⟨i, hi⟩).1 ∧
        c.role.m_plain_pkt_count
          = min fresh.symbols (frames.length - i / fresh.symbols * fresh.symbols)) ∧
      (0 < frames.length →
        m.m_blocks ⟨src, dst, 0⟩ = some (1 + (frames.length - 1) / fresh.symbols)) := by
  have h0 : encoder_map.rolled fresh src dst coder_map.empty [] := by
    refine ⟨Or.inl ⟨rfl, rfl, rfl⟩, ?_⟩
    intro i hi
    cases hi
  obtain ⟨m, hm, hinv⟩ := encoder_map.rolled_run overshoot threshold fresh src dst hf1 hf2 hg
    hss hmax hc frames coder_map.empty [] hp (by rw [List.length_nil]; omega) h0
  rw [List.nil_append] at hinv
  refine ⟨m, hm, ?_, ?_⟩
  · intro i hi
    obtain ⟨c, c1, c2, _, c4, _, _, c7⟩ := hinv.2 i hi
    exact ⟨c, c1, c2, c4, c7⟩
  · intro hpos
    rcases hinv.1 with ⟨h1, _, _⟩ | ⟨B, cnt, c, hB, hcnt1, hcnt, hlen, hb, _⟩
    · rw [h1] at hpos
      cases hpos
    · obtain ⟨a1, _⟩ := encoder_map.block_arith_same B fresh.symbols (cnt - 1) (by omega)
      have hl : frames.length - 1 = (B - 1) * fresh.symbols + (cnt - 1) := by omega
      rw [hb, hl, a1]
      congr 1
      omega

theorem block_rollover_witness :
    ∃ m, encoder_map.run (53 / 50) (1 / 10) sample_encoder
        (encoder_map.plain_events (sample_key 0)
          [([1, 2, 3], 1, 0), ([4], 2, 0), ([5, 6], 1, 0)]) = some m ∧
      (∀ i (hi : i < 3), ∃ c,
        m.m_coders ⟨(sample_key 0).src, (sample_key 0).dst, 1 + i / sample_encoder.symbols⟩
          = some c ∧
        c._key = ⟨(sample_key 0).src, (sample_key 0).dst, 1 + i / sample_encoder.symbols⟩ ∧
        slot_holds c.role.m_symbol_storage sample_encoder.symbol_size
          (i % sample_encoder.symbols)
          (([([1, 2, 3], 1, 0), ([4], 2, 0), ([5, 6], 1, 0)] :
            List (List uint8_t × Nat × Int)).get ⟨i, hi⟩).1 ∧
        c.role.m_plain_pkt_count
          = min sample_encoder.symbols (3 - i / sample_encoder.symbols * sample_encoder.symbols)) ∧
      (0 < 3 →
        m.m_blocks ⟨(sample_key 0).src, (sample_key 0).dst, 0⟩
          = some (1 + (3 - 1) / sample_encoder.symbols)) :=
  block_rollover (53 / 50) (1 / 10) sample_encoder (sample_key 0).src (sample_key 0).dst
    [([1, 2, 3], 1, 0), ([4], 2, 0), ([5, 6], 1, 0)] rfl rfl (by decide) (by decide) (by decide)
    (by decide!) (by decide) (by decide)

end Fox
